import Mathlib

/-!
# Verification development for `pdf/grayscale_transform/pdf_grayscale.go`

A shallow embedding of the validation and classification engine of the
grayscale transform test program (perceptual image comparison and colour
classification), followed by theorems about it.

## Modelling conventions

* Go `float64` is embedded as `F64`, an executable model of IEEE 754 binary64
  with round-to-nearest, ties-to-even.  A finite value is a sign together with
  a magnitude counted in units of `2^-1074` (the smallest subnormal), so every
  finite binary64 value has exactly one representation up to the sign of zero.
  NaN payloads are not modelled.
* Go `(bool, error)` results are embedded as `Bool × Option Error`, and a call
  that may `panic` returns an `Outcome`.
* The file system, the PNG decoder (`image.Decode`) and `filepath.Glob` /
  `filepath.Join` are library code outside the program; they are fields of the
  environment `Env` and every theorem holds for all environments.
* Log output (`common.Log.*`) is not modelled.
-/

namespace PdfGrayscale

/-! ## IEEE 754 binary64 -/

/-- Counts the binary digits of `n` on top of `acc`, halving at most `fuel` times. -/
def bitLenAux : Nat → Nat → Nat → Nat
  | 0, _, acc => acc
  | fuel + 1, n, acc => if n = 0 then acc else bitLenAux fuel (n / 2) (acc + 1)

/-- Number of binary digits of `n` (`0` for `0`). -/
def bitLen (n : Nat) : Nat := bitLenAux n n 0

/-- Round the non-negative rational `num / den` to the nearest multiple of `2^s`,
ties to the even multiple. -/
def roundAt (s num den : Nat) : Nat :=
  let step := den * 2 ^ s
  let m := num / step
  let r := num % step
  let up := decide (step < 2 * r) || (decide (2 * r = step) && decide (m % 2 = 1))
  (if up then m + 1 else m) * 2 ^ s

/-- Round the non-negative rational `num / den` to the nearest point of the
binary64 grid, ties to even.  Values are counted in units of `2^-1074`: below
`2^53` units the grid step is one unit (subnormals and the first binade), above
it the step is `2^(bitLen - 53)` units. -/
def roundGrid (num den : Nat) : Nat :=
  roundAt (bitLen (num / den) - 53) num den

/-- The first magnitude (in units of `2^-1074`) that is no longer finite: `2^1024`. -/
def overflowUnits : Nat := 2 ^ 2098

/-- One, counted in units of `2^-1074`. -/
def oneUnits : Nat := 2 ^ 1074

/-- A `float64` value. `fin neg k` is `(-1)^neg * k * 2^-1074`. -/
inductive F64 where
  | nan
  | inf (neg : Bool)
  | fin (neg : Bool) (k : Nat)
  deriving DecidableEq, Repr

namespace F64

/-- The `float64` nearest to `(-1)^neg * num / den * 2^-1074`, overflowing to an infinity. -/
@[irreducible]
def ofRat (neg : Bool) (num den : Nat) : F64 :=
  let k := roundGrid num den
  if overflowUnits ≤ k then inf neg else fin neg k

/-- Conversion `float64(n)` of an integer. -/
def ofInt (n : Int) : F64 := ofRat (decide (n < 0)) (n.natAbs * oneUnits) 1

/-- Conversion `float64(n)` of a natural number. -/
def ofNat (n : Nat) : F64 := ofRat false (n * oneUnits) 1

/-- Unary minus. -/
def neg : F64 → F64
  | nan => nan
  | inf s => inf (!s)
  | fin s k => fin (!s) k

/-- Sum of two finite values given as sign and magnitude; an exact zero sum is `+0`
unless both operands are negative (`-0 + -0 = -0`). -/
def addFin (s1 : Bool) (k1 : Nat) (s2 : Bool) (k2 : Nat) : F64 :=
  if s1 = s2 then ofRat s1 (k1 + k2) 1
  else if k2 < k1 then ofRat s1 (k1 - k2) 1
  else if k1 < k2 then ofRat s2 (k2 - k1) 1
  else fin false 0

/-- Addition `a + b`. -/
def add : F64 → F64 → F64
  | nan, _ => nan
  | _, nan => nan
  | inf s1, inf s2 => if s1 = s2 then inf s1 else nan
  | inf s1, fin _ _ => inf s1
  | fin _ _, inf s2 => inf s2
  | fin s1 k1, fin s2 k2 => addFin s1 k1 s2 k2

/-- Subtraction `a - b`. -/
def sub (a b : F64) : F64 := add a (neg b)

/-- Multiplication `a * b`. -/
def mul : F64 → F64 → F64
  | nan, _ => nan
  | _, nan => nan
  | inf s1, inf s2 => inf (xor s1 s2)
  | inf s1, fin s2 k2 => if k2 = 0 then nan else inf (xor s1 s2)
  | fin s1 k1, inf s2 => if k1 = 0 then nan else inf (xor s1 s2)
  | fin s1 k1, fin s2 k2 => ofRat (xor s1 s2) (k1 * k2) oneUnits

/-- Division `a / b`. -/
def div : F64 → F64 → F64
  | nan, _ => nan
  | _, nan => nan
  | inf _, inf _ => nan
  | inf s1, fin s2 _ => inf (xor s1 s2)
  | fin s1 _, inf s2 => fin (xor s1 s2) 0
  | fin s1 k1, fin s2 k2 =>
    if k2 = 0 then (if k1 = 0 then nan else inf (xor s1 s2))
    else ofRat (xor s1 s2) (k1 * oneUnits) k2

/-- Integer square root by binary search on the bits, from bit `b - 1` downwards. -/
def isqrtAux (n : Nat) : Nat → Nat → Nat
  | 0, r => r
  | b + 1, r => if (r + 2 ^ b) * (r + 2 ^ b) ≤ n then isqrtAux n b (r + 2 ^ b) else isqrtAux n b r

/-- Integer square root: the largest `r` with `r * r ≤ n`. -/
def isqrt (n : Nat) : Nat := isqrtAux n (bitLen n / 2 + 1) 0

/-- Square root `math.Sqrt(a)`, correctly rounded.  For `k` units the exact root is
`sqrt (k * 2^1074)` units; its integer part has at least 538 bits, so a sticky half
unit for an inexact root decides the rounding exactly. -/
def sqrt : F64 → F64
  | nan => nan
  | inf s => if s then nan else inf false
  | fin s k =>
    if k = 0 then fin s 0
    else if s then nan
    else
      let n := k * oneUnits
      let r := isqrt n
      ofRat false (2 * r + (if r * r = n then 0 else 1)) 2

/-- Signed value of a finite float in units of `2^-1074`. -/
def units (s : Bool) (k : Nat) : Int := if s then -(k : Int) else (k : Int)

/-- Comparison `a <= b`; false whenever an operand is NaN. -/
def le : F64 → F64 → Bool
  | nan, _ => false
  | _, nan => false
  | inf s1, inf s2 => s1 || !s2
  | inf s1, fin _ _ => s1
  | fin _ _, inf s2 => !s2
  | fin s1 k1, fin s2 k2 => decide (units s1 k1 ≤ units s2 k2)

/-- Comparison `a < b`; false whenever an operand is NaN. -/
def lt : F64 → F64 → Bool
  | nan, _ => false
  | _, nan => false
  | inf s1, inf s2 => s1 && !s2
  | inf s1, fin _ _ => s1
  | fin _ _, inf s2 => !s2
  | fin s1 k1, fin s2 k2 => decide (units s1 k1 < units s2 k2)

/-- Comparison `a > b`. -/
def gt (a b : F64) : Bool := lt b a

/-- The float64 nearest to the decimal constant `num / den` (a Go untyped constant
converted to `float64`). -/
def ofDecimal (num den : Nat) : F64 := ofRat false (num * oneUnits) den

/-- Whether a value is a `float64`: a finite magnitude lies on the binary64 grid (a
multiple of the grid step `2^(bitLen k - 53)` of its binade) below the overflow. -/
def onGrid : F64 → Bool
  | nan => true
  | inf _ => true
  | fin _ k => decide (k % 2 ^ (bitLen k - 53) = 0) && decide (k < overflowUnits)

end F64

/-! ## Data model -/

/-- An `error` value. -/
abbrev Error := String

/-- Result of a call that may `panic`. -/
inductive Outcome (α : Type) where
  | ret (v : α)
  | panicked (e : Error)
  deriving DecidableEq, Repr

/-- The result of `Color.RGBA()`: alpha-premultiplied samples on the scale `0..0xffff`. -/
structure Pixel where
  r : Nat
  g : Nat
  b : Nat
  a : Nat
  deriving DecidableEq, Repr

/-- A decoded `image.Image` whose bounds start at the origin: `maxX`, `maxY` are
`Bounds().Max.X`, `Bounds().Max.Y` and `pixelAt x y` is `At(x, y).RGBA()`.  An
in-memory image has fewer than `2^63` pixels, so `int` arithmetic on its dimensions
does not overflow. -/
structure Image where
  maxX : Nat
  maxY : Nat
  pixelAt : Nat → Nat → Pixel

/-- The `imageThreshold` struct: the threshold for image difference in image comparisons. -/
structure imageThreshold where
  fracPixels : F64
  mean : F64
  deriving DecidableEq, Repr

/-- The `identityThreshold` variable: `fracPixels: 1.0e-4, mean: 10.0`. -/
def identityThreshold : imageThreshold :=
  { fracPixels := F64.ofDecimal 1 10000, mean := F64.ofDecimal 10 1 }

/-- The library services the program calls: `readFile` is `ioutil.ReadFile` / `os.Open`
(the bytes of a file, or an error), `decode` is `image.Decode` on those bytes, `glob`
is `filepath.Glob` and `join` is `filepath.Join`. -/
structure Env where
  readFile : String → Except Error (List Nat)
  decode : List Nat → Except Error Image
  glob : String → Except Error (List String)
  join : String → String → String

/-! ## Perceptual comparator -/

/-- The function `readImage`: reads image file `path` and returns its contents as an Image. -/
def readImage (env : Env) (path : String) : Except Error Image :=
  match env.readFile path with
  | .error err => .error err
  | .ok bytes => env.decode bytes

/-- The function `meanFloatSlice`: the mean of the elements of `vals`. -/
def meanFloatSlice (vals : List F64) : F64 :=
  if vals.length = 0 then F64.fin false 0
  else F64.div (vals.foldl (fun total v => F64.add total v) (F64.fin false 0))
    (F64.ofNat vals.length)

/-- Body of the pixel loop of `imagesEqual` at `(x, y)`: appends the grayscale distance
of the two pixels to `different` when their red, green or blue samples differ. -/
def imagesEqualPixel (img1 img2 : Image) (x : Nat) (different : List F64) (y : Nat) :
    List F64 :=
  let p1 := img1.pixelAt x y
  let p2 := img2.pixelAt x y
  if p1.r ≠ p2.r ∨ p1.g ≠ p2.g ∨ p1.b ≠ p2.b then
    let d1 := F64.sub (F64.ofNat p1.r) (F64.ofNat p2.r)
    let d2 := F64.sub (F64.ofNat p1.g) (F64.ofNat p2.g)
    let d3 := F64.sub (F64.ofNat p1.b) (F64.ofNat p2.b)
    let distance := F64.sqrt (F64.add (F64.add (F64.mul d1 d1) (F64.mul d2 d2)) (F64.mul d3 d3))
    let distance := F64.div (F64.mul (F64.div distance (F64.ofNat 0xffff)) (F64.ofNat 0xff))
      (F64.ofDecimal 3 1)
    different ++ [distance]
  else different

/-- The two nested loops of `imagesEqual` (`x` outer, `y` inner) building `different`. -/
def imagesEqualScan (img1 img2 : Image) (w1 h1 : Nat) : List F64 :=
  (List.range w1).foldl
    (fun different x => (List.range h1).foldl (imagesEqualPixel img1 img2 x) different) []

/-- The function `imagesEqual`: compares files `path1` and `path2` and returns true if
they are the same within `threshold`. -/
def imagesEqual (env : Env) (path1 path2 : String) (threshold : imageThreshold) :
    Bool × Option Error :=
  match readImage env path1 with
  | .error err => (false, some err)
  | .ok img1 =>
    match readImage env path2 with
    | .error err => (false, some err)
    | .ok img2 =>
      let w1 := img1.maxX
      let h1 := img1.maxY
      let w2 := img2.maxX
      let h2 := img2.maxY
      if w1 ≠ w2 ∨ h1 ≠ h2 then (false, none)
      else
        let different := imagesEqualScan img1 img2 w1 h1
        if different.length = 0 then (true, none)
        else
          let fracPixels := F64.div (F64.ofNat different.length) (F64.ofNat (w1 * h1))
          let mean := meanFloatSlice different
          let equal := F64.le fracPixels threshold.fracPixels && F64.le mean threshold.mean
          (equal, none)

/-- The function `filesBinaryEqual`: compares files `path1` and `path2` and returns true
if they are identical; a read failure panics. -/
def filesBinaryEqual (env : Env) (path1 path2 : String) : Outcome (Bool × Option Error) :=
  match env.readFile path1 with
  | .error err => .panicked err
  | .ok f1 =>
    match env.readFile path2 with
    | .error err => .panicked err
    | .ok f2 => .ret (decide (f1 = f2), none)

/-- The function `filesEqual`: compares files `path1` and `path2` and returns true if
they are the same within `threshold`. -/
def filesEqual (env : Env) (path1 path2 : String) (threshold : imageThreshold) :
    Outcome (Bool × Option Error) :=
  match filesBinaryEqual env path1 path2 with
  | .panicked e => .panicked e
  | .ret (equal, err) =>
    if equal = true ∨ err ≠ none then .ret (equal, err)
    else .ret (imagesEqual env path1 path2 threshold)

/-- The loop of `directoriesEqual` over the indexes still to visit. -/
def directoriesEqualLoop (env : Env) (files1 files2 : List String)
    (threshold : imageThreshold) : List Nat → Outcome (Bool × Option Error)
  | [] => .ret (true, none)
  | i :: rest =>
    match filesEqual env (files1.getD i "") (files2.getD i "") threshold with
    | .panicked e => .panicked e
    | .ret (equal, err) =>
      if equal = false ∨ err ≠ none then .ret (equal, err)
      else directoriesEqualLoop env files1 files2 threshold rest

/-- The function `directoriesEqual`: compares image files that match `mask` in
directories `dir1` and `dir2` and returns true if they are the same within `threshold`. -/
def directoriesEqual (env : Env) (mask dir1 dir2 : String) (threshold : imageThreshold) :
    Outcome (Bool × Option Error) :=
  let pattern1 := env.join dir1 mask
  let pattern2 := env.join dir2 mask
  match env.glob pattern1 with
  | .error err => .panicked err
  | .ok files1 =>
    match env.glob pattern2 with
    | .error err => .panicked err
    | .ok files2 =>
      if files1.length ≠ files2.length then .ret (false, none)
      else directoriesEqualLoop env files1 files2 threshold (List.range files1.length)

/-! ## Colour classifier -/

/-- The constant `colorThreshold = 5.0`. -/
def colorThreshold : F64 := F64.ofDecimal 5 1

/-- Inner loop (over `y`) of `imgIsColor` for column `x`: true as soon as a pixel of the
column exceeds the threshold. -/
def imgIsColorColumn (img : Image) (x : Nat) : List Nat → Bool
  | [] => false
  | y :: rest =>
    let p := img.pixelAt x y
    let rg := (p.r : Int) - (p.g : Int)
    let gb := (p.g : Int) - (p.b : Int)
    let rg := if rg < 0 then -rg else rg
    let gb := if gb < 0 then -gb else gb
    let rgb := F64.mul (F64.div (F64.ofInt (rg + gb)) (F64.ofNat 0xFFFF)) (F64.ofNat 0xFF)
    if F64.gt rgb colorThreshold = true then true
    else imgIsColorColumn img x rest

/-- Outer loop (over `x`) of `imgIsColor`. -/
def imgIsColorLoop (img : Image) (h : Nat) : List Nat → Bool
  | [] => false
  | x :: rest =>
    if imgIsColorColumn img x (List.range h) = true then true
    else imgIsColorLoop img h rest

/-- The function `imgIsColor`: returns true if image `img` contains color. -/
def imgIsColor (img : Image) : Bool :=
  imgIsColorLoop img img.maxY (List.range img.maxX)

/-- The summary computed by `summarizeSeries`, before it is formatted by
`fmt.Sprintf("n=%d min=%.3f mean=%.3f max=%.3f", n, min, mean, max)`. -/
structure Summary where
  n : Nat
  min : F64
  mean : F64
  max : F64
  deriving DecidableEq, Repr

/-- Running state of the loop of `summarizeSeries`. -/
structure SeriesAcc where
  total : F64
  min : F64
  max : F64
  deriving DecidableEq, Repr

/-- The function `summarizeSeries` (the arguments it passes to `fmt.Sprintf`). -/
def summarizeSeries (data : List F64) : Summary :=
  let n := data.length
  let acc := data.foldl
    (fun (acc : SeriesAcc) x =>
      { total := F64.add acc.total x
        min := if F64.lt x acc.min = true then x else acc.min
        max := if F64.gt x acc.max = true then x else acc.max })
    { total := F64.fin false 0
      min := F64.ofDecimal 100000000000000000000 1
      max := F64.neg (F64.ofDecimal 100000000000000000000 1) }
  let mean := F64.div acc.total (F64.ofNat n)
  { n := n, min := acc.min, mean := mean, max := acc.max }

/-- The function `image.NewNRGBA(r)` for bounds starting at the origin: every pixel is
the zero colour (transparent black). -/
def Image.newNRGBA (maxX maxY : Nat) : Image :=
  { maxX := maxX, maxY := maxY, pixelAt := fun _ _ => { r := 0, g := 0, b := 0, a := 0 } }

/-- The method `(*image.NRGBA).Set(x, y, c)`: stores `c` at `(x, y)` when the point lies
inside the bounds and does nothing otherwise. -/
def Image.set (img : Image) (x y : Nat) (c : Pixel) : Image :=
  if x < img.maxX ∧ y < img.maxY then
    { img with pixelAt := fun x1 y1 => if x1 = x ∧ y1 = y then c else img.pixelAt x1 y1 }
  else img

/-- The value `color.RGBA{0, 0, 0, 255}` as returned by `RGBA()` once stored in an
`image.NRGBA`: opaque black. -/
def black : Pixel := { r := 0, g := 0, b := 0, a := 0xffff }

/-- Body of the pixel loop of `imgMarkColor` at `(x, y)` on the state `(img, data)`. -/
def imgMarkColorPixel (imgIn : Image) (x : Nat) (st : Image × List F64) (y : Nat) :
    Image × List F64 :=
  let p := imgIn.pixelAt x y
  let rg := (p.r : Int) - (p.g : Int)
  let gb := (p.g : Int) - (p.b : Int)
  let rg := if rg < 0 then -rg else rg
  let gb := if gb < 0 then -gb else gb
  let rgb := F64.mul (F64.div (F64.ofInt (rg + gb)) (F64.ofNat 0xFFFF)) (F64.ofNat 0xFF)
  if F64.gt rgb colorThreshold = true then (st.1.set x y black, st.2 ++ [rgb])
  else st

/-- The two nested loops of `imgMarkColor` (`x` outer, `y` inner). -/
def imgMarkColorScan (imgIn : Image) (w h : Nat) (st : Image × List F64) :
    Image × List F64 :=
  (List.range w).foldl
    (fun st x => (List.range h).foldl (imgMarkColorPixel imgIn x) st) st

/-- The function `imgMarkColor`: the image with the coloured pixels of `imgIn` marked,
and the summary of their colour scores. -/
def imgMarkColor (imgIn : Image) : Image × Summary :=
  let img := Image.newNRGBA imgIn.maxX imgIn.maxY
  let w := img.maxX
  let h := img.maxY
  let st := imgMarkColorScan imgIn w h (img, [])
  (st.1, summarizeSeries st.2)

/-! ## Notions used to state the properties -/

/-- The pixel coordinates of a `w × h` raster in the order the loops visit them
(`x` outer, `y` inner). -/
def scanCoords (w h : Nat) : List (Nat × Nat) :=
  (List.range w).flatMap (fun x => (List.range h).map (fun y => (x, y)))

/-- Two pixels differ when their red, green or blue samples are not all equal. -/
def pixelsDiffer (p1 p2 : Pixel) : Bool :=
  decide (p1.r ≠ p2.r ∨ p1.g ≠ p2.g ∨ p1.b ≠ p2.b)

/-- The diff sample of two pixels: the Euclidean distance of their (R, G, B) vectors on
the scale `0..0xffff`, rescaled to `0..0xff` and divided by 3. -/
def diffSample (p1 p2 : Pixel) : F64 :=
  let dr := F64.sub (F64.ofNat p1.r) (F64.ofNat p2.r)
  let dg := F64.sub (F64.ofNat p1.g) (F64.ofNat p2.g)
  let db := F64.sub (F64.ofNat p1.b) (F64.ofNat p2.b)
  F64.div
    (F64.mul
      (F64.div (F64.sqrt (F64.add (F64.add (F64.mul dr dr) (F64.mul dg dg)) (F64.mul db db)))
        (F64.ofNat 65535))
      (F64.ofNat 255))
    (F64.ofNat 3)

/-- The coordinates at which two rasters of the size of `img1` differ, in scan order. -/
def differingPixels (img1 img2 : Image) : List (Nat × Nat) :=
  (scanCoords img1.maxX img1.maxY).filter
    (fun c => pixelsDiffer (img1.pixelAt c.1 c.2) (img2.pixelAt c.1 c.2))

/-- The diff samples of the differing pixels of two rasters, in scan order. -/
def diffSamples (img1 img2 : Image) : List F64 :=
  (differingPixels img1 img2).map
    (fun c => diffSample (img1.pixelAt c.1 c.2) (img2.pixelAt c.1 c.2))

/-- The colour score of a pixel: `|R-G| + |G-B|` rescaled from the sample scale
`0..0xFFFF` to the scale `0..255`. -/
def colorScore (p : Pixel) : F64 :=
  F64.mul (F64.div (F64.ofNat (Int.natAbs ((p.r : Int) - p.g) + Int.natAbs ((p.g : Int) - p.b)))
    (F64.ofNat 65535)) (F64.ofNat 255)

/-- A pixel is coloured when its colour score is strictly greater than `colorThreshold`. -/
def isColored (p : Pixel) : Bool := F64.gt (colorScore p) colorThreshold

/-- A float that is `+Inf` or a finite value with the sign bit clear. -/
def F64.NonNeg (a : F64) : Prop := a = F64.inf false ∨ ∃ k, a = F64.fin false k

/-- The rescaling `float64(n) / float64(0xFFFF) * float64(0xFF)` of the colour
classifier, as a function of the integer `n`. -/
def rescale (n : Nat) : F64 :=
  F64.mul (F64.div (F64.ofNat n) (F64.ofNat 65535)) (F64.ofNat 255)

/-! ## Sample inputs -/

/-- Opaque black. -/
def blackPixel : Pixel := { r := 0, g := 0, b := 0, a := 0xffff }

/-- Opaque white. -/
def whitePixel : Pixel := { r := 0xffff, g := 0xffff, b := 0xffff, a := 0xffff }

/-- Opaque mid gray. -/
def grayPixel : Pixel := { r := 0x8080, g := 0x8080, b := 0x8080, a := 0xffff }

/-- Opaque pure red. -/
def redPixel : Pixel := { r := 0xffff, g := 0, b := 0, a := 0xffff }

/-- A 10x10 all-black raster. -/
def blackImage10 : Image := { maxX := 10, maxY := 10, pixelAt := fun _ _ => blackPixel }

/-- A 10x10 black raster with the single pixel (3, 4) white. -/
def dotImage10 : Image :=
  { maxX := 10, maxY := 10
    pixelAt := fun x y => if x = 3 ∧ y = 4 then whitePixel else blackPixel }

/-- A 20x10 all-black raster. -/
def wideImage : Image := { maxX := 20, maxY := 10, pixelAt := fun _ _ => blackPixel }

/-- A 5x5 all-gray raster. -/
def grayImage5 : Image := { maxX := 5, maxY := 5, pixelAt := fun _ _ => grayPixel }

/-- The 5x5 gray raster with the single pixel (2, 1) pure red. -/
def redDotImage5 : Image :=
  { maxX := 5, maxY := 5
    pixelAt := fun x y => if x = 2 ∧ y = 1 then redPixel else grayPixel }

/-- The threshold `{fracPixels: 0, mean: 0}`. -/
def zeroThreshold : imageThreshold := { fracPixels := F64.fin false 0, mean := F64.fin false 0 }

/-- The threshold `{fracPixels: 0.02, mean: 255}`. -/
def looseThreshold : imageThreshold := { fracPixels := F64.ofDecimal 2 100, mean := F64.ofNat 255 }

/-- The threshold `{fracPixels: 0.02, mean: 200}`. -/
def midThreshold : imageThreshold := { fracPixels := F64.ofDecimal 2 100, mean := F64.ofNat 200 }

/-- The threshold `{fracPixels: 0.5, mean: 255}`. -/
def wideThreshold : imageThreshold := { fracPixels := F64.ofDecimal 5 10, mean := F64.ofNat 255 }

/-- The files of the sample file system, each with its bytes. -/
def sampleFiles : List (String × List Nat) :=
  [ ("black.png", [0]), ("black-copy.png", [0, 0]), ("dot.png", [1]), ("wide.png", [2]),
    ("notes.txt", [7, 7]), ("notes-copy.txt", [7, 7]),
    ("d1/doc-001.png", [0]), ("d1/doc-002.png", [1]),
    ("d2/doc-001.png", [0, 0]), ("d2/doc-002.png", [1]) ]

/-- A sample environment: the files of `sampleFiles`, a decoder that knows four byte
strings, and three directories of which `d3` lists a file that cannot be read. -/
def sampleEnv : Env :=
  { readFile := fun path =>
      match sampleFiles.lookup path with
      | some bytes => .ok bytes
      | none => .error "open: no such file or directory"
    decode := fun bytes =>
      if bytes = [0] ∨ bytes = [0, 0] then .ok blackImage10
      else if bytes = [1] then .ok dotImage10
      else if bytes = [2] then .ok wideImage
      else .error "image: unknown format"
    glob := fun pattern =>
      if pattern = "d1/*.png" then .ok ["d1/doc-001.png", "d1/doc-002.png"]
      else if pattern = "d2/*.png" then .ok ["d2/doc-001.png", "d2/doc-002.png"]
      else if pattern = "d3/*.png" then .ok ["d3/doc-001.png"]
      else .ok []
    join := fun dir name => dir ++ "/" ++ name }

/-! ## Corpus ordering -/

/-- Comparison `a < b` of two Go strings given as character lists.  Go compares the
bytes of the UTF-8 encodings, which orders strings as their code points do. -/
def lexLess : List Char → List Char → Bool
  | [], [] => false
  | [], _ :: _ => true
  | _ :: _, [] => false
  | x :: xs, y :: ys =>
    if x.toNat < y.toNat then true
    else if y.toNat < x.toNat then false
    else lexLess xs ys

/-- Comparison `a < b` of two Go strings. -/
def strLess (a b : String) : Bool := lexLess a.toList b.toList

/-- The struct `FileData`: a path together with the size `os.Stat` reports for it. -/
structure FileData where
  path : String
  size : Int
  deriving DecidableEq, Repr

/-- The method `byFile.Less` on two entries: by size, then by path. -/
def byFileLess (a b : FileData) : Bool :=
  if a.size ≠ b.size then decide (a.size < b.size)
  else strLess a.path b.path

/-- The order `a` not after `b` used to state the result of `sort.Stable(byFile(fdList))`. -/
def byFileLE (a b : FileData) : Prop := byFileLess b a = false

instance byFileLE_decidable : DecidableRel byFileLE :=
  fun a b => inferInstanceAs (Decidable (byFileLess b a = false))

/-- Loop of the function `sort.Search`: binary search between `i` and `j`. -/
def searchLoop (f : Nat → Bool) : Nat → Nat → Nat → Nat
  | 0, i, _ => i
  | fuel + 1, i, j =>
    if i < j then
      let h := (i + j) / 2
      if f h = false then searchLoop f fuel (h + 1) j
      else searchLoop f fuel i h
    else i

/-- The function `sort.Search(n, f)`: binary search for the smallest index in `[0, n]`
at which `f` is true.  The interval shrinks at every step, so `n` steps are enough. -/
def search (n : Nat) (f : Nat → Bool) : Nat := searchLoop f n 0 n

/-- First loop of `sortFiles`: `os.Stat` on every path, panicking on the first failure. -/
def statFiles (stat : String → Except Error Int) : List String → Outcome (List FileData)
  | [] => .ret []
  | path :: rest =>
    match stat path with
    | .error err => .panicked err
    | .ok size =>
      match statFiles stat rest with
      | .panicked e => .panicked e
      | .ret fds => .ret ({ path := path, size := size } :: fds)

/-- The size `fdList[i].Size()` read by the closures given to `sort.Search`. -/
def sizeAt (fdList : List FileData) (i : Nat) : Int :=
  (fdList.getD i { path := "", size := 0 }).size

/-- The index `i0` of `sortFiles`: `0`, or for `minSize >= 0` the result of
`sort.Search(len(fdList), func(i int) bool { return fdList[i].Size() >= minSize })`. -/
def sortFilesLow (fdList : List FileData) (minSize : Int) : Nat :=
  if minSize ≥ 0 then search fdList.length (fun i => decide (sizeAt fdList i ≥ minSize))
  else 0

/-- The index `i1` of `sortFiles`: `n`, or for `maxSize >= 0` the result of
`sort.Search(len(fdList), func(i int) bool { return fdList[i].Size() >= maxSize })`. -/
def sortFilesHigh (fdList : List FileData) (n : Nat) (maxSize : Int) : Nat :=
  if maxSize ≥ 0 then search fdList.length (fun i => decide (sizeAt fdList i ≥ maxSize))
  else n

/-- The function `sortFiles`: the paths of the files in `pathList` sorted by ascending
size, cut to `fdList[i0:i1]`; `stat path` is the size `os.Stat(path)` reports.  The
stable sort is the sorted arrangement that keeps equal entries in their order. -/
def sortFiles (stat : String → Except Error Int) (pathList : List String)
    (minSize maxSize : Int) : Outcome (List String) :=
  match statFiles stat pathList with
  | .panicked e => .panicked e
  | .ret fdList0 =>
    let n := fdList0.length
    let fdList := fdList0.insertionSort byFileLE
    let i0 := sortFilesLow fdList minSize
    let i1 := sortFilesHigh fdList n maxSize
    if i0 ≤ i1 then .ret (((fdList.drop i0).take (i1 - i0)).map (fun fd => fd.path))
    else .panicked "runtime error: slice bounds out of range"

/-- Sizes of the sample corpus. -/
def sampleStat (path : String) : Except Error Int :=
  if path = "a.pdf" then .ok 100
  else if path = "b.pdf" then .ok 50
  else if path = "c.pdf" then .ok 100
  else if path = "d.pdf" then .ok 7
  else .error "stat: no such file or directory"

/-! ## Regression ledger -/

deriving instance DecidableEq for Except

/-- The struct `testResult`: one record of the ledger. -/
structure testResult where
  name : String
  colorIn : Bool
  colorOut : Bool
  numPages : Int
  duration : F64
  xobjImg : Int
  xobjForm : Int
  deriving DecidableEq, Repr

/-- The struct `statistics`.  The Go map `testResultMap` is `none` while it is nil and
otherwise the function from a key to its value. -/
structure statistics where
  enabled : Bool
  testResultPath : String
  imageInfoPath : String
  testResultList : List testResult
  testResultMap : Option (String → Option Nat)

/-- The library code under the ledger file: `csvWrite rows` is the bytes `csv.Writer`
produces for the rows written to it, `csvRead bytes` is the rows successive calls of
`csv.Reader.Read` return before `io.EOF` (then no error) or before an error, and
`parseFloat s` is `strconv.ParseFloat(s, 64)`. -/
structure Stdlib where
  csvWrite : List (List String) → List Nat
  csvRead : List Nat → List (List String) × Option Error
  parseFloat : String → Except Error F64

/-- The files on disk: `content path` is the bytes of the file (`none` when there is no
such file), and `denied path` says that opening the file fails. -/
structure Disk where
  content : String → Option (List Nat)
  denied : String → Bool

/-- The disk after writing `bytes` to `path`. -/
def Disk.write (disk : Disk) (path : String) (bytes : List Nat) : Disk :=
  { disk with content := fun p => if p = path then some bytes else disk.content p }

/-- The character of a decimal digit. -/
def digitChar (d : Nat) : Char := Char.ofNat (48 + d)

/-- The decimal digits of `n` in front of `acc`, most significant first. -/
def natDigits : Nat → Nat → List Char → List Char
  | 0, _, acc => acc
  | fuel + 1, n, acc =>
    if n / 10 = 0 then digitChar (n % 10) :: acc
    else natDigits fuel (n / 10) (digitChar (n % 10) :: acc)

/-- The verb `%d` on a natural number. -/
def formatNat (n : Nat) : String := String.mk (natDigits (n + 1) n [])

/-- The call `fmt.Sprintf("%d", n)`. -/
def formatInt (n : Int) : String :=
  if n < 0 then "-" ++ formatNat n.natAbs else formatNat n.natAbs

/-- The call `fmt.Sprintf("%t", b)`. -/
def formatBool (b : Bool) : String := if b then "true" else "false"

/-- The call `fmt.Sprintf("%.3f", x)`: the value rounded to a whole number of
thousandths, ties to even, with three digits after the point. -/
def formatFloat3 : F64 → String
  | .nan => "NaN"
  | .inf s => if s then "-Inf" else "+Inf"
  | .fin s k =>
    let t := roundAt 0 (k * 1000) oneUnits
    (if s then "-" else "") ++ formatNat (t / 1000) ++ "." ++
      String.mk [digitChar (t % 1000 / 100), digitChar (t % 100 / 10), digitChar (t % 10)]

/-- The function `unicode.IsSpace`. -/
def isSpace (c : Char) : Bool :=
  let n := c.toNat
  (9 ≤ n && n ≤ 13) || n = 32 || n = 0x85 || n = 0xA0 || n = 0x1680 ||
    (0x2000 ≤ n && n ≤ 0x200A) || n = 0x2028 || n = 0x2029 || n = 0x202F || n = 0x205F ||
    n = 0x3000

/-- The function `strings.TrimSpace`. -/
def trimSpace (s : String) : String :=
  String.mk ((s.toList.dropWhile isSpace).reverse.dropWhile isSpace).reverse

/-- The function `strings.ToLower` on one character, exact for every character whose
lower case is an ASCII letter (`A`..`Z`, U+0130 and U+212A); other characters are left
unchanged, which changes no comparison with an ASCII word. -/
def lowerChar (c : Char) : Char :=
  let n := c.toNat
  if 65 ≤ n ∧ n ≤ 90 then Char.ofNat (n + 32)
  else if n = 0x130 then 'i'
  else if n = 0x212A then 'k'
  else c

/-- The function `toBool`. -/
def toBool (s : String) : Bool :=
  decide (String.mk ((trimSpace s).toList.map lowerChar) = "true")

/-- The value of a string of decimal digits on top of `acc`, if it is one. -/
def parseDigits : List Char → Nat → Option Nat
  | [], acc => some acc
  | c :: rest, acc =>
    if 48 ≤ c.toNat ∧ c.toNat ≤ 57 then parseDigits rest (acc * 10 + (c.toNat - 48))
    else none

/-- The value of a non-empty string of decimal digits. -/
def parseNat (cs : List Char) : Option Nat :=
  match cs with
  | [] => none
  | _ :: _ => parseDigits cs 0

/-- The function `strconv.Atoi` for a 64-bit `int`: an optional sign, decimal digits,
and a range check. -/
def atoi (s : String) : Option Int :=
  match s.toList with
  | '-' :: rest =>
    match parseNat rest with
    | some n => if n ≤ 2 ^ 63 then some (-(n : Int)) else none
    | none => none
  | '+' :: rest =>
    match parseNat rest with
    | some n => if n < 2 ^ 63 then some (n : Int) else none
    | none => none
  | cs =>
    match parseNat cs with
    | some n => if n < 2 ^ 63 then some (n : Int) else none
    | none => none

/-- The function `toInt`: panics when `strconv.Atoi` fails. -/
def toInt (s : String) : Outcome Int :=
  match atoi (trimSpace s) with
  | some x => .ret x
  | none => .panicked "strconv.Atoi: invalid syntax or value out of range"

/-- The function `toFloat`: panics when `strconv.ParseFloat` fails. -/
def toFloat (lib : Stdlib) (s : String) : Outcome F64 :=
  match lib.parseFloat (trimSpace s) with
  | .ok x => .ret x
  | .error err => .panicked err

/-- The composite literal of `testResultRead` for one row: the fields are read and
converted in order, and a missing field or a failed conversion panics. -/
def rowToResult (lib : Stdlib) (row : List String) : Outcome testResult :=
  match row.get? 0, row.get? 1, row.get? 2, row.get? 3 with
  | some f0, some f1, some f2, some f3 =>
    match toInt f3 with
    | .panicked e => .panicked e
    | .ret numPages =>
      match row.get? 4 with
      | none => .panicked "runtime error: index out of range"
      | some f4 =>
        match toFloat lib f4 with
        | .panicked e => .panicked e
        | .ret duration =>
          match row.get? 5 with
          | none => .panicked "runtime error: index out of range"
          | some f5 =>
            match toInt f5 with
            | .panicked e => .panicked e
            | .ret xobjImg =>
              match row.get? 6 with
              | none => .panicked "runtime error: index out of range"
              | some f6 =>
                match toInt f6 with
                | .panicked e => .panicked e
                | .ret xobjForm =>
                  .ret { name := f0, colorIn := toBool f1, colorOut := toBool f2,
                         numPages := numPages, duration := duration,
                         xobjImg := xobjImg, xobjForm := xobjForm }
  | _, _, _, _ => .panicked "runtime error: index out of range"

/-- The rows after the header row converted in order. -/
def rowsToResults (lib : Stdlib) : List (List String) → Outcome (List testResult)
  | [] => .ret []
  | row :: rest =>
    match rowToResult lib row with
    | .panicked e => .panicked e
    | .ret e =>
      match rowsToResults lib rest with
      | .panicked err => .panicked err
      | .ret results => .ret (e :: results)

/-- The function `testResultRead`. -/
def testResultRead (lib : Stdlib) (disk : Disk) (path : String) :
    Outcome (List testResult × Option Error) :=
  match disk.content path with
  | none => .ret ([], none)
  | some bytes =>
    if disk.denied path = true then .ret ([], some "open: permission denied")
    else
      match rowsToResults lib (lib.csvRead bytes).1.tail with
      | .panicked e => .panicked e
      | .ret results => .ret (results, (lib.csvRead bytes).2)

/-- The header row written by `testResultWrite`. -/
def ledgerHeader : List String :=
  ["name", "colorIn", "colorOut", "numPages", "duration", "imageXobj", "formXobj"]

/-- The row `testResultWrite` writes for one record. -/
def resultToRow (e : testResult) : List String :=
  [e.name, formatBool e.colorIn, formatBool e.colorOut, formatInt e.numPages,
    formatFloat3 e.duration, formatInt e.xobjImg, formatInt e.xobjForm]

/-- The function `testResultWrite`: the disk afterwards and the error returned. -/
def testResultWrite (lib : Stdlib) (disk : Disk) (path : String) (results : List testResult) :
    Disk × Option Error :=
  if disk.denied path = true then (disk, some "open: permission denied")
  else (disk.write path (lib.csvWrite (ledgerHeader :: results.map resultToRow)), none)

/-- The method `statistics._save`. -/
def statistics._save (lib : Stdlib) (disk : Disk) (s : statistics) : Disk × Option Error :=
  if s.enabled = false then (disk, none)
  else testResultWrite lib disk s.testResultPath s.testResultList

/-- The method `statistics.addTestResult`.  Writing to a nil map and indexing the list
out of range panic. -/
def statistics.addTestResult (lib : Stdlib) (disk : Disk) (s : statistics) (e : testResult)
    (force : Bool) : Outcome (Disk × statistics) :=
  if s.enabled = false then .ret (disk, s)
  else
    let found : Option Nat :=
      match s.testResultMap with
      | none => none
      | some m => m e.name
    let updated : Outcome statistics :=
      match found with
      | none =>
        match s.testResultMap with
        | none => .panicked "assignment to entry in nil map"
        | some m =>
          .ret { s with
            testResultList := s.testResultList ++ [e]
            testResultMap := some (fun key =>
              if key = e.name then some ((s.testResultList ++ [e]).length - 1) else m key) }
      | some i =>
        if i < s.testResultList.length then
          .ret { s with testResultList := s.testResultList.set i e }
        else .panicked "runtime error: index out of range"
    match updated with
    | .panicked err => .panicked err
    | .ret s1 => if force = true then .ret ((s1._save lib disk).1, s1) else .ret (disk, s1)

/-- A sequence of calls of `addTestResult`, each with its `force` argument. -/
def statistics.addSequence (lib : Stdlib) :
    Disk → statistics → List (testResult × Bool) → Outcome (Disk × statistics)
  | disk, s, [] => .ret (disk, s)
  | disk, s, (e, force) :: rest =>
    match s.addTestResult lib disk e force with
    | .panicked err => .panicked err
    | .ret (disk1, s1) => statistics.addSequence lib disk1 s1 rest

/-- The method `statistics.load`: the disk and the ledger afterwards and the error
returned. -/
def statistics.load (lib : Stdlib) (disk : Disk) (s : statistics) :
    Outcome (Disk × statistics × Option Error) :=
  if s.enabled = false then .ret (disk, s, none)
  else
    let s0 : statistics := { s with testResultList := [], testResultMap := some (fun _ => none) }
    match testResultRead lib disk s0.testResultPath with
    | .panicked e => .panicked e
    | .ret (testResultList, err) =>
      if err ≠ none then .ret (disk, s0, err)
      else
        match statistics.addSequence lib disk s0 (testResultList.map (fun e => (e, true))) with
        | .panicked e => .panicked e
        | .ret (disk1, s1) => .ret (disk1, s1, none)

/-- The variable `testStats` as declared: enabled, not yet loaded. -/
def testStats : statistics :=
  { enabled := true, testResultPath := "xform.test.results.csv", imageInfoPath := "",
    testResultList := [], testResultMap := none }

/-- The ledger invariant: the map is allocated and sends a name to `i` exactly when the
record at index `i` of the list has that name. -/
def statistics.Valid (s : statistics) : Prop :=
  ∃ m, s.testResultMap = some m ∧
    ∀ name i, m name = some i ↔ ∃ r, s.testResultList[i]? = some r ∧ r.name = name

/-- Splits `bytes` at every `sep`; `cur` holds the current piece in reverse. -/
def splitBytes (sep : Nat) : List Nat → List Nat → List (List Nat)
  | [], cur => [cur.reverse]
  | b :: rest, cur =>
    if b = sep then cur.reverse :: splitBytes sep rest []
    else splitBytes sep rest (b :: cur)

/-- The sample CSV writer: fields joined by commas, one line per row.  It produces what
`csv.Writer` produces for ASCII fields free of commas, quotes, line breaks and leading
spaces. -/
def sampleCsvWrite (rows : List (List String)) : List Nat :=
  (rows.map (fun row => (String.intercalate "," row ++ "\n").toList.map Char.toNat)).flatten

/-- The sample CSV reader: the non-empty lines split at commas, and no error. -/
def sampleCsvRead (bytes : List Nat) : List (List String) × Option Error :=
  (((splitBytes 10 bytes []).filter (fun line => !line.isEmpty)).map
    (fun line => (splitBytes 44 line []).map (fun field => String.mk (field.map Char.ofNat))),
   none)

/-- The sample float parser: `NaN`, the infinities, and decimal numbers
`[+-]digits[.digits]`, each converted to the nearest float64 as `strconv.ParseFloat`
does; every other string is rejected. -/
def sampleParseFloat (s : String) : Except Error F64 :=
  if s = "NaN" then .ok .nan
  else if s = "+Inf" ∨ s = "Inf" then .ok (.inf false)
  else if s = "-Inf" then .ok (.inf true)
  else
    let cs := s.toList
    let neg := decide (cs.head? = some '-')
    let body := if cs.head? = some '-' ∨ cs.head? = some '+' then cs.tail else cs
    let whole := body.takeWhile (fun c => c ≠ '.')
    let frac := (body.dropWhile (fun c => c ≠ '.')).tail
    match parseNat (whole ++ frac) with
    | some n => .ok (F64.ofRat neg (n * oneUnits) (10 ^ frac.length))
    | none => .error "strconv.ParseFloat: invalid syntax"

/-- The sample library. -/
def sampleLib : Stdlib :=
  { csvWrite := sampleCsvWrite, csvRead := sampleCsvRead, parseFloat := sampleParseFloat }

/-- A disk with no file, on which every file can be opened. -/
def emptyDisk : Disk := { content := fun _ => none, denied := fun _ => false }

/-- The record named `a` with no pages. -/
def recordA : testResult :=
  { name := "a", colorIn := true, colorOut := false, numPages := 0,
    duration := F64.fin false 0, xobjImg := 0, xobjForm := 0 }

/-- The record named `a` with five pages. -/
def recordA5 : testResult :=
  { name := "a", colorIn := true, colorOut := false, numPages := 5,
    duration := F64.fin false 0, xobjImg := 0, xobjForm := 0 }

/-- The record named `b`. -/
def recordB : testResult :=
  { name := "b", colorIn := false, colorOut := false, numPages := 2,
    duration := F64.ofDecimal 15 10, xobjImg := 3, xobjForm := 1 }

/-- The loaded ledger holding the single record `recordA`. -/
def ledgerA : statistics :=
  { enabled := true, testResultPath := "xform.test.results.csv", imageInfoPath := "",
    testResultList := [recordA],
    testResultMap := some (fun key => if key = "a" then some 0 else none) }

/-- A disk whose ledger file repeats the name `a`. -/
def repeatDisk : Disk :=
  emptyDisk.write "xform.test.results.csv"
    (sampleCsvWrite [ledgerHeader, resultToRow recordA, resultToRow recordB,
      resultToRow recordA5])

/-- Whether an outcome is a normal return. -/
def Outcome.isRet {α : Type} : Outcome α → Bool
  | .ret _ => true
  | .panicked _ => false

/-- The record list of the ledger a call of `load` returns, if it returns. -/
def loadedList (lib : Stdlib) (disk : Disk) (s : statistics) : Option (List testResult) :=
  match s.load lib disk with
  | .ret (_, s1, _) => some s1.testResultList
  | .panicked _ => none

/-! ## Corpus run -/

/-- What the functions called in the loop of `main` return for a corpus item.  They run
the PDF library, `pdftops` and Ghostscript on the item, which are outside the program;
`fileSize` and `modifyPath` may panic, and so may `isPdfColor`. -/
structure Tools where
  fileSize : String → Outcome Int
  modifyPath : String → String → Outcome String
  transformPdfFile : String → String → Int × Option Error
  runPdfToPs : String → String → Option Error
  isPdfColor : String → String → Bool → Bool → Outcome (Bool × List Int × Option Error)

/-- The body of the loop of `main` for one item, up to the decision whether the item has
failed (`true`) or not (`false`). -/
def processItem (tools : Tools) (outputDir compDir : String) (keep : Bool)
    (inputPath : String) : Outcome Bool :=
  match tools.fileSize inputPath with
  | .panicked e => .panicked e
  | .ret _ =>
    match tools.modifyPath inputPath outputDir with
    | .panicked e => .panicked e
    | .ret outputPath =>
      match (tools.transformPdfFile inputPath outputPath).2 with
      | some _ => .ret true
      | none =>
        match tools.fileSize outputPath with
        | .panicked e => .panicked e
        | .ret _ =>
          match tools.runPdfToPs outputPath compDir with
          | some _ => .ret true
          | none =>
            match tools.isPdfColor outputPath compDir true keep with
            | .panicked e => .panicked e
            | .ret (isColorOut, _, err) => .ret (decide (err ≠ none) || isColorOut)

/-- The variables of the loop of `main`: the failure list, and the items whose
processing has started. -/
structure RunState where
  failFiles : List String
  processed : List String
  deriving DecidableEq, Repr

/-- How the loop of `main` ends: it runs to completion, calls `os.Exit`, or panics. -/
inductive RunEnd where
  | completed (st : RunState)
  | exited (code : Nat) (st : RunState)
  | panicked (e : Error) (st : RunState)
  deriving DecidableEq, Repr

/-- The loop `for idx, inputPath := range pdfList` of `main`. -/
def mainLoop (tools : Tools) (runAllTests keep : Bool) (outputDir compDir : String) :
    List String → RunState → RunEnd
  | [], st => .completed st
  | inputPath :: rest, st =>
    match processItem tools outputDir compDir keep inputPath with
    | .panicked e => .panicked e { st with processed := st.processed ++ [inputPath] }
    | .ret false =>
      mainLoop tools runAllTests keep outputDir compDir rest
        { st with processed := st.processed ++ [inputPath] }
    | .ret true =>
      if runAllTests = true then
        mainLoop tools runAllTests keep outputDir compDir rest
          { failFiles := st.failFiles ++ [inputPath], processed := st.processed ++ [inputPath] }
      else
        .exited 1
          { failFiles := st.failFiles ++ [inputPath], processed := st.processed ++ [inputPath] }

/-- An item fails when the transform fails, or the structural check (`pdftops`) fails,
or the colour check returns an error or reports colour. -/
def itemFailed (tools : Tools) (outputDir compDir : String) (keep : Bool) (inputPath : String) :
    Bool :=
  match tools.modifyPath inputPath outputDir with
  | .panicked _ => false
  | .ret outputPath =>
    decide ((tools.transformPdfFile inputPath outputPath).2 ≠ none) ||
    decide (tools.runPdfToPs outputPath compDir ≠ none) ||
    (match tools.isPdfColor outputPath compDir true keep with
      | .panicked _ => false
      | .ret (isColorOut, _, err) => decide (err ≠ none) || isColorOut)

/-- Sample tools: `bad.pdf` cannot be transformed, the output of `damaged.pdf` is
rejected by `pdftops`, the output of `color.pdf` still has a colour page, and every other
item passes. -/
def sampleTools : Tools :=
  { fileSize := fun _ => .ret 1000
    modifyPath := fun inputPath outputDir => .ret (outputDir ++ "/" ++ inputPath)
    transformPdfFile := fun inputPath _ =>
      if inputPath = "bad.pdf" then (0, some "unsupported") else (3, none)
    runPdfToPs := fun outputPath _ =>
      if outputPath = "out/damaged.pdf" then some "exit status 1" else none
    isPdfColor := fun outputPath _ _ _ =>
      if outputPath = "out/color.pdf" then .ret (true, [2], none) else .ret (false, [], none) }

/-- A sample corpus. -/
def sampleCorpus : List String := ["ok1.pdf", "bad.pdf", "ok2.pdf", "color.pdf", "damaged.pdf"]

/-! ## Colour summary -/

/-- A float that is neither NaN nor an infinity. -/
def F64.isFinite : F64 → Bool
  | .fin _ _ => true
  | _ => false

/-- The colour scores of the coloured pixels of a raster, in scan order. -/
def coloredScores (img : Image) : List F64 :=
  ((scanCoords img.maxX img.maxY).filter (fun c => isColored (img.pixelAt c.1 c.2))).map
    (fun c => colorScore (img.pixelAt c.1 c.2))

/-- The float64 sum of a series, accumulated from `0.0` in order. -/
def sumSeries (data : List F64) : F64 := data.foldl F64.add (F64.fin false 0)

/-- The samples of a raster lie on the scale `0..0xffff`, as `Color.RGBA()` promises. -/
def Image.InRange (img : Image) : Prop :=
  ∀ x y, (img.pixelAt x y).r ≤ 0xFFFF ∧ (img.pixelAt x y).g ≤ 0xFFFF ∧
    (img.pixelAt x y).b ≤ 0xFFFF

/-- A pixel with `|R-G| + |G-B| = 1376`. -/
def tintPixel : Pixel := { r := 1376, g := 0, b := 0, a := 0xffff }

/-- A raster of three tinted pixels in a row. -/
def tintImage3 : Image := { maxX := 3, maxY := 1, pixelAt := fun _ _ => tintPixel }

/-! ## Ledger round trip -/

/-- The values of the Go type `int` (64 bits). -/
def inIntRange (n : Int) : Prop := -(2 : Int) ^ 63 ≤ n ∧ n < (2 : Int) ^ 63

instance inIntRange_decidable (n : Int) : Decidable (inIntRange n) := by
  unfold inIntRange
  exact inferInstance

/-- A record whose duration is `0.0004` seconds. -/
def recordTiny : testResult :=
  { name := "t", colorIn := true, colorOut := false, numPages := 1,
    duration := F64.ofDecimal 4 10000, xobjImg := 0, xobjForm := 0 }

/-- The record `recordTiny` with its duration replaced by zero. -/
def recordTinyRead : testResult :=
  { name := "t", colorIn := true, colorOut := false, numPages := 1,
    duration := F64.fin false 0, xobjImg := 0, xobjForm := 0 }

/-! ## Colour pages of a directory -/

/-- The class `\d` of the regular expression: an ASCII digit. -/
def isDigit (c : Char) : Bool := decide (48 ≤ c.toNat ∧ c.toNat ≤ 57)

/-- The pattern `doc-(\d+).png$` matched from the start of `s`: the text `doc-`, then
one or more digits, then one character that is not a line break, then `png` at the end
of the text.  As the end is fixed, the digits are all of the rest but its last four
characters.  Returns the digits (the submatch of the group). -/
def gsImageMatchHere (s : List Char) : Option (List Char) :=
  if s.take 4 = ['d', 'o', 'c', '-'] then
    let t := s.drop 4
    let digits := t.take (t.length - 4)
    if 5 ≤ t.length ∧ digits.all isDigit = true ∧
        (t.drop (t.length - 4)).head? ≠ some (Char.ofNat 10) ∧ t.drop (t.length - 3) = ['p', 'n', 'g'] then
      some digits
    else none
  else none

/-- The call `gsImageRegex.FindStringSubmatch(path)`, reduced to the submatch
`matches[1]`: the leftmost match of the pattern in `s`, or `none` when there is no
match (`len(matches) == 0`). -/
def gsImageFind : List Char → Option (List Char)
  | [] => none
  | c :: rest =>
    match gsImageMatchHere (c :: rest) with
    | some digits => some digits
    | none => gsImageFind rest

/-- The function `isColorImage`; `writeImage` is the function of that name, which
encodes an image and writes it to a file. -/
def isColorImage (env : Env) (writeImage : String → Image → Option Error) (path : String)
    (keep : Bool) : Bool × Option Error :=
  match readImage env path with
  | .error err => (false, some err)
  | .ok img =>
    let isColor := imgIsColor img
    if isColor = true ∧ keep = true then
      (isColor, writeImage (path ++ ".marked.png") (imgMarkColor img).1)
    else (isColor, none)

/-- The loop of `colorDirectoryPages` over the files found. -/
def colorDirectoryPagesLoop (env : Env) (writeImage : String → Image → Option Error)
    (keep : Bool) : List String → List Int → Outcome (List Int × Option Error)
  | [], colorPages => .ret (colorPages, none)
  | path :: rest, colorPages =>
    match gsImageFind path.toList with
    | none => colorDirectoryPagesLoop env writeImage keep rest colorPages
    | some digits =>
      match atoi (String.mk digits) with
      | none => .panicked "strconv.Atoi: value out of range"
      | some pageNum =>
        match isColorImage env writeImage path keep with
        | (_, some err) => .panicked err
        | (isColor, none) =>
          if isColor = true then
            colorDirectoryPagesLoop env writeImage keep rest (colorPages ++ [pageNum])
          else colorDirectoryPagesLoop env writeImage keep rest colorPages

/-- The function `colorDirectoryPages`. -/
def colorDirectoryPages (env : Env) (writeImage : String → Image → Option Error)
    (mask dir : String) (keep : Bool) : Outcome (List Int × Option Error) :=
  match env.glob (env.join dir mask) with
  | .error err => .ret ([], some err)
  | .ok files => colorDirectoryPagesLoop env writeImage keep files []

/-- The digits of `fmt.Sprintf("%03d", p)`: the decimal digits of `p`, padded with
zeros on the left to three characters. -/
def formatPad3 (p : Nat) : List Char :=
  List.replicate (3 - (natDigits (p + 1) p []).length) '0' ++ natDigits (p + 1) p []

/-- The name `gsImageFormat = "doc-%03d.png"` gives to the image of page `p`. -/
def gsImageName (p : Nat) : String :=
  String.mk (['d', 'o', 'c', '-'] ++ formatPad3 p ++ ['.', 'p', 'n', 'g'])

/-- Whether the file at `path` decodes to a coloured image. -/
def isColorPath (env : Env) (path : String) : Bool :=
  match readImage env path with
  | .ok img => imgIsColor img
  | .error _ => false

/-- A writer of images that always succeeds. -/
def writeImageOk (_ : String) (_ : Image) : Option Error := none

/-- A directory `dir` holding the single file `name`, a 5x5 all-gray raster with one
pixel set to pure red. -/
def singleFileEnv (name : String) : Env :=
  { readFile := fun path =>
      if path = "dir/" ++ name then .ok [1] else .error "open: no such file or directory"
    decode := fun bytes =>
      if bytes = [1] then .ok redDotImage5 else .error "image: unknown format"
    glob := fun pattern => if pattern = "dir/*.png" then .ok ["dir/" ++ name] else .ok []
    join := fun dir name => dir ++ "/" ++ name }

/-- The path of the image of page `p` in the directory `dir`. -/
def pagePath (p : Nat) : String := "dir/" ++ gsImageName p

/-- A directory `dir` holding the page images of `pages`, listed in that order; the
pages of `colored` are 5x5 gray rasters with one red pixel, the others are all gray. -/
def pagesEnv (pages colored : List Nat) : Env :=
  { readFile := fun path =>
      if path ∈ colored.map pagePath then .ok [1]
      else if path ∈ pages.map pagePath then .ok [0]
      else .error "open: no such file or directory"
    decode := fun bytes =>
      if bytes = [1] then .ok redDotImage5
      else if bytes = [0] then .ok grayImage5
      else .error "image: unknown format"
    glob := fun pattern => if pattern = "dir/*.png" then .ok (pages.map pagePath) else .ok []
    join := fun dir name => dir ++ "/" ++ name }

/-- The pages of a document of 1000 pages in the order of their file names:
`doc-100.png` is followed by `doc-1000.png` and then by `doc-101.png`. -/
def thousandPages : List Nat := List.range' 1 100 ++ [1000] ++ List.range' 101 899

/-- A directory holding the page images `doc-001.png` to `doc-1000.png`, of which pages
101 and 1000 are coloured. -/
def thousandEnv : Env := pagesEnv thousandPages [101, 1000]

/-- A directory holding the page images of a document of three pages, of which page 2
is coloured. -/
def threePagesEnv : Env := pagesEnv [1, 2, 3] [2]

/-- Whether each name of a listing is less than the next one as a string. -/
def namesAscending : List String → Bool
  | [] => true
  | [_] => true
  | a :: b :: rest => strLess a b && namesAscending (b :: rest)

/-! ## Sample pixels for the score bounds -/

/-- A pixel with red and blue at full scale and no green. -/
def magentaPixel : Pixel := { r := 0xffff, g := 0, b := 0xffff, a := 0xffff }

/-- The samples of a pixel lie on the scale `0..0xffff`. -/
def Pixel.InRange (p : Pixel) : Prop := p.r ≤ 0xFFFF ∧ p.g ≤ 0xFFFF ∧ p.b ≤ 0xFFFF

instance Pixel.inRange_decidable (p : Pixel) : Decidable p.InRange := by
  unfold Pixel.InRange
  exact inferInstance

/-! ## Comparison of two PDF files -/

/-- The function `pdfsEqual`.  `mkdirAll` is `os.MkdirAll` and `runGhostscript` is the
function of that name, which rasterizes a PDF into a directory; `env` lists and reads the
page images once they are written; `keep` only decides whether the directories are
removed afterwards.  The result is `(equal, bad1, err)`. -/
def pdfsEqual (env : Env) (mkdirAll : String → Option Error)
    (runGhostscript : String → String → Bool → Option Error)
    (path1 path2 : String) (threshold : imageThreshold) (temp : String)
    (grayscale keep : Bool) : Outcome (Bool × Bool × Option Error) :=
  let _removeAfter := !keep
  let dir1 := env.join temp "1"
  let dir2 := env.join temp "2"
  match mkdirAll dir1 with
  | some err => .panicked err
  | none =>
    match mkdirAll dir2 with
    | some err => .panicked err
    | none =>
      match runGhostscript path1 dir1 grayscale with
      | some err => .ret (false, true, some err)
      | none =>
        match runGhostscript path2 dir2 grayscale with
        | some err => .ret (false, false, some err)
        | none =>
          match directoriesEqual env "*.png" dir1 dir2 threshold with
          | .panicked e => .panicked e
          | .ret (equal, _) => .ret (equal, false, none)

/-- Two raster directories of one page each, where the page image of the second cannot
be decoded. -/
def brokenPageEnv : Env :=
  { readFile := fun path =>
      if path = "tmp/1/doc-001.png" then .ok [0]
      else if path = "tmp/2/doc-001.png" then .ok [9]
      else .error "open: no such file or directory"
    decode := fun bytes =>
      if bytes = [0] then .ok blackImage10 else .error "image: unknown format"
    glob := fun pattern =>
      if pattern = "tmp/1/*.png" then .ok ["tmp/1/doc-001.png"]
      else if pattern = "tmp/2/*.png" then .ok ["tmp/2/doc-001.png"]
      else .ok []
    join := fun dir name => dir ++ "/" ++ name }

/-! ## Text rendering: misclassified characters -/

/-- The variable `ErrBadText`. -/
def ErrBadText : Error := "could not decode text"

/-- Comparison `a >= b`. -/
def F64.ge (a b : F64) : Bool := F64.le b a

/-- The function `percentage`: the percentage of missclassified characters. -/
def percentage (numChars numMisses : Int) : F64 :=
  if numChars = 0 then F64.fin false 0
  else F64.div (F64.mul (F64.ofDecimal 100 1) (F64.ofInt numMisses)) (F64.ofInt numChars)

/-- The function `missclassificationError`: `none` is the nil error. -/
def missclassificationError (threshold : F64) (numChars numMisses : Int) : Option Error :=
  if numChars = 0 ∨ numMisses = 0 then none
  else if F64.ge (F64.mul (F64.div threshold (F64.ofDecimal 100 1)) (F64.ofInt numChars))
      (F64.ofDecimal 1 1) = true ∧ F64.lt (percentage numChars numMisses) threshold = true then
    none
  else some ErrBadText

/-! ## Unlocking a PDF file -/

/-- A `PdfReader` as `unlockPdf` uses it: what `IsEncrypted` returns, what `Decrypt`
returns for a password, and what `ToWriter` followed by `WriteToFile` returns for an
output path.  `authenticate password` says whether the document accepts that one
password; it is the check inside the library on which `Decrypt` is built. -/
structure PdfReader where
  isEncrypted : Except Error Bool
  authenticate : String → Except Error Bool
  decrypt : String → Except Error Bool
  toWriter : Option Error
  writeToFile : String → Option Error

/-- The library under `unlockPdf`: `os.Open` and `pdf.NewPdfReader`. -/
structure UnlockLib where
  openFile : String → Option Error
  newPdfReader : String → Except Error PdfReader

/-- The function `unlockPdf`: `none` is the nil error. -/
def unlockPdf (lib : UnlockLib) (inputPath outputPath password : String) : Option Error :=
  match lib.openFile inputPath with
  | some err => some err
  | none =>
    match lib.newPdfReader inputPath with
    | .error err => some err
    | .ok pdfReader =>
      match pdfReader.isEncrypted with
      | .error err => some err
      | .ok isEncrypted =>
        let decrypted : Option Error :=
          if isEncrypted = true then
            match pdfReader.decrypt password with
            | .error err => some err
            | .ok auth => if auth = false then some "Wrong password" else none
          else none
        match decrypted with
        | some err => some err
        | none =>
          match pdfReader.toWriter with
          | some err => some err
          | none => pdfReader.writeToFile outputPath

/-- The behaviour of the library method `Decrypt`, which is outside the repository, as
its documentation states it: it authenticates the given password and, when that does not
authenticate, the empty password. -/
def PdfReader.DecryptTriesEmpty (r : PdfReader) : Prop :=
  ∀ password, r.decrypt password =
    match r.authenticate password with
    | .error err => .error err
    | .ok true => .ok true
    | .ok false => r.authenticate ""

/-- An encrypted document that accepts the passwords in `accepted`; `Decrypt` tries the
given password and then the empty one. -/
def lockedReader (accepted : List String) : PdfReader :=
  { isEncrypted := .ok true
    authenticate := fun password => .ok (decide (password ∈ accepted))
    decrypt := fun password => .ok (decide (password ∈ accepted) || decide ("" ∈ accepted))
    toWriter := none
    writeToFile := fun _ => none }

/-- A library that opens every file as the document `lockedReader accepted`. -/
def lockedLib (accepted : List String) : UnlockLib :=
  { openFile := fun _ => none, newPdfReader := fun _ => .ok (lockedReader accepted) }

/-! ## Passthrough benchmark -/

/-- The struct `benchParams`. -/
structure benchParams where
  debug : Bool
  runAllTests : Bool
  processPath : String
  outputDir : String
  gsValidation : Bool
  hangOnExit : Bool
  printRmList : Bool
  optimize : Bool

/-- A run of Ghostscript: the error of `cmd.Run()` and the text written to stderr. -/
structure GsRun where
  runError : Option Error
  stderr : String

/-- The calls of `testPassthroughSinglePdf` into the operating system, the PDF library
and Ghostscript, for the document at the input path. -/
structure PassLib where
  openFile : String → Option Error
  newPdfReader : String → Option Error
  isEncrypted : String → Except Error Bool
  decrypt : String → Except Error Bool
  getNumPages : String → Except Error Int
  getOCProperties : String → Option Error
  getPage : String → Int → Option Error
  addPage : String → Int → Option Error
  hasAcroForm : String → Bool
  setForms : String → Option Error
  join : String → String → String
  base : String → String
  create : String → Option Error
  write : String → String → Option Error
  gs : String → String → GsRun

/-- The call `strings.Count(s, "****")`: the number of non-overlapping markers. -/
def countMarkers : List Char → Nat
  | '*' :: '*' :: '*' :: '*' :: rest => 1 + countMarkers rest
  | _ :: rest => countMarkers rest
  | [] => 0

/-- The function `validatePdf`: the error and the number of warnings it returns. -/
def validatePdf (lib : PassLib) (path password : String) : Option Error × Int :=
  let run := lib.gs path password
  match run.runError with
  | some err => (some ("GS failed with error (" ++ err ++ ")"), 0)
  | none =>
    let outputErr := run.stderr
    let warnings : Int := countMarkers outputErr.toList
    if warnings > 1 then
      let outputErr := if outputErr.length > 80 then String.mk (outputErr.toList.take 80)
        else outputErr
      (some ("Invalid - " ++ formatInt warnings ++ " warnings (" ++ outputErr ++ ")"), warnings)
    else (none, 0)

/-- The page loop of `testPassthroughSinglePdf` from page index `j`, for `count` pages. -/
def passthroughPages (lib : PassLib) (inputPath : String) : Nat → Int → Option Error
  | 0, _ => none
  | count + 1, j =>
    match lib.getPage inputPath (j + 1) with
    | some err => some err
    | none =>
      match lib.addPage inputPath (j + 1) with
      | some err => some err
      | none => passthroughPages lib inputPath count (j + 1)

/-- The GS validation block at the end of `testPassthroughSinglePdf`. -/
def passthroughValidate (lib : PassLib) (inputPath outputPath : String) : Option Error :=
  let inputWarnings := (validatePdf lib inputPath "").2
  let (err, warnings) := validatePdf lib outputPath ""
  if err ≠ none ∧ warnings > inputWarnings then
    some ("Invalid PDF input " ++ formatInt inputWarnings ++ "/ output " ++
      formatInt warnings ++ " warnings")
  else none

/-- The function `testPassthroughSinglePdf`: `none` is the nil error. -/
def testPassthroughSinglePdf (lib : PassLib) (inputPath : String) (params : benchParams) :
    Option Error :=
  match lib.openFile inputPath with
  | some err => some err
  | none =>
    match lib.newPdfReader inputPath with
    | some err => some err
    | none =>
      match lib.isEncrypted inputPath with
      | .error err => some err
      | .ok isEncrypted =>
        let decrypted : Option Error :=
          if isEncrypted = true then
            match lib.decrypt inputPath with
            | .error err => some err
            | .ok valid => if valid = false then some "Unable to access, encrypted" else none
          else none
        match decrypted with
        | some err => some err
        | none =>
          match lib.getNumPages inputPath with
          | .error err => some err
          | .ok numPages =>
            if numPages < 1 then none
            else
              match lib.getOCProperties inputPath with
              | some err => some err
              | none =>
                match passthroughPages lib inputPath numPages.toNat 0 with
                | some err => some err
                | none =>
                  let forms : Option Error :=
                    if lib.hasAcroForm inputPath = true then lib.setForms inputPath else none
                  match forms with
                  | some err => some err
                  | none =>
                    let outputPath :=
                      if params.outputDir.length > 0 then
                        lib.join params.outputDir (lib.base inputPath)
                      else params.processPath
                    match lib.create outputPath with
                    | some err => some err
                    | none =>
                      match lib.write inputPath outputPath with
                      | some err => some err
                      | none =>
                        if params.gsValidation = true then
                          passthroughValidate lib inputPath outputPath
                        else none

/-- A library in which every call succeeds on a document of one page, Ghostscript
reports nothing for the input and one `****` marker for the output. -/
def oneWarningLib : PassLib :=
  { openFile := fun _ => none
    newPdfReader := fun _ => none
    isEncrypted := fun _ => .ok false
    decrypt := fun _ => .ok true
    getNumPages := fun _ => .ok 1
    getOCProperties := fun _ => none
    getPage := fun _ _ => none
    addPage := fun _ _ => none
    hasAcroForm := fun _ => false
    setForms := fun _ => none
    join := fun dir name => dir ++ "/" ++ name
    base := fun path => path
    create := fun _ => none
    write := fun _ _ => none
    gs := fun path _ =>
      if path = "/tmp/test.pdf" then
        { runError := none, stderr := "   **** Error: An error occurred while reading an XREF table." }
      else { runError := none, stderr := "" } }

/-- Parameters with Ghostscript validation enabled and the default output path. -/
def gsvParams : benchParams :=
  { debug := false, runAllTests := false, processPath := "/tmp/test.pdf", outputDir := "",
    gsValidation := true, hangOnExit := false, printRmList := false, optimize := false }

/-! ## Bounds of the diff sample -/

/-- The diff sample as a function of the sum `S` of the squared channel deltas:
`sqrt(S) / 0xffff * 0xff / 3`. -/
def distScale (S : Nat) : F64 :=
  F64.div (F64.mul (F64.div (F64.sqrt (F64.ofNat S)) (F64.ofNat 65535)) (F64.ofNat 255))
    (F64.ofNat 3)

/-- The sum of the squared channel deltas of two pixels. -/
def squaredDistance (p1 p2 : Pixel) : Nat :=
  Int.natAbs ((p1.r : Int) - p2.r) ^ 2 + Int.natAbs ((p1.g : Int) - p2.g) ^ 2 +
    Int.natAbs ((p1.b : Int) - p2.b) ^ 2

/-- Whether a float is at most `255 / sqrt 3`, compared exactly: a finite value `x >= 0`
passes when `3 * x^2 <= 255^2`. -/
def F64.withinMaxDiff : F64 → Bool
  | .nan => false
  | .inf s => s
  | .fin true _ => true
  | .fin false k => decide (3 * (k * k) ≤ (255 * oneUnits) * (255 * oneUnits))

/-- A row of 15 black pixels. -/
def blackRow15 : Image := { maxX := 15, maxY := 1, pixelAt := fun _ _ => blackPixel }

/-- A row of 15 white pixels. -/
def whiteRow15 : Image := { maxX := 15, maxY := 1, pixelAt := fun _ _ => whitePixel }

/-! ## Lemmas on the scans -/

theorem imagesEqualPixel_eq (img1 img2 : Image) (x y : Nat) (different : List F64) :
    imagesEqualPixel img1 img2 x different y =
      different ++ (if pixelsDiffer (img1.pixelAt x y) (img2.pixelAt x y) = true
        then [diffSample (img1.pixelAt x y) (img2.pixelAt x y)] else []) := by
  unfold imagesEqualPixel pixelsDiffer diffSample
  by_cases h : (img1.pixelAt x y).r ≠ (img2.pixelAt x y).r ∨
      (img1.pixelAt x y).g ≠ (img2.pixelAt x y).g ∨ (img1.pixelAt x y).b ≠ (img2.pixelAt x y).b
  · simp only [h, if_true, decide_True]
    rfl
  · simp only [h, if_false, decide_False, List.append_nil, Bool.false_eq_true]

theorem imagesEqual_column (img1 img2 : Image) (x : Nat) (ys : List Nat)
    (different : List F64) :
    ys.foldl (imagesEqualPixel img1 img2 x) different =
      different ++ ((ys.map (fun y => (x, y))).filter
        (fun c => pixelsDiffer (img1.pixelAt c.1 c.2) (img2.pixelAt c.1 c.2))).map
        (fun c => diffSample (img1.pixelAt c.1 c.2) (img2.pixelAt c.1 c.2)) := by
  induction ys generalizing different with
  | nil => simp
  | cons y rest ih =>
    rw [List.foldl_cons, ih, imagesEqualPixel_eq]
    by_cases h : pixelsDiffer (img1.pixelAt x y) (img2.pixelAt x y) = true
    · simp [h, List.filter_cons]
    · simp [h, List.filter_cons]

theorem imagesEqual_rows (img1 img2 : Image) (h1 : Nat) (xs : List Nat)
    (different : List F64) :
    xs.foldl
        (fun different x => (List.range h1).foldl (imagesEqualPixel img1 img2 x) different)
        different =
      different ++ ((xs.flatMap (fun x => (List.range h1).map (fun y => (x, y)))).filter
        (fun c => pixelsDiffer (img1.pixelAt c.1 c.2) (img2.pixelAt c.1 c.2))).map
        (fun c => diffSample (img1.pixelAt c.1 c.2) (img2.pixelAt c.1 c.2)) := by
  induction xs generalizing different with
  | nil => simp
  | cons x rest ih =>
    rw [List.foldl_cons, ih, imagesEqual_column]
    simp [List.flatMap_cons, List.filter_append, List.map_append, List.append_assoc]

/-- The list built by the loops of `imagesEqual` is the list of the diff samples of the
differing pixels. -/
theorem imagesEqualScan_eq (img1 img2 : Image) :
    imagesEqualScan img1 img2 img1.maxX img1.maxY = diffSamples img1 img2 := by
  unfold imagesEqualScan diffSamples differingPixels scanCoords
  rw [imagesEqual_rows]
  simp

theorem mem_scanCoords (w h x y : Nat) : (x, y) ∈ scanCoords w h ↔ x < w ∧ y < h := by
  unfold scanCoords
  simp [List.mem_flatMap, List.mem_map, List.mem_range]

theorem mem_differingPixels (img1 img2 : Image) (x y : Nat) :
    (x, y) ∈ differingPixels img1 img2 ↔
      x < img1.maxX ∧ y < img1.maxY ∧
        pixelsDiffer (img1.pixelAt x y) (img2.pixelAt x y) = true := by
  unfold differingPixels
  rw [List.mem_filter, mem_scanCoords]
  simp [and_assoc]

/-- What `imagesEqual` returns on two decoded rasters of the same size. -/
theorem imagesEqual_same_size (env : Env) (path1 path2 : String) (img1 img2 : Image)
    (threshold : imageThreshold)
    (h1 : readImage env path1 = .ok img1) (h2 : readImage env path2 = .ok img2)
    (hw : img1.maxX = img2.maxX) (hh : img1.maxY = img2.maxY) :
    imagesEqual env path1 path2 threshold =
      if (diffSamples img1 img2).length = 0 then (true, none)
      else
        (F64.le (F64.div (F64.ofNat (diffSamples img1 img2).length)
              (F64.ofNat (img1.maxX * img1.maxY))) threshold.fracPixels &&
            F64.le (meanFloatSlice (diffSamples img1 img2)) threshold.mean, none) := by
  unfold imagesEqual
  simp only [h1, h2]
  have hd : ¬ (img1.maxX ≠ img2.maxX ∨ img1.maxY ≠ img2.maxY) := by
    simp [hw, hh]
  simp only [hd, if_false, imagesEqualScan_eq]

/-- The comparison `<=` of `float64` is transitive (NaN is related to nothing). -/
theorem F64.le_trans (a b c : F64) (hab : F64.le a b = true) (hbc : F64.le b c = true) :
    F64.le a c = true := by
  cases a with
  | nan => simp [F64.le] at hab
  | inf s1 =>
    cases b with
    | nan => simp [F64.le] at hab
    | inf s2 =>
      cases c with
      | nan => simp [F64.le] at hbc
      | inf s3 => cases s1 <;> cases s2 <;> cases s3 <;> simp_all [F64.le]
      | fin s3 k3 => simp_all [F64.le]
    | fin s2 k2 =>
      cases c with
      | nan => simp [F64.le] at hbc
      | inf s3 => simp_all [F64.le]
      | fin s3 k3 => simp_all [F64.le]
  | fin s1 k1 =>
    cases b with
    | nan => simp [F64.le] at hab
    | inf s2 =>
      cases c with
      | nan => simp [F64.le] at hbc
      | inf s3 => simp_all [F64.le]
      | fin s3 k3 => simp_all [F64.le]
    | fin s2 k2 =>
      cases c with
      | nan => simp [F64.le] at hbc
      | inf s3 => simp_all [F64.le]
      | fin s3 k3 =>
        simp only [F64.le, decide_eq_true_eq] at hab hbc ⊢
        exact Int.le_trans hab hbc

/-! ## Lemmas on rounding and on the order of `float64` -/

/-- The value computed by `bitLenAux` with enough fuel. -/
theorem bitLenAux_spec (fuel : Nat) : ∀ (n acc : Nat), n ≤ fuel →
    ∃ L, bitLenAux fuel n acc = acc + L ∧ n < 2 ^ L ∧ (n ≠ 0 → 2 ^ (L - 1) ≤ n) ∧
      (n = 0 → L = 0) := by
  induction fuel with
  | zero =>
    intro n acc hn
    have h0 : n = 0 := by omega
    subst h0
    exact ⟨0, rfl, by simp, fun h => absurd rfl h, fun _ => rfl⟩
  | succ fuel ih =>
    intro n acc hn
    by_cases h0 : n = 0
    · subst h0
      exact ⟨0, by simp [bitLenAux], by simp, fun h => absurd rfl h, fun _ => rfl⟩
    · obtain ⟨L, hL, hlt, hge, hz⟩ := ih (n / 2) (acc + 1) (by omega)
      refine ⟨L + 1, ?_, ?_, ?_, fun h => absurd h h0⟩
      · rw [bitLenAux, if_neg h0, hL]
        omega
      · rw [Nat.pow_succ]
        omega
      · intro _
        rw [Nat.add_sub_cancel]
        by_cases h2 : n / 2 = 0
        · rw [hz h2]
          simp
          omega
        · have h1 := hge h2
          have hLpos : L ≠ 0 := by
            intro hL0
            rw [hL0] at hlt
            simp at hlt
            exact h2 hlt
          have hpow : 2 ^ L = 2 * 2 ^ (L - 1) := by
            rw [← Nat.pow_succ']
            congr 1
            omega
          omega

theorem bitLen_zero : bitLen 0 = 0 := by
  obtain ⟨L, hL, _, _, hz⟩ := bitLenAux_spec 0 0 0 (Nat.le_refl 0)
  unfold bitLen
  rw [hL, hz rfl]

theorem lt_two_pow_bitLen (n : Nat) : n < 2 ^ bitLen n := by
  obtain ⟨L, hL, hlt, _, _⟩ := bitLenAux_spec n n 0 (Nat.le_refl n)
  unfold bitLen
  rw [hL, Nat.zero_add]
  exact hlt

theorem two_pow_bitLen_le (n : Nat) (hn : n ≠ 0) : 2 ^ (bitLen n - 1) ≤ n := by
  obtain ⟨L, hL, _, hge, _⟩ := bitLenAux_spec n n 0 (Nat.le_refl n)
  unfold bitLen
  rw [hL, Nat.zero_add]
  exact hge hn

theorem bitLen_mono (a b : Nat) (hab : a ≤ b) : bitLen a ≤ bitLen b := by
  by_contra hlt
  have hlt : bitLen b < bitLen a := by omega
  have ha : a ≠ 0 := by
    intro h0
    rw [h0, bitLen_zero] at hlt
    omega
  have h1 := two_pow_bitLen_le a ha
  have h2 := lt_two_pow_bitLen b
  have h3 : 2 ^ bitLen b ≤ 2 ^ (bitLen a - 1) :=
    Nat.pow_le_pow_right (by decide) (by omega)
  omega

theorem roundAt_lower (s num den : Nat) :
    num / (den * 2 ^ s) * 2 ^ s ≤ roundAt s num den := by
  unfold roundAt
  simp only
  apply Nat.mul_le_mul_right
  split_ifs <;> omega

theorem roundAt_upper (s num den : Nat) :
    roundAt s num den ≤ (num / (den * 2 ^ s) + 1) * 2 ^ s := by
  unfold roundAt
  simp only
  apply Nat.mul_le_mul_right
  split_ifs <;> omega

theorem roundAt_mono (s den num1 num2 : Nat) (hden : 0 < den) (h : num1 ≤ num2) :
    roundAt s num1 den ≤ roundAt s num2 den := by
  have hstep : 0 < den * 2 ^ s := Nat.mul_pos hden (Nat.pow_pos (by decide))
  have hm : num1 / (den * 2 ^ s) ≤ num2 / (den * 2 ^ s) := Nat.div_le_div_right h
  rcases Nat.lt_or_ge (num1 / (den * 2 ^ s)) (num2 / (den * 2 ^ s)) with hlt | hge
  · calc roundAt s num1 den ≤ (num1 / (den * 2 ^ s) + 1) * 2 ^ s := roundAt_upper s num1 den
      _ ≤ num2 / (den * 2 ^ s) * 2 ^ s := Nat.mul_le_mul_right _ hlt
      _ ≤ roundAt s num2 den := roundAt_lower s num2 den
  · have heq : num1 / (den * 2 ^ s) = num2 / (den * 2 ^ s) := Nat.le_antisymm hm hge
    have hr : num1 % (den * 2 ^ s) ≤ num2 % (den * 2 ^ s) := by
      have e1 := Nat.div_add_mod num1 (den * 2 ^ s)
      have e2 := Nat.div_add_mod num2 (den * 2 ^ s)
      rw [heq] at e1
      omega
    unfold roundAt
    simp only
    rw [heq]
    apply Nat.mul_le_mul_right
    by_cases hup : (decide (den * 2 ^ s < 2 * (num1 % (den * 2 ^ s))) ||
        (decide (2 * (num1 % (den * 2 ^ s)) = den * 2 ^ s) &&
          decide (num2 / (den * 2 ^ s) % 2 = 1))) = true
    · have hup2 : (decide (den * 2 ^ s < 2 * (num2 % (den * 2 ^ s))) ||
          (decide (2 * (num2 % (den * 2 ^ s)) = den * 2 ^ s) &&
            decide (num2 / (den * 2 ^ s) % 2 = 1))) = true := by
        simp only [Bool.or_eq_true, Bool.and_eq_true, decide_eq_true_eq] at hup ⊢
        rcases hup with h1 | ⟨h1, h2⟩
        · left
          omega
        · rcases Nat.lt_or_ge (den * 2 ^ s) (2 * (num2 % (den * 2 ^ s))) with h3 | h3
          · left
            exact h3
          · right
            exact ⟨by omega, h2⟩
      rw [if_pos hup, if_pos hup2]
    · rw [if_neg hup]
      split_ifs <;> omega

/-- Rounding to the binary64 grid is monotone in the numerator. -/
theorem roundGrid_mono (den num1 num2 : Nat) (hden : 0 < den) (h : num1 ≤ num2) :
    roundGrid num1 den ≤ roundGrid num2 den := by
  unfold roundGrid
  have hq : num1 / den ≤ num2 / den := Nat.div_le_div_right h
  have hL : bitLen (num1 / den) ≤ bitLen (num2 / den) := bitLen_mono _ _ hq
  rcases Nat.lt_or_ge (bitLen (num1 / den) - 53) (bitLen (num2 / den) - 53) with hs | hs
  · -- the second value lies in a higher binade
    have hq2 : num2 / den ≠ 0 := by
      intro h0
      rw [h0, bitLen_zero] at hs
      omega
    have hlo := two_pow_bitLen_le (num2 / den) hq2
    have hhi := lt_two_pow_bitLen (num1 / den)
    -- upper bound for the first result
    have h1 : roundAt (bitLen (num1 / den) - 53) num1 den ≤ 2 ^ bitLen (num1 / den) := by
      refine Nat.le_trans (roundAt_upper _ num1 den) ?_
      have hsplit : 2 ^ bitLen (num1 / den) =
          2 ^ (bitLen (num1 / den) - (bitLen (num1 / den) - 53)) *
            2 ^ (bitLen (num1 / den) - 53) := by
        rw [← Nat.pow_add]
        congr 1
        omega
      rw [hsplit]
      apply Nat.mul_le_mul_right
      rw [← Nat.div_div_eq_div_mul]
      have : num1 / den / 2 ^ (bitLen (num1 / den) - 53) <
          2 ^ (bitLen (num1 / den) - (bitLen (num1 / den) - 53)) := by
        rw [Nat.div_lt_iff_lt_mul (Nat.pow_pos (by decide)), ← hsplit]
        exact hhi
      omega
    -- lower bound for the second result
    have h2 : 2 ^ (bitLen (num2 / den) - 1) ≤ roundAt (bitLen (num2 / den) - 53) num2 den := by
      refine Nat.le_trans ?_ (roundAt_lower _ num2 den)
      have hsplit : 2 ^ (bitLen (num2 / den) - 1) =
          2 ^ (bitLen (num2 / den) - 1 - (bitLen (num2 / den) - 53)) *
            2 ^ (bitLen (num2 / den) - 53) := by
        rw [← Nat.pow_add]
        congr 1
        omega
      rw [hsplit]
      apply Nat.mul_le_mul_right
      rw [← Nat.div_div_eq_div_mul, Nat.le_div_iff_mul_le (Nat.pow_pos (by decide)), ← hsplit]
      exact hlo
    have h3 : 2 ^ bitLen (num1 / den) ≤ 2 ^ (bitLen (num2 / den) - 1) :=
      Nat.pow_le_pow_right (by decide) (by omega)
    omega
  · have hseq : bitLen (num1 / den) - 53 = bitLen (num2 / den) - 53 := by omega
    rw [hseq]
    exact roundAt_mono _ den num1 num2 hden h

/-- The result of `roundAt` is within half a grid step of `num / den`. -/
theorem roundAt_nearest (s num den : Nat) (hden : 0 < den) :
    2 * (roundAt s num den * den) ≤ 2 * num + den * 2 ^ s ∧
    2 * num ≤ 2 * (roundAt s num den * den) + den * 2 ^ s := by
  have hstep : 0 < den * 2 ^ s := Nat.mul_pos hden (Nat.pow_pos (by decide))
  have hdm := Nat.div_add_mod num (den * 2 ^ s)
  have hlt := Nat.mod_lt num hstep
  unfold roundAt
  simp only
  by_cases hup : (decide (den * 2 ^ s < 2 * (num % (den * 2 ^ s))) ||
      (decide (2 * (num % (den * 2 ^ s)) = den * 2 ^ s) &&
        decide (num / (den * 2 ^ s) % 2 = 1))) = true
  · rw [if_pos hup]
    have hr : den * 2 ^ s ≤ 2 * (num % (den * 2 ^ s)) := by
      simp only [Bool.or_eq_true, Bool.and_eq_true, decide_eq_true_eq] at hup
      rcases hup with h | ⟨h, _⟩ <;> omega
    have he : (num / (den * 2 ^ s) + 1) * 2 ^ s * den =
        den * 2 ^ s * (num / (den * 2 ^ s)) + den * 2 ^ s := by ring
    rw [he]
    omega
  · rw [if_neg hup]
    have hr : 2 * (num % (den * 2 ^ s)) ≤ den * 2 ^ s := by
      simp only [Bool.or_eq_true, Bool.and_eq_true, decide_eq_true_eq, not_or] at hup
      omega
    have he : num / (den * 2 ^ s) * 2 ^ s * den = den * 2 ^ s * (num / (den * 2 ^ s)) := by
      ring
    rw [he]
    omega

theorem isqrtAux_spec (n : Nat) : ∀ (b r : Nat), r * r ≤ n → n < (r + 2 ^ b) * (r + 2 ^ b) →
    F64.isqrtAux n b r * F64.isqrtAux n b r ≤ n ∧
      n < (F64.isqrtAux n b r + 1) * (F64.isqrtAux n b r + 1) := by
  intro b
  induction b with
  | zero =>
    intro r h1 h2
    simp only [F64.isqrtAux, Nat.pow_zero] at h2 ⊢
    exact ⟨h1, h2⟩
  | succ b ih =>
    intro r h1 h2
    have hpow : 2 ^ (b + 1) = 2 ^ b + 2 ^ b := by
      rw [Nat.pow_succ]
      omega
    unfold F64.isqrtAux
    by_cases hc : (r + 2 ^ b) * (r + 2 ^ b) ≤ n
    · rw [if_pos hc]
      apply ih _ hc
      rw [Nat.add_assoc, ← hpow]
      exact h2
    · rw [if_neg hc]
      exact ih _ h1 (by omega)

/-- The function `isqrt` computes the integer square root. -/
theorem isqrt_spec (n : Nat) :
    F64.isqrt n * F64.isqrt n ≤ n ∧ n < (F64.isqrt n + 1) * (F64.isqrt n + 1) := by
  unfold F64.isqrt
  apply isqrtAux_spec n _ 0 (Nat.zero_le _)
  rw [Nat.zero_add, ← Nat.pow_add]
  have h1 := lt_two_pow_bitLen n
  have h2 : 2 ^ bitLen n ≤ 2 ^ (bitLen n / 2 + 1 + (bitLen n / 2 + 1)) :=
    Nat.pow_le_pow_right (by decide) (by omega)
  omega

theorem oneUnits_pos : 0 < oneUnits := by
  unfold oneUnits
  apply Nat.two_pow_pos

theorem F64.ofRat_eq (neg : Bool) (num den : Nat) :
    F64.ofRat neg num den =
      if overflowUnits ≤ roundGrid num den then F64.inf neg
      else F64.fin neg (roundGrid num den) := by
  unfold F64.ofRat
  rfl

theorem F64.ofRat_nonNeg (num den : Nat) : F64.NonNeg (F64.ofRat false num den) := by
  rw [F64.ofRat_eq]
  split_ifs
  · exact Or.inl rfl
  · exact Or.inr ⟨_, rfl⟩

theorem F64.le_inf_of_nonNeg (a : F64) (ha : F64.NonNeg a) : F64.le a (F64.inf false) = true := by
  rcases ha with h | ⟨k, h⟩ <;> rw [h] <;> rfl

theorem F64.ofRat_mono (den num1 num2 : Nat) (hden : 0 < den) (h : num1 ≤ num2) :
    F64.le (F64.ofRat false num1 den) (F64.ofRat false num2 den) = true := by
  have hk := roundGrid_mono den num1 num2 hden h
  rw [F64.ofRat_eq, F64.ofRat_eq]
  by_cases h1 : overflowUnits ≤ roundGrid num1 den
  · have h2 : overflowUnits ≤ roundGrid num2 den := Nat.le_trans h1 hk
    rw [if_pos h1, if_pos h2]
    rfl
  · rw [if_neg h1]
    by_cases h2 : overflowUnits ≤ roundGrid num2 den
    · rw [if_pos h2]
      rfl
    · rw [if_neg h2]
      simp only [F64.le, F64.units, decide_eq_true_eq]
      simp only [Bool.false_eq_true, if_false]
      exact Int.ofNat_le.mpr hk

theorem F64.le_fin_fin (k1 k2 : Nat) :
    F64.le (F64.fin false k1) (F64.fin false k2) = true ↔ k1 ≤ k2 := by
  simp only [F64.le, F64.units, decide_eq_true_eq, Bool.false_eq_true, if_false]
  exact Int.ofNat_le

/-- Division by a positive finite constant is monotone on non-negative floats. -/
theorem F64.div_mono (a b : F64) (c : Nat) (hc : c ≠ 0) (ha : F64.NonNeg a) (hb : F64.NonNeg b)
    (hab : F64.le a b = true) :
    F64.le (F64.div a (F64.fin false c)) (F64.div b (F64.fin false c)) = true ∧
    F64.NonNeg (F64.div a (F64.fin false c)) ∧ F64.NonNeg (F64.div b (F64.fin false c)) := by
  have hfin : ∀ k, F64.div (F64.fin false k) (F64.fin false c) =
      F64.ofRat false (k * oneUnits) c := by
    intro k
    simp only [F64.div, if_neg hc]
    rfl
  have hinf : F64.div (F64.inf false) (F64.fin false c) = F64.inf false := rfl
  rcases ha with ha | ⟨k1, ha⟩ <;> rcases hb with hb | ⟨k2, hb⟩ <;> subst ha <;> subst hb
  · rw [hinf]
    exact ⟨rfl, Or.inl rfl, Or.inl rfl⟩
  · simp [F64.le] at hab
  · rw [hinf, hfin]
    exact ⟨F64.le_inf_of_nonNeg _ (F64.ofRat_nonNeg _ _), F64.ofRat_nonNeg _ _, Or.inl rfl⟩
  · rw [hfin, hfin]
    have hk : k1 ≤ k2 := (F64.le_fin_fin k1 k2).mp hab
    exact ⟨F64.ofRat_mono c _ _ (Nat.pos_of_ne_zero hc) (Nat.mul_le_mul_right _ hk),
      F64.ofRat_nonNeg _ _, F64.ofRat_nonNeg _ _⟩

/-- Multiplication by a positive finite constant is monotone on non-negative floats. -/
theorem F64.mul_mono (a b : F64) (c : Nat) (hc : c ≠ 0) (ha : F64.NonNeg a) (hb : F64.NonNeg b)
    (hab : F64.le a b = true) :
    F64.le (F64.mul a (F64.fin false c)) (F64.mul b (F64.fin false c)) = true := by
  have hfin : ∀ k, F64.mul (F64.fin false k) (F64.fin false c) =
      F64.ofRat false (k * c) oneUnits := fun k => rfl
  have hinf : F64.mul (F64.inf false) (F64.fin false c) = F64.inf false := by
    simp only [F64.mul, if_neg hc]
    rfl
  have hone : 0 < oneUnits := oneUnits_pos
  rcases ha with ha | ⟨k1, ha⟩ <;> rcases hb with hb | ⟨k2, hb⟩ <;> subst ha <;> subst hb
  · rw [hinf]
    rfl
  · simp [F64.le] at hab
  · rw [hinf, hfin]
    exact F64.le_inf_of_nonNeg _ (F64.ofRat_nonNeg _ _)
  · rw [hfin, hfin]
    have hk : k1 ≤ k2 := (F64.le_fin_fin k1 k2).mp hab
    exact F64.ofRat_mono oneUnits _ _ hone (Nat.mul_le_mul_right _ hk)

/-- If `a <= b` then `b < a` is false. -/
theorem F64.not_lt_of_le (a b : F64) (hab : F64.le a b = true) : F64.lt b a = false := by
  cases a with
  | nan => simp [F64.le] at hab
  | inf s1 =>
    cases b with
    | nan => simp [F64.le] at hab
    | inf s2 => cases s1 <;> cases s2 <;> simp_all [F64.le, F64.lt]
    | fin s2 k2 => simp_all [F64.le, F64.lt]
  | fin s1 k1 =>
    cases b with
    | nan => simp [F64.le] at hab
    | inf s2 => simp_all [F64.le, F64.lt]
    | fin s2 k2 =>
      simp only [F64.le, F64.lt, decide_eq_true_eq, decide_eq_false_iff_not] at hab ⊢
      omega

/-- If `a < b` and `b <= c` then `a < c`. -/
theorem F64.lt_of_lt_of_le (a b c : F64) (hab : F64.lt a b = true) (hbc : F64.le b c = true) :
    F64.lt a c = true := by
  cases a with
  | nan => simp [F64.lt] at hab
  | inf s1 =>
    cases b with
    | nan => simp [F64.lt] at hab
    | inf s2 =>
      cases c with
      | nan => simp [F64.le] at hbc
      | inf s3 => cases s1 <;> cases s2 <;> cases s3 <;> simp_all [F64.le, F64.lt]
      | fin s3 k3 => simp_all [F64.le, F64.lt]
    | fin s2 k2 =>
      cases c with
      | nan => simp [F64.le] at hbc
      | inf s3 => simp_all [F64.le, F64.lt]
      | fin s3 k3 => simp_all [F64.le, F64.lt]
  | fin s1 k1 =>
    cases b with
    | nan => simp [F64.lt] at hab
    | inf s2 =>
      cases c with
      | nan => simp [F64.le] at hbc
      | inf s3 => simp_all [F64.le, F64.lt]
      | fin s3 k3 => simp_all [F64.le, F64.lt]
    | fin s2 k2 =>
      cases c with
      | nan => simp [F64.le] at hbc
      | inf s3 => simp_all [F64.le, F64.lt]
      | fin s3 k3 =>
        simp only [F64.le, F64.lt, decide_eq_true_eq] at hab hbc ⊢
        omega

theorem ofNat_65535 : F64.ofNat 65535 = F64.fin false (65535 * oneUnits) := by decide!

theorem ofNat_255 : F64.ofNat 255 = F64.fin false (255 * oneUnits) := by decide!

theorem rescale_1285 : rescale 1285 = F64.ofNat 5 := by decide!

theorem rescale_1286 : F64.lt (F64.ofNat 5) (rescale 1286) = true := by decide!

/-- The rescaling of the colour classifier is monotone. -/
theorem rescale_mono (n1 n2 : Nat) (h : n1 ≤ n2) : F64.le (rescale n1) (rescale n2) = true := by
  unfold rescale
  rw [ofNat_65535, ofNat_255]
  have hone : oneUnits ≠ 0 := Nat.pos_iff_ne_zero.mp oneUnits_pos
  have h0 : F64.le (F64.ofNat n1) (F64.ofNat n2) = true :=
    F64.ofRat_mono 1 _ _ (by decide) (Nat.mul_le_mul_right _ h)
  obtain ⟨h1, hn1, hn2⟩ := F64.div_mono (F64.ofNat n1) (F64.ofNat n2) (65535 * oneUnits)
    (Nat.mul_ne_zero (by decide) hone) (F64.ofRat_nonNeg _ _) (F64.ofRat_nonNeg _ _) h0
  exact F64.mul_mono _ _ (255 * oneUnits) (Nat.mul_ne_zero (by decide) hone) hn1 hn2 h1

/-- The float64 test `rescale n > 5.0` holds exactly when `n > 1285`, that is when the
exact rescaled value `n * 255 / 65535` is greater than 5. -/
theorem rescale_gt_threshold_iff (n : Nat) :
    F64.gt (rescale n) colorThreshold = true ↔ 5 * 65535 < 255 * n := by
  have hthr : colorThreshold = F64.ofNat 5 := rfl
  rw [hthr]
  unfold F64.gt
  constructor
  · intro hlt
    by_contra hn
    have hle : n ≤ 1285 := by omega
    have h1 := rescale_mono n 1285 hle
    rw [rescale_1285] at h1
    have h2 := F64.not_lt_of_le _ _ h1
    rw [hlt] at h2
    exact absurd h2 (by simp)
  · intro hn
    have hge : 1286 ≤ n := by omega
    exact F64.lt_of_lt_of_le _ _ _ rescale_1286 (rescale_mono 1286 n hge)

/-- What `imagesEqual` returns on two decoded rasters of different sizes. -/
theorem imagesEqual_of_size_mismatch (env : Env) (path1 path2 : String)
    (img1 img2 : Image) (threshold : imageThreshold)
    (h1 : readImage env path1 = .ok img1) (h2 : readImage env path2 = .ok img2)
    (hdim : img1.maxX ≠ img2.maxX ∨ img1.maxY ≠ img2.maxY) :
    imagesEqual env path1 path2 threshold = (false, none) := by
  unfold imagesEqual
  simp only [h1, h2, hdim, if_true]

/-! ## Theorems: perceptual comparator -/

/-- C1: for two decoded rasters whose widths differ or whose heights differ, and for
every threshold, `imagesEqual` returns `(false, nil)`: not equal, and no error. -/
theorem imagesEqual_dimension_mismatch (env : Env) (path1 path2 : String)
    (img1 img2 : Image) (threshold : imageThreshold)
    (h1 : readImage env path1 = .ok img1) (h2 : readImage env path2 = .ok img2)
    (hdim : img1.maxX ≠ img2.maxX ∨ img1.maxY ≠ img2.maxY) :
    imagesEqual env path1 path2 threshold = (false, none) := by
  unfold imagesEqual
  simp only [h1, h2, hdim, if_true]

/-- Witness of C1: a 10x10 raster against a 20x10 raster under the identity threshold. -/
theorem imagesEqual_dimension_mismatch_witness :
    readImage sampleEnv "black.png" = .ok blackImage10 ∧
    readImage sampleEnv "wide.png" = .ok wideImage ∧
    (blackImage10.maxX ≠ wideImage.maxX ∨ blackImage10.maxY ≠ wideImage.maxY) ∧
    imagesEqual sampleEnv "black.png" "wide.png" identityThreshold = (false, none) :=
  ⟨rfl, rfl, Or.inl (by decide),
    imagesEqual_dimension_mismatch sampleEnv "black.png" "wide.png" blackImage10 wideImage
      identityThreshold rfl rfl (Or.inl (by decide))⟩

/-- C2: for two decoded rasters of the same size with at least one pixel whose (R, G, B)
samples differ, and every threshold `t`, `imagesEqual` reports no error and returns true
if and only if (number of differing pixels) / (width * height) `<= t.fracPixels` and the
mean of the diff samples of the differing pixels `<= t.mean`. -/
theorem imagesEqual_differing_iff (env : Env) (path1 path2 : String)
    (img1 img2 : Image) (t : imageThreshold)
    (h1 : readImage env path1 = .ok img1) (h2 : readImage env path2 = .ok img2)
    (hw : img1.maxX = img2.maxX) (hh : img1.maxY = img2.maxY)
    (hdiff : ∃ x y, x < img1.maxX ∧ y < img1.maxY ∧
      pixelsDiffer (img1.pixelAt x y) (img2.pixelAt x y) = true) :
    (imagesEqual env path1 path2 t).2 = none ∧
    ((imagesEqual env path1 path2 t).1 = true ↔
      F64.le (F64.div (F64.ofNat (differingPixels img1 img2).length)
          (F64.ofNat (img1.maxX * img1.maxY))) t.fracPixels = true ∧
      F64.le (meanFloatSlice (diffSamples img1 img2)) t.mean = true) := by
  obtain ⟨x, y, hx, hy, hxy⟩ := hdiff
  have hmem : (x, y) ∈ differingPixels img1 img2 :=
    (mem_differingPixels img1 img2 x y).mpr ⟨hx, hy, hxy⟩
  have hlen : (diffSamples img1 img2).length = (differingPixels img1 img2).length := by
    unfold diffSamples
    rw [List.length_map]
  have hpos : (diffSamples img1 img2).length ≠ 0 := by
    rw [hlen]
    exact fun h0 => List.not_mem_nil _ (List.length_eq_zero.mp h0 ▸ hmem)
  rw [imagesEqual_same_size env path1 path2 img1 img2 t h1 h2 hw hh, if_neg hpos, hlen]
  simp only [Bool.and_eq_true, true_and]

/-- Witness of C2: two 10x10 rasters differing in exactly one pixel by a full-scale RGB
delta compare equal under `{fracPixels: 0.02, mean: 255}` and unequal under
`{fracPixels: 0, mean: 0}`. -/
theorem imagesEqual_differing_iff_witness :
    differingPixels blackImage10 dotImage10 = [(3, 4)] ∧
    imagesEqual sampleEnv "black.png" "dot.png" looseThreshold = (true, none) ∧
    imagesEqual sampleEnv "black.png" "dot.png" zeroThreshold = (false, none) ∧
    ((imagesEqual sampleEnv "black.png" "dot.png" looseThreshold).1 = true ↔
      F64.le (F64.div (F64.ofNat (differingPixels blackImage10 dotImage10).length)
          (F64.ofNat (blackImage10.maxX * blackImage10.maxY)))
          looseThreshold.fracPixels = true ∧
      F64.le (meanFloatSlice (diffSamples blackImage10 dotImage10))
          looseThreshold.mean = true) :=
  ⟨by decide, by decide!, by decide!,
    (imagesEqual_differing_iff sampleEnv "black.png" "dot.png" blackImage10 dotImage10
      looseThreshold rfl rfl rfl rfl ⟨3, 4, by decide, by decide, by decide⟩).2⟩

/-- C3: for two decoded rasters of the same size in which no pixel differs in its R, G
or B sample, `imagesEqual` returns `(true, nil)` for every threshold whatsoever. -/
theorem imagesEqual_no_difference (env : Env) (path1 path2 : String)
    (img1 img2 : Image) (t : imageThreshold)
    (h1 : readImage env path1 = .ok img1) (h2 : readImage env path2 = .ok img2)
    (hw : img1.maxX = img2.maxX) (hh : img1.maxY = img2.maxY)
    (hsame : ∀ x y, x < img1.maxX → y < img1.maxY →
      (img1.pixelAt x y).r = (img2.pixelAt x y).r ∧
      (img1.pixelAt x y).g = (img2.pixelAt x y).g ∧
      (img1.pixelAt x y).b = (img2.pixelAt x y).b) :
    imagesEqual env path1 path2 t = (true, none) := by
  have hnil : differingPixels img1 img2 = [] := by
    rw [List.eq_nil_iff_forall_not_mem]
    rintro ⟨x, y⟩ hmem
    obtain ⟨hx, hy, hxy⟩ := (mem_differingPixels img1 img2 x y).mp hmem
    obtain ⟨hr, hg, hb⟩ := hsame x y hx hy
    simp [pixelsDiffer, hr, hg, hb] at hxy
  have hlen : (diffSamples img1 img2).length = 0 := by
    unfold diffSamples
    rw [hnil]
    rfl
  rw [imagesEqual_same_size env path1 path2 img1 img2 t h1 h2 hw hh, if_pos hlen]

/-- Witness of C3: two identical 10x10 all-black rasters with threshold
`{fracPixels: 0, mean: 0}`. -/
theorem imagesEqual_no_difference_witness :
    readImage sampleEnv "black.png" = .ok blackImage10 ∧
    readImage sampleEnv "black-copy.png" = .ok blackImage10 ∧
    imagesEqual sampleEnv "black.png" "black-copy.png" zeroThreshold = (true, none) :=
  ⟨rfl, rfl,
    imagesEqual_no_difference sampleEnv "black.png" "black-copy.png" blackImage10
      blackImage10 zeroThreshold rfl rfl rfl rfl
      (fun _ _ _ _ => ⟨rfl, rfl, rfl⟩)⟩

/-- C4: reflexivity. For every decoded raster and every threshold, comparing the raster
with itself returns `(true, nil)`. -/
theorem imagesEqual_reflexive (env : Env) (path1 path2 : String) (img : Image)
    (t : imageThreshold)
    (h1 : readImage env path1 = .ok img) (h2 : readImage env path2 = .ok img) :
    imagesEqual env path1 path2 t = (true, none) := by
  have hnil : differingPixels img img = [] := by
    rw [List.eq_nil_iff_forall_not_mem]
    rintro ⟨x, y⟩ hmem
    have hxy := ((mem_differingPixels img img x y).mp hmem).2.2
    simp [pixelsDiffer] at hxy
  have hlen : (diffSamples img img).length = 0 := by
    unfold diffSamples
    rw [hnil]
    rfl
  rw [imagesEqual_same_size env path1 path2 img img t h1 h2 rfl rfl, if_pos hlen]

/-- Witness of C4: the one-dot raster compared with itself under the zero threshold. -/
theorem imagesEqual_reflexive_witness :
    readImage sampleEnv "dot.png" = .ok dotImage10 ∧
    imagesEqual sampleEnv "dot.png" "dot.png" zeroThreshold = (true, none) :=
  ⟨rfl, imagesEqual_reflexive sampleEnv "dot.png" "dot.png" dotImage10 zeroThreshold rfl rfl⟩

/-- C5: tolerance monotonicity. If `t2.fracPixels >= t1.fracPixels` and
`t2.mean >= t1.mean` and `imagesEqual` returns true under `t1`, then it returns true
under `t2`. -/
theorem imagesEqual_threshold_mono (env : Env) (path1 path2 : String)
    (t1 t2 : imageThreshold)
    (hfrac : F64.le t1.fracPixels t2.fracPixels = true)
    (hmean : F64.le t1.mean t2.mean = true)
    (heq : (imagesEqual env path1 path2 t1).1 = true) :
    (imagesEqual env path1 path2 t2).1 = true := by
  cases h1 : readImage env path1 with
  | error e => simp [imagesEqual, h1] at heq
  | ok img1 =>
    cases h2 : readImage env path2 with
    | error e => simp [imagesEqual, h1, h2] at heq
    | ok img2 =>
      by_cases hdim : img1.maxX ≠ img2.maxX ∨ img1.maxY ≠ img2.maxY
      · rw [imagesEqual_of_size_mismatch env path1 path2 img1 img2 t1 h1 h2 hdim] at heq
        simp at heq
      · have hw : img1.maxX = img2.maxX := by
          by_contra h
          exact hdim (Or.inl h)
        have hh : img1.maxY = img2.maxY := by
          by_contra h
          exact hdim (Or.inr h)
        rw [imagesEqual_same_size env path1 path2 img1 img2 t1 h1 h2 hw hh] at heq
        rw [imagesEqual_same_size env path1 path2 img1 img2 t2 h1 h2 hw hh]
        by_cases hlen : (diffSamples img1 img2).length = 0
        · rw [if_pos hlen]
        · rw [if_neg hlen] at heq ⊢
          obtain ⟨ha, hb⟩ := Bool.and_eq_true_iff.mp heq
          exact Bool.and_eq_true_iff.mpr
            ⟨F64.le_trans _ _ _ ha hfrac, F64.le_trans _ _ _ hb hmean⟩

/-- Witness of C5: the one-dot comparison passes under `{0.02, 200}` and therefore
under the wider `{0.5, 255}`. -/
theorem imagesEqual_threshold_mono_witness :
    F64.le midThreshold.fracPixels wideThreshold.fracPixels = true ∧
    F64.le midThreshold.mean wideThreshold.mean = true ∧
    (imagesEqual sampleEnv "black.png" "dot.png" midThreshold).1 = true ∧
    (imagesEqual sampleEnv "black.png" "dot.png" wideThreshold).1 = true :=
  ⟨by decide!, by decide!, by decide!,
    imagesEqual_threshold_mono sampleEnv "black.png" "dot.png" midThreshold wideThreshold
      (by decide!) (by decide!) (by decide!)⟩

/-! ## Lemmas on file and directory comparison -/

/-- A true verdict of `imagesEqual` never comes with an error. -/
theorem imagesEqual_true_no_error (env : Env) (path1 path2 : String) (t : imageThreshold)
    (err : Option Error) (h : imagesEqual env path1 path2 t = (true, err)) : err = none := by
  unfold imagesEqual at h
  cases h1 : readImage env path1 with
  | error e => simp [h1] at h
  | ok img1 =>
    cases h2 : readImage env path2 with
    | error e => simp [h1, h2] at h
    | ok img2 =>
      simp only [h1, h2] at h
      split_ifs at h
      · simp at h
      · exact (Prod.mk.inj h).2.symm
      · exact (Prod.mk.inj h).2.symm

/-- What `filesEqual` returns once both files have been read. -/
theorem filesEqual_of_read (env : Env) (path1 path2 : String) (t : imageThreshold)
    (bytes1 bytes2 : List Nat)
    (h1 : env.readFile path1 = .ok bytes1) (h2 : env.readFile path2 = .ok bytes2) :
    filesEqual env path1 path2 t =
      if bytes1 = bytes2 then .ret (true, none) else .ret (imagesEqual env path1 path2 t) := by
  unfold filesEqual filesBinaryEqual
  simp only [h1, h2]
  by_cases hb : bytes1 = bytes2
  · simp [hb]
  · simp [hb]

/-- A true verdict of `filesEqual` never comes with an error. -/
theorem filesEqual_true_no_error (env : Env) (path1 path2 : String) (t : imageThreshold)
    (err : Option Error) (h : filesEqual env path1 path2 t = .ret (true, err)) :
    err = none := by
  cases h1 : env.readFile path1 with
  | error e => simp [filesEqual, filesBinaryEqual, h1] at h
  | ok bytes1 =>
    cases h2 : env.readFile path2 with
    | error e => simp [filesEqual, filesBinaryEqual, h1, h2] at h
    | ok bytes2 =>
      rw [filesEqual_of_read env path1 path2 t bytes1 bytes2 h1 h2] at h
      split_ifs at h
      · exact (Prod.mk.inj (Outcome.ret.inj h)).2.symm
      · exact imagesEqual_true_no_error env path1 path2 t err (Outcome.ret.inj h)

/-- The loop of `directoriesEqual` returns true exactly when every visited pair is equal
under `filesEqual`. -/
theorem directoriesEqualLoop_true_iff (env : Env) (files1 files2 : List String)
    (t : imageThreshold) (idx : List Nat) :
    (∃ err, directoriesEqualLoop env files1 files2 t idx = .ret (true, err)) ↔
      ∀ i, i ∈ idx → filesEqual env (files1.getD i "") (files2.getD i "") t = .ret (true, none) := by
  induction idx with
  | nil =>
    simp only [directoriesEqualLoop, List.not_mem_nil, false_imp_iff, implies_true, iff_true]
    exact ⟨none, rfl⟩
  | cons i rest ih =>
    unfold directoriesEqualLoop
    cases hf : filesEqual env (files1.getD i "") (files2.getD i "") t with
    | panicked e =>
      simp only []
      constructor
      · rintro ⟨err, herr⟩
        exact absurd herr (by simp)
      · intro hall
        have := hall i (List.mem_cons_self _ _)
        rw [hf] at this
        exact absurd this (by simp)
    | ret v =>
      obtain ⟨equal, err0⟩ := v
      simp only []
      by_cases hstop : equal = false ∨ err0 ≠ none
      · rw [if_pos hstop]
        constructor
        · rintro ⟨err, herr⟩
          have heq : equal = true := (Prod.mk.inj (Outcome.ret.inj herr)).1
          have hnone : err0 = none := by
            rw [heq] at hf
            exact filesEqual_true_no_error env _ _ t err0 hf
          rcases hstop with h | h
          · rw [heq] at h
            exact absurd h (by simp)
          · exact absurd hnone h
        · intro hall
          have := hall i (List.mem_cons_self _ _)
          rw [hf] at this
          have hv := Prod.mk.inj (Outcome.ret.inj this)
          rcases hstop with h | h
          · rw [hv.1] at h
            exact absurd h (by simp)
          · exact absurd hv.2 h
      · rw [if_neg hstop, ih]
        have heq : equal = true := by
          cases equal
          · exact absurd (Or.inl rfl) hstop
          · rfl
        have hnone : err0 = none := by
          by_contra h
          exact hstop (Or.inr h)
        constructor
        · intro hall j hj
          rcases List.mem_cons.mp hj with h | h
          · rw [h, hf, heq, hnone]
          · exact hall j h
        · intro hall j hj
          exact hall j (List.mem_cons_of_mem _ hj)

/-! ## Theorems: file and directory comparison -/

/-- C6: for two files whose contents are byte-for-byte identical, `filesEqual` returns
`(true, nil)` for every threshold, whatever the decoder does with those bytes; when the
bytes differ, it returns what `imagesEqual` returns. -/
theorem filesEqual_identical_bytes (env : Env) (path1 path2 : String) (t : imageThreshold)
    (bytes1 bytes2 : List Nat)
    (h1 : env.readFile path1 = .ok bytes1) (h2 : env.readFile path2 = .ok bytes2) :
    (bytes1 = bytes2 → filesEqual env path1 path2 t = .ret (true, none)) ∧
    (bytes1 ≠ bytes2 → filesEqual env path1 path2 t = .ret (imagesEqual env path1 path2 t)) := by
  rw [filesEqual_of_read env path1 path2 t bytes1 bytes2 h1 h2]
  constructor
  · intro hb
    rw [if_pos hb]
  · intro hb
    rw [if_neg hb]

/-- Witness of C6: two byte-identical files that are not decodable images compare equal
under the zero threshold, although decoding either of them fails. -/
theorem filesEqual_identical_bytes_witness :
    sampleEnv.readFile "notes.txt" = .ok [7, 7] ∧
    sampleEnv.readFile "notes-copy.txt" = .ok [7, 7] ∧
    readImage sampleEnv "notes.txt" = .error "image: unknown format" ∧
    filesEqual sampleEnv "notes.txt" "notes-copy.txt" zeroThreshold = .ret (true, none) ∧
    filesEqual sampleEnv "black.png" "dot.png" zeroThreshold =
      .ret (imagesEqual sampleEnv "black.png" "dot.png" zeroThreshold) :=
  ⟨rfl, rfl, rfl,
    (filesEqual_identical_bytes sampleEnv "notes.txt" "notes-copy.txt" zeroThreshold
      [7, 7] [7, 7] rfl rfl).1 rfl,
    (filesEqual_identical_bytes sampleEnv "black.png" "dot.png" zeroThreshold
      [0] [1] rfl rfl).2 (by decide)⟩

/-- C7: `directoriesEqual` returns true if and only if the two directories contain the
same number of files matching the mask and every pair of files at the same index of the
two sorted lists is equal under `filesEqual` with the threshold; when the counts differ it
returns `(false, nil)` whatever the files contain, readable or not. -/
theorem directoriesEqual_true_iff (env : Env) (mask dir1 dir2 : String) (t : imageThreshold)
    (files1 files2 : List String)
    (hg1 : env.glob (env.join dir1 mask) = .ok files1)
    (hg2 : env.glob (env.join dir2 mask) = .ok files2) :
    ((∃ err, directoriesEqual env mask dir1 dir2 t = .ret (true, err)) ↔
      files1.length = files2.length ∧
      ∀ i, i < files1.length →
        filesEqual env (files1.getD i "") (files2.getD i "") t = .ret (true, none)) ∧
    (files1.length ≠ files2.length →
      directoriesEqual env mask dir1 dir2 t = .ret (false, none)) := by
  unfold directoriesEqual
  simp only [hg1, hg2]
  by_cases hlen : files1.length ≠ files2.length
  · rw [if_pos hlen]
    refine ⟨⟨?_, ?_⟩, fun _ => rfl⟩
    · rintro ⟨err, herr⟩
      exact absurd (Prod.mk.inj (Outcome.ret.inj herr)).1 (by simp)
    · rintro ⟨h, _⟩
      exact absurd h hlen
  · rw [if_neg hlen, directoriesEqualLoop_true_iff]
    have heq : files1.length = files2.length := by
      by_contra h
      exact hlen h
    refine ⟨⟨?_, ?_⟩, fun h => absurd heq h⟩
    · intro hall
      exact ⟨heq, fun i hi => hall i (List.mem_range.mpr hi)⟩
    · rintro ⟨_, hall⟩ i hi
      exact hall i (List.mem_range.mp hi)

/-- Witness of C7: the sample directories `d1` and `d2` hold two pairwise equal files
and compare equal; `d1` against `d3` differ in count and compare unequal although the
file of `d3` cannot be read. -/
theorem directoriesEqual_true_iff_witness :
    sampleEnv.glob (sampleEnv.join "d1" "*.png") = .ok ["d1/doc-001.png", "d1/doc-002.png"] ∧
    sampleEnv.glob (sampleEnv.join "d3" "*.png") = .ok ["d3/doc-001.png"] ∧
    sampleEnv.readFile "d3/doc-001.png" = .error "open: no such file or directory" ∧
    directoriesEqual sampleEnv "*.png" "d1" "d2" zeroThreshold = .ret (true, none) ∧
    directoriesEqual sampleEnv "*.png" "d1" "d3" zeroThreshold = .ret (false, none) :=
  ⟨rfl, rfl, rfl, by decide,
    (directoriesEqual_true_iff sampleEnv "*.png" "d1" "d3" zeroThreshold
      ["d1/doc-001.png", "d1/doc-002.png"] ["d3/doc-001.png"] rfl rfl).2 (by decide)⟩

/-! ## Lemmas on the colour classifier -/

theorem abs_add_cast (a b : Int) :
    (if a < 0 then -a else a) + (if b < 0 then -b else b) = ((a.natAbs + b.natAbs : Nat) : Int) := by
  split_ifs <;> omega

theorem F64.ofInt_natCast (n : Nat) : F64.ofInt (n : Int) = F64.ofNat n := by
  unfold F64.ofInt F64.ofNat
  have h : ¬ ((n : Int) < 0) := by omega
  simp [h]

/-- The score computed in the loop bodies of `imgIsColor` and `imgMarkColor` is the
colour score of the pixel. -/
theorem loopScore_eq (p : Pixel) :
    F64.mul (F64.div (F64.ofInt
        ((if (p.r : Int) - (p.g : Int) < 0 then -((p.r : Int) - (p.g : Int))
            else (p.r : Int) - (p.g : Int)) +
          (if (p.g : Int) - (p.b : Int) < 0 then -((p.g : Int) - (p.b : Int))
            else (p.g : Int) - (p.b : Int))))
        (F64.ofNat 0xFFFF)) (F64.ofNat 0xFF) = colorScore p := by
  rw [abs_add_cast, F64.ofInt_natCast]
  rfl

theorem foldl_nested {σ : Type} (f : Nat → σ → Nat → σ) (xs ys : List Nat) (st : σ) :
    xs.foldl (fun st x => ys.foldl (f x) st) st =
      (xs.flatMap (fun x => ys.map (fun y => (x, y)))).foldl (fun st c => f c.1 st c.2) st := by
  induction xs generalizing st with
  | nil => rfl
  | cons x rest ih =>
    rw [List.foldl_cons, ih, List.flatMap_cons, List.foldl_append, List.foldl_map]

theorem imgIsColorColumn_iff (img : Image) (x : Nat) (ys : List Nat) :
    imgIsColorColumn img x ys = true ↔ ∃ y, y ∈ ys ∧ isColored (img.pixelAt x y) = true := by
  induction ys with
  | nil => simp [imgIsColorColumn]
  | cons y rest ih =>
    unfold imgIsColorColumn
    simp only [loopScore_eq]
    by_cases h : F64.gt (colorScore (img.pixelAt x y)) colorThreshold = true
    · rw [if_pos h]
      exact ⟨fun _ => ⟨y, List.mem_cons_self _ _, h⟩, fun _ => rfl⟩
    · rw [if_neg h, ih]
      simp only [List.mem_cons]
      constructor
      · rintro ⟨y1, hy1, hc⟩
        exact ⟨y1, Or.inr hy1, hc⟩
      · rintro ⟨y1, hy1 | hy1, hc⟩
        · subst hy1
          exact absurd hc h
        · exact ⟨y1, hy1, hc⟩

theorem imgIsColorLoop_iff (img : Image) (h : Nat) (xs : List Nat) :
    imgIsColorLoop img h xs = true ↔
      ∃ x y, x ∈ xs ∧ y < h ∧ isColored (img.pixelAt x y) = true := by
  induction xs with
  | nil => simp [imgIsColorLoop]
  | cons x rest ih =>
    unfold imgIsColorLoop
    by_cases hc : imgIsColorColumn img x (List.range h) = true
    · rw [if_pos hc]
      obtain ⟨y, hy, hcol⟩ := (imgIsColorColumn_iff img x _).mp hc
      exact ⟨fun _ => ⟨x, y, List.mem_cons_self _ _, List.mem_range.mp hy, hcol⟩, fun _ => rfl⟩
    · rw [if_neg hc, ih]
      simp only [List.mem_cons]
      constructor
      · rintro ⟨x1, y1, hx1, hy1, hcol⟩
        exact ⟨x1, y1, Or.inr hx1, hy1, hcol⟩
      · rintro ⟨x1, y1, hx1 | hx1, hy1, hcol⟩
        · subst hx1
          exact absurd ((imgIsColorColumn_iff img x1 _).mpr ⟨y1, List.mem_range.mpr hy1, hcol⟩) hc
        · exact ⟨x1, y1, hx1, hy1, hcol⟩

/-- The early-exit scan of `imgIsColor` finds a coloured pixel exactly when there is one. -/
theorem imgIsColor_iff_exists (img : Image) :
    imgIsColor img = true ↔
      ∃ x y, x < img.maxX ∧ y < img.maxY ∧ isColored (img.pixelAt x y) = true := by
  unfold imgIsColor
  rw [imgIsColorLoop_iff]
  simp only [List.mem_range]

theorem imgMarkColorPixel_eq (imgIn : Image) (x y : Nat) (st : Image × List F64) :
    imgMarkColorPixel imgIn x st y =
      if isColored (imgIn.pixelAt x y) = true then
        (st.1.set x y black, st.2 ++ [colorScore (imgIn.pixelAt x y)])
      else st := by
  unfold imgMarkColorPixel
  simp only [loopScore_eq]
  rfl

/-- The scores collected by a run of the loop body of `imgMarkColor` over the
coordinates `cs`. -/
theorem imgMarkColor_fold_data (imgIn : Image) (cs : List (Nat × Nat))
    (st : Image × List F64) :
    (cs.foldl (fun st c => imgMarkColorPixel imgIn c.1 st c.2) st).2 =
      st.2 ++ (cs.filter (fun c => isColored (imgIn.pixelAt c.1 c.2))).map
        (fun c => colorScore (imgIn.pixelAt c.1 c.2)) := by
  induction cs generalizing st with
  | nil => simp
  | cons c rest ih =>
    rw [List.foldl_cons, ih, imgMarkColorPixel_eq]
    by_cases h : isColored (imgIn.pixelAt c.1 c.2) = true
    · simp [h, List.filter_cons]
    · simp [h, List.filter_cons]

theorem Image.set_maxX (img : Image) (x y : Nat) (c : Pixel) :
    (img.set x y c).maxX = img.maxX := by
  unfold Image.set
  split_ifs <;> rfl

theorem Image.set_maxY (img : Image) (x y : Nat) (c : Pixel) :
    (img.set x y c).maxY = img.maxY := by
  unfold Image.set
  split_ifs <;> rfl

theorem Image.set_pixelAt (img : Image) (x y : Nat) (c : Pixel) (x1 y1 : Nat) :
    (img.set x y c).pixelAt x1 y1 =
      if (x1 = x ∧ y1 = y) ∧ x < img.maxX ∧ y < img.maxY then c else img.pixelAt x1 y1 := by
  unfold Image.set
  by_cases hb : x < img.maxX ∧ y < img.maxY
  · by_cases he : x1 = x ∧ y1 = y
    · simp [hb, he]
    · simp [hb, he]
  · simp [hb]

/-- The image produced by a run of the loop body of `imgMarkColor` over the
coordinates `cs`: bounds are kept, and a pixel is black exactly when it was visited,
lies inside the bounds and is coloured in `imgIn`. -/
theorem imgMarkColor_fold_image (imgIn : Image) (cs : List (Nat × Nat))
    (st : Image × List F64) :
    (cs.foldl (fun st c => imgMarkColorPixel imgIn c.1 st c.2) st).1.maxX = st.1.maxX ∧
    (cs.foldl (fun st c => imgMarkColorPixel imgIn c.1 st c.2) st).1.maxY = st.1.maxY ∧
    ∀ x y, (cs.foldl (fun st c => imgMarkColorPixel imgIn c.1 st c.2) st).1.pixelAt x y =
      if (x, y) ∈ cs ∧ x < st.1.maxX ∧ y < st.1.maxY ∧ isColored (imgIn.pixelAt x y) = true
      then black else st.1.pixelAt x y := by
  induction cs generalizing st with
  | nil => simp
  | cons c rest ih =>
    rw [List.foldl_cons]
    obtain ⟨hX, hY, hP⟩ := ih (imgMarkColorPixel imgIn c.1 st c.2)
    by_cases h : isColored (imgIn.pixelAt c.1 c.2) = true
    · have hstep : imgMarkColorPixel imgIn c.1 st c.2 =
          (st.1.set c.1 c.2 black, st.2 ++ [colorScore (imgIn.pixelAt c.1 c.2)]) := by
        rw [imgMarkColorPixel_eq, if_pos h]
      rw [hstep] at hX hY hP ⊢
      dsimp only at hX hY hP
      rw [Image.set_maxX] at hX hP
      rw [Image.set_maxY] at hY hP
      refine ⟨hX, hY, fun x y => ?_⟩
      rw [hP x y, Image.set_pixelAt]
      by_cases hin : (x, y) ∈ rest ∧ x < st.1.maxX ∧ y < st.1.maxY ∧
          isColored (imgIn.pixelAt x y) = true
      · have hin2 : (x, y) ∈ c :: rest ∧ x < st.1.maxX ∧ y < st.1.maxY ∧
            isColored (imgIn.pixelAt x y) = true :=
          ⟨List.mem_cons_of_mem _ hin.1, hin.2⟩
        rw [if_pos hin, if_pos hin2]
      · rw [if_neg hin]
        by_cases hc : (x = c.1 ∧ y = c.2) ∧ c.1 < st.1.maxX ∧ c.2 < st.1.maxY
        · obtain ⟨⟨hx, hy⟩, hbx, hby⟩ := hc
          have hxy : (x, y) = c := by rw [hx, hy]
          have hin2 : (x, y) ∈ c :: rest ∧ x < st.1.maxX ∧ y < st.1.maxY ∧
              isColored (imgIn.pixelAt x y) = true := by
            refine ⟨hxy ▸ List.mem_cons_self _ _, hx ▸ hbx, hy ▸ hby, ?_⟩
            rw [hx, hy]
            exact h
          rw [if_pos ⟨⟨hx, hy⟩, hbx, hby⟩, if_pos hin2]
        · have hin2 : ¬ ((x, y) ∈ c :: rest ∧ x < st.1.maxX ∧ y < st.1.maxY ∧
              isColored (imgIn.pixelAt x y) = true) := by
            rintro ⟨hm, hbx, hby, hcol⟩
            rcases List.mem_cons.mp hm with heq | hm
            · apply hc
              have h1 : x = c.1 := by rw [← heq]
              have h2 : y = c.2 := by rw [← heq]
              exact ⟨⟨h1, h2⟩, h1 ▸ hbx, h2 ▸ hby⟩
            · exact hin ⟨hm, hbx, hby, hcol⟩
          rw [if_neg hc, if_neg hin2]
    · have hstep : imgMarkColorPixel imgIn c.1 st c.2 = st := by
        rw [imgMarkColorPixel_eq, if_neg h]
      rw [hstep] at hX hY hP ⊢
      refine ⟨hX, hY, fun x y => ?_⟩
      rw [hP x y]
      by_cases hin : (x, y) ∈ rest ∧ x < st.1.maxX ∧ y < st.1.maxY ∧
          isColored (imgIn.pixelAt x y) = true
      · have hin2 : (x, y) ∈ c :: rest ∧ x < st.1.maxX ∧ y < st.1.maxY ∧
            isColored (imgIn.pixelAt x y) = true :=
          ⟨List.mem_cons_of_mem _ hin.1, hin.2⟩
        rw [if_pos hin, if_pos hin2]
      · have hin2 : ¬ ((x, y) ∈ c :: rest ∧ x < st.1.maxX ∧ y < st.1.maxY ∧
            isColored (imgIn.pixelAt x y) = true) := by
          rintro ⟨hm, hbx, hby, hcol⟩
          rcases List.mem_cons.mp hm with heq | hm
          · apply h
            rw [← heq]
            exact hcol
          · exact hin ⟨hm, hbx, hby, hcol⟩
        rw [if_neg hin, if_neg hin2]

/-- The scan of `imgMarkColor` as one pass over the coordinates in scan order. -/
theorem imgMarkColorScan_eq (imgIn : Image) (w h : Nat) (st : Image × List F64) :
    imgMarkColorScan imgIn w h st =
      (scanCoords w h).foldl (fun st c => imgMarkColorPixel imgIn c.1 st c.2) st := by
  unfold imgMarkColorScan scanCoords
  exact foldl_nested (imgMarkColorPixel imgIn) _ _ st

/-! ## Theorems: colour classifier -/

/-- C8: for every raster, `imgIsColor` returns true if and only if at least one pixel has
a colour score, `|R-G| + |G-B|` rescaled from the scale `0..0xFFFF` to the scale `0..255`,
strictly greater than `colorThreshold = 5.0`; the float64 test agrees with the exact one,
`255 * (|R-G| + |G-B|) > 5 * 65535`.  An all-gray 5x5 raster gives false; the same raster
with one pixel set to pure red gives true. -/
theorem imgIsColor_iff_colored_pixel :
    (∀ img : Image, imgIsColor img = true ↔
      ∃ x y, x < img.maxX ∧ y < img.maxY ∧
        F64.gt (colorScore (img.pixelAt x y)) colorThreshold = true) ∧
    (∀ p : Pixel, F64.gt (colorScore p) colorThreshold = true ↔
      5 * 65535 < 255 * (Int.natAbs ((p.r : Int) - p.g) + Int.natAbs ((p.g : Int) - p.b))) ∧
    colorThreshold = F64.ofNat 5 ∧
    imgIsColor grayImage5 = false ∧
    imgIsColor redDotImage5 = true :=
  ⟨fun img => imgIsColor_iff_exists img, fun p => rescale_gt_threshold_iff _, rfl,
    by decide!, by decide!⟩

/-- C9: for every raster, the early-exit classifier and the full-scan marker agree:
`imgIsColor img` is true if and only if the summary of `imgMarkColor img` has a count
`n > 0`. -/
theorem imgIsColor_iff_markColor_count (img : Image) :
    imgIsColor img = true ↔ 0 < (imgMarkColor img).2.n := by
  have hn : (imgMarkColor img).2.n =
      ((scanCoords img.maxX img.maxY).filter
        (fun c => isColored (img.pixelAt c.1 c.2))).length := by
    show (summarizeSeries _).n = _
    unfold summarizeSeries
    simp only [Image.newNRGBA]
    rw [imgMarkColorScan_eq, imgMarkColor_fold_data]
    simp
  rw [hn, imgIsColor_iff_exists, List.length_pos_iff_exists_mem]
  constructor
  · rintro ⟨x, y, hx, hy, hc⟩
    exact ⟨(x, y), List.mem_filter.mpr ⟨(mem_scanCoords _ _ x y).mpr ⟨hx, hy⟩, hc⟩⟩
  · rintro ⟨⟨x, y⟩, hmem⟩
    obtain ⟨hin, hc⟩ := List.mem_filter.mp hmem
    obtain ⟨hx, hy⟩ := (mem_scanCoords _ _ x y).mp hin
    exact ⟨x, y, hx, hy, hc⟩

/-- C10: for every raster, `imgMarkColor` returns an image with the same bounds in which
the pixel at `(x, y)` is the marker colour (opaque black) if and only if the pixel of the
input at `(x, y)` is coloured; every other pixel keeps the value it has in the freshly
created image (the zero colour). -/
theorem imgMarkColor_marks_colored (imgIn : Image) :
    (imgMarkColor imgIn).1.maxX = imgIn.maxX ∧
    (imgMarkColor imgIn).1.maxY = imgIn.maxY ∧
    (∀ x y, x < imgIn.maxX → y < imgIn.maxY →
      ((imgMarkColor imgIn).1.pixelAt x y = black ↔
        F64.gt (colorScore (imgIn.pixelAt x y)) colorThreshold = true)) ∧
    (∀ x y, (imgMarkColor imgIn).1.pixelAt x y ≠ black →
      (imgMarkColor imgIn).1.pixelAt x y =
        (Image.newNRGBA imgIn.maxX imgIn.maxY).pixelAt x y) := by
  have hfold := imgMarkColor_fold_image imgIn (scanCoords imgIn.maxX imgIn.maxY)
    (Image.newNRGBA imgIn.maxX imgIn.maxY, [])
  rw [← imgMarkColorScan_eq] at hfold
  obtain ⟨hX, hY, hP⟩ := hfold
  have hout : (imgMarkColor imgIn).1 =
      (imgMarkColorScan imgIn imgIn.maxX imgIn.maxY
        (Image.newNRGBA imgIn.maxX imgIn.maxY, [])).1 := rfl
  rw [hout]
  refine ⟨hX, hY, ?_, ?_⟩
  · intro x y hx hy
    rw [hP x y]
    by_cases hc : isColored (imgIn.pixelAt x y) = true
    · have hin : (x, y) ∈ scanCoords imgIn.maxX imgIn.maxY ∧
          x < (Image.newNRGBA imgIn.maxX imgIn.maxY, ([] : List F64)).1.maxX ∧
          y < (Image.newNRGBA imgIn.maxX imgIn.maxY, ([] : List F64)).1.maxY ∧
          isColored (imgIn.pixelAt x y) = true :=
        ⟨(mem_scanCoords _ _ x y).mpr ⟨hx, hy⟩, hx, hy, hc⟩
      rw [if_pos hin]
      exact ⟨fun _ => hc, fun _ => rfl⟩
    · have hin : ¬ ((x, y) ∈ scanCoords imgIn.maxX imgIn.maxY ∧
          x < (Image.newNRGBA imgIn.maxX imgIn.maxY, ([] : List F64)).1.maxX ∧
          y < (Image.newNRGBA imgIn.maxX imgIn.maxY, ([] : List F64)).1.maxY ∧
          isColored (imgIn.pixelAt x y) = true) := fun h => hc h.2.2.2
      rw [if_neg hin]
      constructor
      · intro h
        exact absurd h (by simp [Image.newNRGBA, black])
      · intro h
        exact absurd h hc
  · intro x y hne
    rw [hP x y] at hne ⊢
    split_ifs at hne ⊢ with hin
    · exact absurd rfl hne
    · rfl

/-! ## Lemmas on the corpus ordering -/

theorem charToNat_inj (x y : Char) (h : x.toNat = y.toNat) : x = y := by
  apply Char.eq_of_val_eq
  apply UInt32.ext
  exact h

theorem lexLess_irrefl (a : List Char) : lexLess a a = false := by
  induction a with
  | nil => rfl
  | cons x xs ih => simp [lexLess, ih]

theorem lexLess_asymm (a b : List Char) (h : lexLess a b = true) : lexLess b a = false := by
  induction a generalizing b with
  | nil =>
    cases b with
    | nil => simp [lexLess] at h
    | cons y ys => rfl
  | cons x xs ih =>
    cases b with
    | nil => simp [lexLess] at h
    | cons y ys =>
      unfold lexLess at h ⊢
      by_cases h1 : x.toNat < y.toNat
      · have h2 : ¬ y.toNat < x.toNat := by omega
        simp [h1, h2]
      · by_cases h2 : y.toNat < x.toNat
        · simp [h1, h2] at h
        · simp only [h1, h2, if_false] at h ⊢
          exact ih ys h

theorem lexLess_trans (a b c : List Char) (hab : lexLess a b = true) (hbc : lexLess b c = true) :
    lexLess a c = true := by
  induction a generalizing b c with
  | nil =>
    cases b with
    | nil => simp [lexLess] at hab
    | cons y ys =>
      cases c with
      | nil => simp [lexLess] at hbc
      | cons z zs => rfl
  | cons x xs ih =>
    cases b with
    | nil => simp [lexLess] at hab
    | cons y ys =>
      cases c with
      | nil => simp [lexLess] at hbc
      | cons z zs =>
        unfold lexLess at hab hbc ⊢
        by_cases h1 : x.toNat < y.toNat
        · by_cases h3 : y.toNat < z.toNat
          · have : x.toNat < z.toNat := by omega
            simp [this]
          · by_cases h4 : z.toNat < y.toNat
            · simp [h3, h4] at hbc
            · have : x.toNat < z.toNat := by omega
              simp [this]
        · by_cases h2 : y.toNat < x.toNat
          · simp [h1, h2] at hab
          · simp only [h1, h2, if_false] at hab
            by_cases h3 : y.toNat < z.toNat
            · have : x.toNat < z.toNat := by omega
              simp [this]
            · by_cases h4 : z.toNat < y.toNat
              · simp [h3, h4] at hbc
              · simp only [h3, h4, if_false] at hbc
                have h5 : ¬ x.toNat < z.toNat := by omega
                have h6 : ¬ z.toNat < x.toNat := by omega
                simp only [h5, h6, if_false]
                exact ih ys zs hab hbc

theorem lexLess_total (a b : List Char) (hab : lexLess a b = false) (hba : lexLess b a = false) :
    a = b := by
  induction a generalizing b with
  | nil =>
    cases b with
    | nil => rfl
    | cons y ys => simp [lexLess] at hab
  | cons x xs ih =>
    cases b with
    | nil => simp [lexLess] at hba
    | cons y ys =>
      unfold lexLess at hab hba
      by_cases h1 : x.toNat < y.toNat
      · simp [h1] at hab
      · by_cases h2 : y.toNat < x.toNat
        · simp [h2] at hba
        · simp only [h1, h2, if_false] at hab hba
          have hxy : x = y := charToNat_inj x y (by omega)
          rw [hxy, ih ys hab hba]

theorem strLess_irrefl (a : String) : strLess a a = false := lexLess_irrefl _

theorem strLess_asymm (a b : String) (h : strLess a b = true) : strLess b a = false :=
  lexLess_asymm _ _ h

theorem strLess_trans (a b c : String) (hab : strLess a b = true) (hbc : strLess b c = true) :
    strLess a c = true := lexLess_trans _ _ _ hab hbc

theorem strLess_total (a b : String) (hab : strLess a b = false) (hba : strLess b a = false) :
    a = b := by
  have h := lexLess_total _ _ hab hba
  cases a
  cases b
  simp only [String.toList] at h
  rw [h]

/-- The order of `byFile.Less`: by size, and by path among equal sizes. -/
theorem byFileLess_iff (a b : FileData) :
    byFileLess a b = true ↔ a.size < b.size ∨ (a.size = b.size ∧ strLess a.path b.path = true) := by
  unfold byFileLess
  by_cases h : a.size = b.size
  · simp [h]
  · simp only [ne_eq, h, not_false_eq_true, if_true, decide_eq_true_eq, false_and, or_false]

theorem byFileLE_iff (a b : FileData) :
    byFileLE a b ↔ a.size < b.size ∨ (a.size = b.size ∧ strLess b.path a.path = false) := by
  unfold byFileLE
  rw [← Bool.not_eq_true, byFileLess_iff]
  constructor
  · intro h
    rcases Int.lt_trichotomy a.size b.size with h1 | h1 | h1
    · exact Or.inl h1
    · refine Or.inr ⟨h1, ?_⟩
      cases hs : strLess b.path a.path
      · rfl
      · exact absurd (Or.inr ⟨h1.symm, hs⟩) h
    · exact absurd (Or.inl h1) h
  · rintro (h1 | ⟨h1, h2⟩)
    · rintro (h3 | ⟨h3, _⟩) <;> omega
    · rintro (h3 | ⟨_, h4⟩)
      · omega
      · rw [h2] at h4
        exact absurd h4 (by simp)

instance byFileLE_total : IsTotal FileData byFileLE where
  total a b := by
    rw [byFileLE_iff, byFileLE_iff]
    rcases Int.lt_trichotomy a.size b.size with h1 | h1 | h1
    · exact Or.inl (Or.inl h1)
    · cases hs : strLess b.path a.path
      · exact Or.inl (Or.inr ⟨h1, rfl⟩)
      · exact Or.inr (Or.inr ⟨h1.symm, strLess_asymm _ _ hs⟩)
    · exact Or.inr (Or.inl h1)

instance byFileLE_trans : IsTrans FileData byFileLE where
  trans a b c := by
    rw [byFileLE_iff, byFileLE_iff, byFileLE_iff]
    rintro (h1 | ⟨h1, h2⟩) (h3 | ⟨h3, h4⟩)
    · exact Or.inl (by omega)
    · exact Or.inl (by omega)
    · exact Or.inl (by omega)
    · refine Or.inr ⟨by omega, ?_⟩
      cases hs : strLess c.path a.path
      · rfl
      · -- c < a and not (b < a), hence c < b, against `h4`
        cases hba : strLess a.path b.path
        · have hab := strLess_total _ _ hba h2
          rw [hab] at hs
          rw [hs] at h4
          exact absurd h4 (by simp)
        · have := strLess_trans _ _ _ hs hba
          rw [this] at h4
          exact absurd h4 (by simp)

/-- The loop of `sort.Search` keeps its invariant: everything before `i` is false,
everything from `j` on is true. -/
theorem searchLoop_spec (f : Nat → Bool) (n : Nat)
    (hmono : ∀ a b, a ≤ b → b < n → f a = true → f b = true) :
    ∀ fuel i j, i ≤ j → j ≤ n → j - i ≤ fuel →
      (∀ k, k < i → f k = false) → (∀ k, j ≤ k → k < n → f k = true) →
      searchLoop f fuel i j ≤ n ∧
      (∀ k, k < searchLoop f fuel i j → f k = false) ∧
      (∀ k, searchLoop f fuel i j ≤ k → k < n → f k = true) := by
  intro fuel
  induction fuel with
  | zero =>
    intro i j hij hjn hfuel hlo hhi
    have heq : i = j := by omega
    subst heq
    exact ⟨hjn, hlo, hhi⟩
  | succ fuel ih =>
    intro i j hij hjn hfuel hlo hhi
    unfold searchLoop
    by_cases hlt : i < j
    · rw [if_pos hlt]
      simp only
      by_cases hf : f ((i + j) / 2) = false
      · rw [if_pos hf]
        apply ih _ _ (by omega) hjn (by omega) _ hhi
        intro k hk
        cases hfk : f k
        · rfl
        · have := hmono k ((i + j) / 2) (by omega) (by omega) hfk
          rw [hf] at this
          exact absurd this (by simp)
      · rw [if_neg hf]
        have hft : f ((i + j) / 2) = true := by
          cases h : f ((i + j) / 2)
          · exact absurd h hf
          · rfl
        apply ih _ _ (by omega) (by omega) (by omega) hlo
        intro k hk hkn
        exact hmono _ k hk hkn hft
    · rw [if_neg hlt]
      have heq : i = j := by omega
      subst heq
      exact ⟨hjn, hlo, hhi⟩

/-- On a monotone predicate `sort.Search` returns the first index at which it is true. -/
theorem search_spec (f : Nat → Bool) (n : Nat)
    (hmono : ∀ a b, a ≤ b → b < n → f a = true → f b = true) :
    search n f ≤ n ∧ ∀ k, k < n → (f k = true ↔ search n f ≤ k) := by
  obtain ⟨h1, h2, h3⟩ := searchLoop_spec f n hmono n 0 n (Nat.zero_le n) (Nat.le_refl n)
    (by omega) (fun k hk => absurd hk (Nat.not_lt_zero k)) (fun k hk hkn => absurd hkn (by omega))
  unfold search
  refine ⟨h1, fun k hk => ⟨fun hf => ?_, fun hle => h3 k hle hk⟩⟩
  by_contra hlt
  have := h2 k (by omega)
  rw [hf] at this
  exact absurd this (by simp)

/-- A slice `l[r0:r1]` taken at the switch points of two predicates is a filter. -/
theorem take_drop_eq_filter {α : Type} (p q : α → Bool) :
    ∀ (l : List α) (r0 r1 : Nat), r0 ≤ r1 →
      (∀ k (hk : k < l.length), p (l.get ⟨k, hk⟩) = true ↔ r0 ≤ k) →
      (∀ k (hk : k < l.length), q (l.get ⟨k, hk⟩) = true ↔ k < r1) →
      (l.drop r0).take (r1 - r0) = l.filter (fun a => p a && q a) := by
  intro l
  induction l with
  | nil => intro r0 r1 _ _ _; simp
  | cons x xs ih =>
    intro r0 r1 hr hp hq
    have hp0 := hp 0 (by simp)
    have hq0 := hq 0 (by simp)
    simp only [List.get_eq_getElem, List.getElem_cons_zero] at hp0 hq0
    have hps : ∀ r, (∀ k (hk : k < (x :: xs).length), p ((x :: xs).get ⟨k, hk⟩) = true ↔ r + 1 ≤ k) →
        ∀ k (hk : k < xs.length), p (xs.get ⟨k, hk⟩) = true ↔ r ≤ k := by
      intro r h k hk
      have := h (k + 1) (by simp; omega)
      simp only [List.get_eq_getElem, List.getElem_cons_succ] at this ⊢
      rw [this]
      omega
    have hqs : ∀ r, (∀ k (hk : k < (x :: xs).length), q ((x :: xs).get ⟨k, hk⟩) = true ↔ k < r + 1) →
        ∀ k (hk : k < xs.length), q (xs.get ⟨k, hk⟩) = true ↔ k < r := by
      intro r h k hk
      have := h (k + 1) (by simp; omega)
      simp only [List.get_eq_getElem, List.getElem_cons_succ] at this ⊢
      rw [this]
      omega
    cases r1 with
    | zero =>
      have hr0 : r0 = 0 := by omega
      subst hr0
      have hqx : q x = false := by
        cases h : q x
        · rfl
        · exact absurd (hq0.mp h) (by omega)
      have hall : ∀ a, a ∈ xs → ¬ ((p a && q a) = true) := by
        intro a ha
        obtain ⟨k, hk, rfl⟩ := List.mem_iff_getElem.mp ha
        have := hq (k + 1) (by simp; omega)
        simp only [List.get_eq_getElem, List.getElem_cons_succ] at this
        intro hc
        rw [Bool.and_eq_true] at hc
        exact absurd (this.mp hc.2) (by omega)
      simp only [List.drop_zero, Nat.sub_self, List.take_zero, List.filter_cons, hqx,
        Bool.and_false, Bool.false_eq_true, if_false]
      exact (List.filter_eq_nil_iff.mpr hall).symm
    | succ r1 =>
      have hqx : q x = true := hq0.mpr (by omega)
      cases r0 with
      | zero =>
        have hpx : p x = true := hp0.mpr (by omega)
        have hp' : ∀ k (hk : k < xs.length), p (xs.get ⟨k, hk⟩) = true ↔ 0 ≤ k := by
          intro k hk
          have := hp (k + 1) (by simp; omega)
          simp only [List.get_eq_getElem, List.getElem_cons_succ] at this ⊢
          rw [this]
          omega
        have := ih 0 r1 (Nat.zero_le _) hp' (hqs r1 hq)
        simp only [List.drop_zero, Nat.sub_zero] at this
        simp only [List.drop_zero, Nat.sub_zero, List.take_succ_cons, List.filter_cons, hpx, hqx,
          Bool.and_self, if_true, this]
      | succ r0 =>
        have hpx : p x = false := by
          cases h : p x
          · rfl
          · exact absurd (hp0.mp h) (by omega)
        have := ih r0 r1 (by omega) (hps r0 hp) (hqs r1 hq)
        simp only [List.drop_succ_cons, Nat.add_sub_add_right, List.filter_cons, hpx,
          Bool.false_and, Bool.false_eq_true, if_false, this]

/-- What `statFiles` returns. -/
theorem statFiles_ret (stat : String → Except Error Int) :
    ∀ (pathList : List String) (fds : List FileData), statFiles stat pathList = .ret fds →
      fds.map (fun fd => fd.path) = pathList ∧ ∀ fd, fd ∈ fds → stat fd.path = .ok fd.size := by
  intro pathList
  induction pathList with
  | nil =>
    intro fds h
    simp only [statFiles] at h
    have := Outcome.ret.inj h
    subst this
    simp
  | cons path rest ih =>
    intro fds h
    unfold statFiles at h
    cases hs : stat path with
    | error e => simp [hs] at h
    | ok size =>
      cases hr : statFiles stat rest with
      | panicked e => simp [hs, hr] at h
      | ret fds0 =>
        simp only [hs, hr] at h
        have := Outcome.ret.inj h
        subst this
        obtain ⟨h1, h2⟩ := ih fds0 hr
        refine ⟨by simp [h1], ?_⟩
        intro fd hfd
        rcases List.mem_cons.mp hfd with h3 | h3
        · rw [h3]
          exact hs
        · exact h2 fd h3

/-- `statFiles` returns when every file exists. -/
theorem statFiles_total (stat : String → Except Error Int) :
    ∀ (pathList : List String), (∀ p, p ∈ pathList → ∃ size, stat p = .ok size) →
      ∃ fds, statFiles stat pathList = .ret fds := by
  intro pathList
  induction pathList with
  | nil => intro _; exact ⟨[], rfl⟩
  | cons path rest ih =>
    intro h
    obtain ⟨size, hs⟩ := h path (List.mem_cons_self _ _)
    obtain ⟨fds, hr⟩ := ih (fun p hp => h p (List.mem_cons_of_mem _ hp))
    exact ⟨{ path := path, size := size } :: fds, by simp [statFiles, hs, hr]⟩

theorem sizeAt_lt (l : List FileData) (k : Nat) (hk : k < l.length) :
    sizeAt l k = (l.get ⟨k, hk⟩).size := by
  unfold sizeAt
  rw [List.getD_eq_getElem _ _ hk]
  rfl

/-- Along a list sorted by `byFile.Less` the sizes do not decrease. -/
theorem sizeAt_mono (l : List FileData) (hl : l.Sorted byFileLE) (a b : Nat) (hab : a ≤ b)
    (hb : b < l.length) : sizeAt l a ≤ sizeAt l b := by
  rcases Nat.lt_or_ge a b with hlt | hge
  · rw [sizeAt_lt l a (by omega), sizeAt_lt l b hb]
    have h := hl.rel_get_of_lt (a := ⟨a, by omega⟩) (b := ⟨b, hb⟩) hlt
    rcases (byFileLE_iff _ _).mp h with h1 | ⟨h1, _⟩ <;> omega
  · have : a = b := by omega
    subst this
    exact Int.le_refl _

/-- On a sorted list `sort.Search` for `size >= limit` returns the number of entries
smaller than the limit. -/
theorem search_size_spec (l : List FileData) (hl : l.Sorted byFileLE) (limit : Int) :
    search l.length (fun i => decide (sizeAt l i ≥ limit)) ≤ l.length ∧
    ∀ k (hk : k < l.length),
      (limit ≤ (l.get ⟨k, hk⟩).size ↔
        search l.length (fun i => decide (sizeAt l i ≥ limit)) ≤ k) := by
  have hsp := search_spec (fun i => decide (sizeAt l i ≥ limit)) l.length
    (by
      intro a b hab hb ha
      simp only [decide_eq_true_eq] at ha ⊢
      have := sizeAt_mono l hl a b hab hb
      omega)
  refine ⟨hsp.1, fun k hk => ?_⟩
  rw [← hsp.2 k hk]
  simp only [decide_eq_true_eq, ge_iff_le]
  rw [sizeAt_lt l k hk]

theorem sortFilesLow_spec (l : List FileData) (hl : l.Sorted byFileLE) (minSize : Int) :
    sortFilesLow l minSize ≤ l.length ∧
    ∀ k (hk : k < l.length),
      (decide (minSize < 0 ∨ minSize ≤ (l.get ⟨k, hk⟩).size) = true ↔
        sortFilesLow l minSize ≤ k) := by
  unfold sortFilesLow
  by_cases hmin : minSize ≥ 0
  · rw [if_pos hmin]
    obtain ⟨h1, h2⟩ := search_size_spec l hl minSize
    refine ⟨h1, fun k hk => ?_⟩
    rw [← h2 k hk]
    simp only [decide_eq_true_eq]
    constructor
    · rintro (h | h)
      · omega
      · exact h
    · intro h
      exact Or.inr h
  · rw [if_neg hmin]
    refine ⟨Nat.zero_le _, fun k hk => ?_⟩
    simp only [decide_eq_true_eq]
    exact ⟨fun _ => Nat.zero_le _, fun _ => Or.inl (by omega)⟩

theorem sortFilesHigh_spec (l : List FileData) (hl : l.Sorted byFileLE) (maxSize : Int) :
    sortFilesHigh l l.length maxSize ≤ l.length ∧
    ∀ k (hk : k < l.length),
      (decide (maxSize < 0 ∨ (l.get ⟨k, hk⟩).size < maxSize) = true ↔
        k < sortFilesHigh l l.length maxSize) := by
  unfold sortFilesHigh
  by_cases hmax : maxSize ≥ 0
  · rw [if_pos hmax]
    obtain ⟨h1, h2⟩ := search_size_spec l hl maxSize
    refine ⟨h1, fun k hk => ?_⟩
    rw [← Nat.not_le, ← h2 k hk]
    simp only [decide_eq_true_eq]
    constructor
    · rintro (h | h) <;> omega
    · intro h
      exact Or.inr (by omega)
  · rw [if_neg hmax]
    refine ⟨Nat.le_refl _, fun k hk => ?_⟩
    simp only [decide_eq_true_eq]
    exact ⟨fun _ => hk, fun _ => Or.inl (by omega)⟩

/-- What `sortFiles` does once every `os.Stat` has succeeded: it returns the sorted
entries inside the size window `minSize <= size < maxSize` (a negative limit is no
limit), or panics on the slice expression when `i0 > i1`. -/
theorem sortFiles_of_stat (stat : String → Except Error Int) (pathList : List String)
    (minSize maxSize : Int) (fds : List FileData)
    (hs : statFiles stat pathList = .ret fds) :
    sortFiles stat pathList minSize maxSize =
      if sortFilesLow (fds.insertionSort byFileLE) minSize ≤
          sortFilesHigh (fds.insertionSort byFileLE) fds.length maxSize then
        .ret (((fds.insertionSort byFileLE).filter
          (fun fd => decide (minSize < 0 ∨ minSize ≤ fd.size) &&
            decide (maxSize < 0 ∨ fd.size < maxSize))).map (fun fd => fd.path))
      else .panicked "runtime error: slice bounds out of range" := by
  have hsorted : (fds.insertionSort byFileLE).Sorted byFileLE := List.sorted_insertionSort _ _
  have hlen : (fds.insertionSort byFileLE).length = fds.length := List.length_insertionSort _ _
  unfold sortFiles
  simp only [hs]
  by_cases hle : sortFilesLow (fds.insertionSort byFileLE) minSize ≤
      sortFilesHigh (fds.insertionSort byFileLE) fds.length maxSize
  · rw [if_pos hle, if_pos hle]
    congr 2
    apply take_drop_eq_filter _ _ _ _ _ hle
    · exact (sortFilesLow_spec _ hsorted minSize).2
    · intro k hk
      rw [(sortFilesHigh_spec _ hsorted maxSize).2 k hk, hlen]
  · rw [if_neg hle, if_neg hle]

/-- The two indexes of `sortFiles` are in order when a limit is unset or the limits are
in order, so the slice expression does not panic. -/
theorem sortFilesLow_le_high (l : List FileData) (hl : l.Sorted byFileLE) (minSize maxSize : Int)
    (h : minSize < 0 ∨ maxSize < 0 ∨ minSize ≤ maxSize) :
    sortFilesLow l minSize ≤ sortFilesHigh l l.length maxSize := by
  obtain ⟨hlo, hp⟩ := sortFilesLow_spec l hl minSize
  obtain ⟨hhi, hq⟩ := sortFilesHigh_spec l hl maxSize
  by_contra hlt
  have hk : sortFilesHigh l l.length maxSize < l.length := by omega
  have h1 := (hp _ hk).not.mpr (by omega)
  have h2 := (hq _ hk).not.mpr (by omega)
  simp only [decide_eq_true_eq, not_or] at h1 h2
  omega

theorem sortFiles_filter_sorted (fds : List FileData) (f : FileData → Bool) :
    ((fds.insertionSort byFileLE).filter f).Sorted
      (fun a b => a.size < b.size ∨ (a.size = b.size ∧ strLess b.path a.path = false)) := by
  have hsorted : (fds.insertionSort byFileLE).Sorted byFileLE := List.sorted_insertionSort _ _
  have h2 := List.Sorted.filter f hsorted
  exact List.Pairwise.imp (fun {a b} hab => (byFileLE_iff a b).mp hab) h2

/-! ## Theorems: corpus ordering -/

/-- C19: for every list of existing files, `sortFiles` returns (whenever a limit is
unset or `minSize <= maxSize`) and what it returns is in ascending order of file size,
ties broken by ascending path; with no size limit set (`minSize < 0` and `maxSize < 0`)
the result is a permutation of the input list. -/
theorem sortFiles_sorted_perm (stat : String → Except Error Int) (pathList : List String)
    (minSize maxSize : Int)
    (hexists : ∀ p, p ∈ pathList → ∃ size, stat p = .ok size) :
    ((minSize < 0 ∨ maxSize < 0 ∨ minSize ≤ maxSize) →
      ∃ l, sortFiles stat pathList minSize maxSize = .ret l) ∧
    (∀ l, sortFiles stat pathList minSize maxSize = .ret l →
      ∃ fds : List FileData, l = fds.map (fun fd => fd.path) ∧
        (∀ fd, fd ∈ fds → stat fd.path = .ok fd.size) ∧
        fds.Sorted
          (fun a b => a.size < b.size ∨ (a.size = b.size ∧ strLess b.path a.path = false))) ∧
    (minSize < 0 → maxSize < 0 →
      ∃ l, sortFiles stat pathList minSize maxSize = .ret l ∧ l.Perm pathList) := by
  obtain ⟨fds, hs⟩ := statFiles_total stat pathList hexists
  obtain ⟨hpaths, hsizes⟩ := statFiles_ret stat pathList fds hs
  have hsorted : (fds.insertionSort byFileLE).Sorted byFileLE := List.sorted_insertionSort _ _
  have hlen : (fds.insertionSort byFileLE).length = fds.length := List.length_insertionSort _ _
  have hperm : (fds.insertionSort byFileLE).Perm fds := List.perm_insertionSort _ _
  have heq := sortFiles_of_stat stat pathList minSize maxSize fds hs
  refine ⟨?_, ?_, ?_⟩
  · intro hlim
    have hle := sortFilesLow_le_high _ hsorted minSize maxSize hlim
    rw [hlen] at hle
    rw [heq, if_pos hle]
    exact ⟨_, rfl⟩
  · intro l hl
    rw [heq] at hl
    split_ifs at hl
    · refine ⟨_, (Outcome.ret.inj hl).symm, ?_, sortFiles_filter_sorted fds _⟩
      intro fd hfd
      exact hsizes fd (hperm.subset (List.mem_filter.mp hfd).1)
  · intro hmin hmax
    have hle := sortFilesLow_le_high _ hsorted minSize maxSize (Or.inl hmin)
    rw [hlen] at hle
    rw [heq, if_pos hle]
    refine ⟨_, rfl, ?_⟩
    have hall : (fds.insertionSort byFileLE).filter
        (fun fd => decide (minSize < 0 ∨ minSize ≤ fd.size) &&
          decide (maxSize < 0 ∨ fd.size < maxSize)) = fds.insertionSort byFileLE := by
      rw [List.filter_eq_self]
      intro fd _
      simp [hmin, hmax]
    rw [hall, ← hpaths]
    exact hperm.map _

theorem sampleStat_exists :
    ∀ p, p ∈ ["a.pdf", "b.pdf", "c.pdf", "d.pdf"] → ∃ size, sampleStat p = .ok size := by
  intro p hp
  simp only [List.mem_cons, List.mem_singleton, List.not_mem_nil, or_false] at hp
  rcases hp with h | h | h | h <;> subst h
  · exact ⟨100, rfl⟩
  · exact ⟨50, rfl⟩
  · exact ⟨100, rfl⟩
  · exact ⟨7, rfl⟩

/-- Witness of C19: four files of sizes 100, 50, 100 and 7 with no limit set. -/
theorem sortFiles_sorted_perm_witness :
    (∀ p, p ∈ ["a.pdf", "b.pdf", "c.pdf", "d.pdf"] → ∃ size, sampleStat p = .ok size) ∧
    sortFiles sampleStat ["a.pdf", "b.pdf", "c.pdf", "d.pdf"] (-1) (-1) =
      .ret ["d.pdf", "b.pdf", "a.pdf", "c.pdf"] ∧
    ∃ l, sortFiles sampleStat ["a.pdf", "b.pdf", "c.pdf", "d.pdf"] (-1) (-1) = .ret l ∧
      l.Perm ["a.pdf", "b.pdf", "c.pdf", "d.pdf"] :=
  ⟨sampleStat_exists, by decide,
    (sortFiles_sorted_perm sampleStat ["a.pdf", "b.pdf", "c.pdf", "d.pdf"] (-1) (-1)
      sampleStat_exists).2.2 (by decide) (by decide)⟩

/-- C20: with `maxSize = 100` a file of size exactly 100 is left out of the result of
`sortFiles`, although the comment of the function says that files of this size or
smaller are returned: the upper index is the first entry with `size >= maxSize`, so
every returned file has `size < maxSize`. -/
theorem sortFiles_excludes_maxSize :
    sampleStat "a.pdf" = .ok 100 ∧
    sortFiles sampleStat ["a.pdf"] (-1) 100 = .ret [] ∧
    sortFiles sampleStat ["a.pdf", "b.pdf", "c.pdf", "d.pdf"] (-1) 100 =
      .ret ["d.pdf", "b.pdf"] ∧
    sortFiles sampleStat ["a.pdf", "b.pdf", "c.pdf", "d.pdf"] 50 (-1) =
      .ret ["b.pdf", "a.pdf", "c.pdf"] ∧
    ∀ (stat : String → Except Error Int) (pathList l : List String) (minSize maxSize : Int),
      0 ≤ maxSize → sortFiles stat pathList minSize maxSize = .ret l →
      ∀ p, p ∈ l → ∃ size, stat p = .ok size ∧ size < maxSize := by
  refine ⟨rfl, by decide, by decide, by decide, ?_⟩
  intro stat pathList l minSize maxSize hmax hret p hp
  cases hs : statFiles stat pathList with
  | panicked e => simp [sortFiles, hs] at hret
  | ret fds =>
    obtain ⟨_, hsizes⟩ := statFiles_ret stat pathList fds hs
    rw [sortFiles_of_stat stat pathList minSize maxSize fds hs] at hret
    split_ifs at hret
    · have hl := (Outcome.ret.inj hret).symm
      rw [hl] at hp
      obtain ⟨fd, hfd, hpath⟩ := List.mem_map.mp hp
      obtain ⟨hmem, hwin⟩ := List.mem_filter.mp hfd
      have hperm : (fds.insertionSort byFileLE).Perm fds := List.perm_insertionSort _ _
      refine ⟨fd.size, ?_, ?_⟩
      · rw [← hpath]
        exact hsizes fd (hperm.subset hmem)
      · simp only [Bool.and_eq_true, decide_eq_true_eq] at hwin
        rcases hwin.2 with h | h
        · omega
        · exact h

/-! ## Lemmas on the ledger -/

/-- On an enabled ledger whose map does not hold `e.name`, `addTestResult` appends. -/
theorem addTestResult_absent (lib : Stdlib) (disk : Disk) (s : statistics) (e : testResult)
    (force : Bool) (m : String → Option Nat) (hen : s.enabled = true)
    (hm : s.testResultMap = some m) (hnone : m e.name = none) :
    s.addTestResult lib disk e force =
      .ret (if force = true then
          (statistics._save lib disk
            { s with
              testResultList := s.testResultList ++ [e]
              testResultMap := some (fun key =>
                if key = e.name then some ((s.testResultList ++ [e]).length - 1)
                else m key) }).1
        else disk,
        { s with
          testResultList := s.testResultList ++ [e]
          testResultMap := some (fun key =>
            if key = e.name then some ((s.testResultList ++ [e]).length - 1) else m key) }) := by
  unfold statistics.addTestResult
  cases force <;> simp [hen, hm, hnone]

/-- On an enabled ledger whose map sends `e.name` to an index of the list,
`addTestResult` overwrites that entry. -/
theorem addTestResult_present (lib : Stdlib) (disk : Disk) (s : statistics) (e : testResult)
    (force : Bool) (m : String → Option Nat) (i : Nat) (hen : s.enabled = true)
    (hm : s.testResultMap = some m) (hsome : m e.name = some i)
    (hi : i < s.testResultList.length) :
    s.addTestResult lib disk e force =
      .ret (if force = true then
          (statistics._save lib disk { s with testResultList := s.testResultList.set i e }).1
        else disk,
        { s with testResultList := s.testResultList.set i e }) := by
  unfold statistics.addTestResult
  cases force <;> simp [hen, hm, hsome, hi]

/-- In a valid ledger the names are pairwise distinct. -/
theorem statistics.Valid.nodup (s : statistics) (hv : s.Valid) :
    (s.testResultList.map (fun r => r.name)).Nodup := by
  obtain ⟨m, _, hmap⟩ := hv
  rw [List.nodup_iff_injective_get]
  intro a b hab
  have ha : a.val < s.testResultList.length := by
    have := a.isLt
    simp only [List.length_map] at this
    exact this
  have hb : b.val < s.testResultList.length := by
    have := b.isLt
    simp only [List.length_map] at this
    exact this
  simp only [List.get_eq_getElem, List.getElem_map] at hab
  have h1 : m (s.testResultList[a.val]).name = some a.val :=
    (hmap _ _).mpr ⟨_, List.getElem?_eq_getElem ha, rfl⟩
  have h2 : m (s.testResultList[b.val]).name = some b.val :=
    (hmap _ _).mpr ⟨_, List.getElem?_eq_getElem hb, rfl⟩
  rw [hab, h2] at h1
  exact Fin.ext (Option.some.inj h1).symm

/-- The ledger invariant is kept by `addTestResult`, which never panics on a valid
ledger. -/
theorem addTestResult_valid (lib : Stdlib) (disk : Disk) (s : statistics) (e : testResult)
    (force : Bool) (hv : s.Valid) :
    ∃ disk1 s1, s.addTestResult lib disk e force = .ret (disk1, s1) ∧ s1.Valid ∧
      s1.enabled = s.enabled := by
  by_cases hen : s.enabled = true
  · obtain ⟨m, hm, hmap⟩ := hv
    cases hlook : m e.name with
    | none =>
      rw [addTestResult_absent lib disk s e force m hen hm hlook]
      refine ⟨_, _, rfl, ⟨_, rfl, ?_⟩, rfl⟩
      intro name i
      simp only [List.length_append, List.length_singleton, Nat.add_sub_cancel]
      by_cases hname : name = e.name
      · rw [if_pos hname]
        constructor
        · intro h
          have hi : i = s.testResultList.length := (Option.some.inj h).symm
          subst hi
          exact ⟨e, by simp, hname.symm⟩
        · rintro ⟨r, hr, hrn⟩
          rcases Nat.lt_or_ge i s.testResultList.length with hlt | hge
          · rw [List.getElem?_append_left hlt] at hr
            have := (hmap name i).mpr ⟨r, hr, hrn⟩
            rw [hname, hlook] at this
            exact absurd this (by simp)
          · rcases Nat.eq_or_lt_of_le hge with heq | hgt
            · rw [heq]
            · rw [List.getElem?_eq_none (by simp; omega)] at hr
              exact absurd hr (by simp)
      · rw [if_neg hname, hmap name i]
        constructor
        · rintro ⟨r, hr, hrn⟩
          refine ⟨r, ?_, hrn⟩
          have hlt : i < s.testResultList.length := by
            by_contra hge
            rw [List.getElem?_eq_none (by omega)] at hr
            exact absurd hr (by simp)
          rw [List.getElem?_append_left hlt]
          exact hr
        · rintro ⟨r, hr, hrn⟩
          rcases Nat.lt_or_ge i s.testResultList.length with hlt | hge
          · rw [List.getElem?_append_left hlt] at hr
            exact ⟨r, hr, hrn⟩
          · rcases Nat.eq_or_lt_of_le hge with heq | hgt
            · rw [← heq] at hr
              simp at hr
              rw [← hr] at hrn
              exact absurd hrn.symm hname
            · rw [List.getElem?_eq_none (by simp; omega)] at hr
              exact absurd hr (by simp)
    | some i =>
      obtain ⟨r0, hr0, hr0n⟩ := (hmap e.name i).mp hlook
      have hi : i < s.testResultList.length := by
        by_contra hge
        rw [List.getElem?_eq_none (by omega)] at hr0
        exact absurd hr0 (by simp)
      rw [addTestResult_present lib disk s e force m i hen hm hlook hi]
      refine ⟨_, _, rfl, ⟨m, hm, ?_⟩, rfl⟩
      intro name j
      rw [hmap name j]
      by_cases hji : j = i
      · subst hji
        rw [List.getElem?_set_self hi]
        constructor
        · rintro ⟨r, hr, hrn⟩
          refine ⟨e, rfl, ?_⟩
          rw [hr0] at hr
          rw [← hrn, ← Option.some.inj hr, hr0n]
        · rintro ⟨r, hr, hrn⟩
          refine ⟨r0, hr0, ?_⟩
          rw [← hrn, ← Option.some.inj hr, hr0n]
      · rw [List.getElem?_set_ne (Ne.symm hji)]
  · have hen' : s.enabled = false := by
      cases h : s.enabled
      · rfl
      · exact absurd h hen
    refine ⟨disk, s, ?_, hv, rfl⟩
    unfold statistics.addTestResult
    simp only [hen', if_true]

/-- The ledger invariant is kept by every sequence of calls of `addTestResult`. -/
theorem addSequence_valid (lib : Stdlib) :
    ∀ (es : List (testResult × Bool)) (disk : Disk) (s : statistics), s.Valid →
      ∃ disk1 s1, statistics.addSequence lib disk s es = .ret (disk1, s1) ∧ s1.Valid ∧
        s1.enabled = s.enabled := by
  intro es
  induction es with
  | nil => intro disk s hv; exact ⟨disk, s, rfl, hv, rfl⟩
  | cons ef rest ih =>
    intro disk s hv
    obtain ⟨e, force⟩ := ef
    obtain ⟨disk1, s1, h1, hv1, hen1⟩ := addTestResult_valid lib disk s e force hv
    obtain ⟨disk2, s2, h2, hv2, hen2⟩ := ih disk1 s1 hv1
    refine ⟨disk2, s2, ?_, hv2, by rw [hen2, hen1]⟩
    unfold statistics.addSequence
    simp only [h1]
    exact h2

theorem Disk.write_write (disk : Disk) (path : String) (bytes : List Nat) :
    (disk.write path bytes).write path bytes = disk.write path bytes := by
  unfold Disk.write
  congr 1
  funext p
  by_cases h : p = path
  · simp [h]
  · simp [h]

/-- Saving the same ledger a second time leaves the disk as the first save left it. -/
theorem statistics._save_twice (lib : Stdlib) (disk : Disk) (s : statistics) :
    (statistics._save lib (statistics._save lib disk s).1 s).1 = (statistics._save lib disk s).1 := by
  unfold statistics._save
  by_cases hen : s.enabled = false
  · simp only [if_pos hen]
  · simp only [if_neg hen]
    unfold testResultWrite
    by_cases hd : disk.denied s.testResultPath = true
    · simp only [if_pos hd]
    · have hd2 : (disk.write s.testResultPath
          (lib.csvWrite (ledgerHeader :: s.testResultList.map resultToRow))).denied
          s.testResultPath = disk.denied s.testResultPath := rfl
      simp only [if_neg hd, hd2]
      exact Disk.write_write _ _ _

theorem ledgerA_valid : ledgerA.Valid := by
  refine ⟨_, rfl, fun name i => ?_⟩
  simp only [ledgerA]
  by_cases hname : name = "a"
  · subst hname
    simp only [if_true]
    cases i with
    | zero => simp [recordA]
    | succ j => simp
  · simp only [hname, if_false]
    cases i with
    | zero =>
      simp only [List.getElem?_cons_zero, Option.some.injEq, exists_eq_left', recordA]
      constructor
      · intro h
        exact absurd h (by simp)
      · intro h
        exact absurd h.symm hname
    | succ j => simp

/-! ## Theorems: regression ledger -/

/-- C14: on an enabled, loaded ledger `addTestResult(e)` returns, and if an entry named
`e.name` exists at index `i` it replaces that entry with `e` at the same index, leaving
the list length and every other entry unchanged; if no entry has that name it appends
`e` as the last entry and leaves the existing entries unchanged. -/
theorem addTestResult_upsert (lib : Stdlib) (disk : Disk) (s : statistics) (e : testResult)
    (force : Bool) (hen : s.enabled = true) (hv : s.Valid) :
    ∃ disk1 s1, s.addTestResult lib disk e force = .ret (disk1, s1) ∧
      (∀ i r, s.testResultList[i]? = some r → r.name = e.name →
        s1.testResultList = s.testResultList.set i e ∧
        s1.testResultList.length = s.testResultList.length ∧
        s1.testResultList[i]? = some e ∧
        ∀ j, j ≠ i → s1.testResultList[j]? = s.testResultList[j]?) ∧
      ((∀ r, r ∈ s.testResultList → r.name ≠ e.name) →
        s1.testResultList = s.testResultList ++ [e]) := by
  obtain ⟨m, hm, hmap⟩ := hv
  cases hlook : m e.name with
  | none =>
    rw [addTestResult_absent lib disk s e force m hen hm hlook]
    refine ⟨_, _, rfl, ?_, fun _ => rfl⟩
    intro i r hr hrn
    have := (hmap e.name i).mpr ⟨r, hr, hrn⟩
    rw [hlook] at this
    exact absurd this (by simp)
  | some i0 =>
    obtain ⟨r0, hr0, hr0n⟩ := (hmap e.name i0).mp hlook
    have hi0 : i0 < s.testResultList.length := by
      by_contra hge
      rw [List.getElem?_eq_none (by omega)] at hr0
      exact absurd hr0 (by simp)
    rw [addTestResult_present lib disk s e force m i0 hen hm hlook hi0]
    refine ⟨_, _, rfl, ?_, ?_⟩
    · intro i r hr hrn
      have hi := (hmap e.name i).mpr ⟨r, hr, hrn⟩
      rw [hlook] at hi
      have hii : i0 = i := Option.some.inj hi
      subst hii
      refine ⟨rfl, List.length_set _ _ _, List.getElem?_set_self hi0, ?_⟩
      intro j hj
      exact List.getElem?_set_ne (Ne.symm hj)
    · intro hall
      have hmem : r0 ∈ s.testResultList := List.getElem?_mem hr0
      exact absurd hr0n (hall r0 hmem)

/-- Witness of C14: the ledger `[{name: a}]` after the upsert of `{name: a, numPages: 5}`
holds exactly one record, the new one, at index 0. -/
theorem addTestResult_upsert_witness :
    ledgerA.enabled = true ∧ ledgerA.Valid ∧ ledgerA.testResultList = [recordA] ∧
    recordA5.name = "a" ∧ recordA5.numPages = 5 ∧
    ∃ disk1 s1, ledgerA.addTestResult sampleLib emptyDisk recordA5 true = .ret (disk1, s1) ∧
      s1.testResultList = [recordA5] := by
  refine ⟨rfl, ledgerA_valid, rfl, rfl, rfl, ?_⟩
  obtain ⟨disk1, s1, h, hrep, _⟩ :=
    addTestResult_upsert sampleLib emptyDisk ledgerA recordA5 true rfl ledgerA_valid
  exact ⟨disk1, s1, h, (hrep 0 recordA rfl rfl).1⟩

/-- C15: upsert idempotence. On an enabled, loaded ledger, applying `addTestResult(e)` a
second time returns the same ledger (record list and name-to-index map) and the same
disk as the first application. -/
theorem addTestResult_idempotent (lib : Stdlib) (disk : Disk) (s : statistics) (e : testResult)
    (force : Bool) (hen : s.enabled = true) (hv : s.Valid) :
    ∃ disk1 s1, s.addTestResult lib disk e force = .ret (disk1, s1) ∧
      s1.addTestResult lib disk1 e force = .ret (disk1, s1) := by
  obtain ⟨m, hm, hmap⟩ := hv
  cases hlook : m e.name with
  | none =>
    have h1 := addTestResult_absent lib disk s e force m hen hm hlook
    generalize hs1 : ({ s with
        testResultList := s.testResultList ++ [e]
        testResultMap := some (fun key =>
          if key = e.name then some ((s.testResultList ++ [e]).length - 1) else m key) } :
        statistics) = s1 at h1
    have hen1 : s1.enabled = true := by rw [← hs1]; exact hen
    have hlist1 : s1.testResultList = s.testResultList ++ [e] := by rw [← hs1]
    have hmap1 : s1.testResultMap = some (fun key =>
        if key = e.name then some ((s.testResultList ++ [e]).length - 1) else m key) := by
      rw [← hs1]
    generalize hd1 : (if force = true then (statistics._save lib disk s1).1 else disk) = d1 at h1
    refine ⟨d1, s1, h1, ?_⟩
    have h2 := addTestResult_present lib d1 s1 e force _ s.testResultList.length hen1 hmap1
      (by simp) (by rw [hlist1]; simp)
    have hset : s1.testResultList.set s.testResultList.length e = s1.testResultList := by
      rw [hlist1, List.set_append_right _ _ (Nat.le_refl _)]
      simp
    rw [h2, hset]
    have hsame : ({ s1 with testResultList := s1.testResultList } : statistics) = s1 := rfl
    rw [hsame]
    cases force
    · rfl
    · simp only [if_true] at hd1 ⊢
      rw [← hd1, statistics._save_twice]
  | some i0 =>
    obtain ⟨r0, hr0, hr0n⟩ := (hmap e.name i0).mp hlook
    have hi0 : i0 < s.testResultList.length := by
      by_contra hge
      rw [List.getElem?_eq_none (by omega)] at hr0
      exact absurd hr0 (by simp)
    have h1 := addTestResult_present lib disk s e force m i0 hen hm hlook hi0
    generalize hs1 : ({ s with testResultList := s.testResultList.set i0 e } : statistics) = s1
      at h1
    have hen1 : s1.enabled = true := by rw [← hs1]; exact hen
    have hlist1 : s1.testResultList = s.testResultList.set i0 e := by rw [← hs1]
    have hmap1 : s1.testResultMap = some m := by rw [← hs1]; exact hm
    generalize hd1 : (if force = true then (statistics._save lib disk s1).1 else disk) = d1 at h1
    refine ⟨d1, s1, h1, ?_⟩
    have h2 := addTestResult_present lib d1 s1 e force m i0 hen1 hmap1 hlook
      (by rw [hlist1, List.length_set]; exact hi0)
    have hset : s1.testResultList.set i0 e = s1.testResultList := by
      rw [hlist1, List.set_set]
    rw [h2, hset]
    have hsame : ({ s1 with testResultList := s1.testResultList } : statistics) = s1 := rfl
    rw [hsame]
    cases force
    · rfl
    · simp only [if_true] at hd1 ⊢
      rw [← hd1, statistics._save_twice]

/-- Witness of C15: the upsert of `{name: a, numPages: 5}` into `[{name: a}]`, twice. -/
theorem addTestResult_idempotent_witness :
    ledgerA.enabled = true ∧ ledgerA.Valid ∧
    ∃ disk1 s1, ledgerA.addTestResult sampleLib emptyDisk recordA5 true = .ret (disk1, s1) ∧
      s1.addTestResult sampleLib disk1 recordA5 true = .ret (disk1, s1) :=
  ⟨rfl, ledgerA_valid,
    addTestResult_idempotent sampleLib emptyDisk ledgerA recordA5 true rfl ledgerA_valid⟩

/-- C16: the ledger invariant. After `load` on an enabled ledger, and after any
sequence of `addTestResult` calls that follows, the names in `testResultList` are
pairwise distinct and `testResultMap` sends a name to `i` exactly when
`testResultList[i]` has that name, whatever the loaded file contains. -/
theorem ledger_invariant (lib : Stdlib) (disk disk1 : Disk) (s s1 : statistics)
    (err : Option Error) (es : List (testResult × Bool))
    (hen : s.enabled = true) (hload : s.load lib disk = .ret (disk1, s1, err)) :
    s1.Valid ∧ (s1.testResultList.map (fun r => r.name)).Nodup ∧
    ∃ disk2 s2, statistics.addSequence lib disk1 s1 es = .ret (disk2, s2) ∧ s2.Valid ∧
      (s2.testResultList.map (fun r => r.name)).Nodup := by
  have hv0 : statistics.Valid
      { s with testResultList := [], testResultMap := some (fun _ => none) } := by
    refine ⟨_, rfl, fun name i => ?_⟩
    simp
  have hv1 : s1.Valid := by
    unfold statistics.load at hload
    simp only [hen, Bool.true_eq_false, if_false] at hload
    cases hread : testResultRead lib disk s.testResultPath with
    | panicked e => simp [hread] at hload
    | ret v =>
      obtain ⟨results, rerr⟩ := v
      simp only [hread] at hload
      by_cases herr : rerr ≠ none
      · rw [if_pos herr] at hload
        have h := Outcome.ret.inj hload
        have hs1 : s1 = _ := (Prod.mk.inj (Prod.mk.inj h).2).1.symm
        rw [hs1]
        rw [hen] at hv0
        exact hv0
      · rw [if_neg herr] at hload
        rw [hen] at hv0
        obtain ⟨d2, s2, hseq, hv2, _⟩ := addSequence_valid lib
          (results.map (fun e => (e, true))) disk _ hv0
        rw [hseq] at hload
        have h := Outcome.ret.inj hload
        have hs1 : s1 = s2 := (Prod.mk.inj (Prod.mk.inj h).2).1.symm
        rw [hs1]
        exact hv2
  obtain ⟨d2, s2, hseq, hv2, _⟩ := addSequence_valid lib es disk1 s1 hv1
  exact ⟨hv1, statistics.Valid.nodup s1 hv1, d2, s2, hseq, hv2, statistics.Valid.nodup s2 hv2⟩

theorem load_repeat_isRet : (testStats.load sampleLib repeatDisk).isRet = true := by decide!

/-- Witness of C16: a ledger file that repeats the name `a` loads into a ledger with
the two names `a` and `b`, the later record for `a` at the index of the first. -/
theorem ledger_invariant_witness :
    (testResultRead sampleLib repeatDisk testStats.testResultPath =
      .ret ([recordA, recordB, recordA5], none)) ∧
    loadedList sampleLib repeatDisk testStats = some [recordA5, recordB] ∧
    ∃ disk1 s1 err, testStats.load sampleLib repeatDisk = .ret (disk1, s1, err) ∧
      s1.Valid ∧ (s1.testResultList.map (fun r => r.name)).Nodup := by
  refine ⟨by decide!, by decide!, ?_⟩
  cases h : testStats.load sampleLib repeatDisk with
  | panicked e =>
    have := load_repeat_isRet
    rw [h] at this
    exact absurd this (by simp [Outcome.isRet])
  | ret v =>
    obtain ⟨disk1, s1, err⟩ := v
    have hinv := ledger_invariant sampleLib repeatDisk disk1 testStats s1 err [] rfl h
    exact ⟨disk1, s1, err, rfl, hinv.1, hinv.2.1⟩

/-! ## Lemmas on the corpus run -/

/-- When the body of the loop returns, its verdict is that the item failed exactly when
the transform, the structural check or the colour check failed. -/
theorem processItem_ret (tools : Tools) (outputDir compDir : String) (keep : Bool)
    (inputPath : String) (b : Bool)
    (h : processItem tools outputDir compDir keep inputPath = .ret b) :
    b = itemFailed tools outputDir compDir keep inputPath := by
  unfold processItem at h
  unfold itemFailed
  cases h1 : tools.fileSize inputPath with
  | panicked e => simp [h1] at h
  | ret sz =>
    cases h2 : tools.modifyPath inputPath outputDir with
    | panicked e => simp [h1, h2] at h
    | ret outputPath =>
      simp only [h1, h2] at h ⊢
      cases h3 : (tools.transformPdfFile inputPath outputPath).2 with
      | some err =>
        simp only [h3] at h
        rw [← Outcome.ret.inj h]
        simp
      | none =>
        simp only [h3] at h
        cases h4 : tools.fileSize outputPath with
        | panicked e => simp [h4] at h
        | ret sz2 =>
          simp only [h4] at h
          cases h5 : tools.runPdfToPs outputPath compDir with
          | some err =>
            simp only [h5] at h
            rw [← Outcome.ret.inj h]
            simp
          | none =>
            simp only [h5] at h
            cases h6 : tools.isPdfColor outputPath compDir true keep with
            | panicked e => simp [h6] at h
            | ret v =>
              obtain ⟨c, pages, err⟩ := v
              simp only [h6] at h
              rw [← Outcome.ret.inj h]
              simp

/-- The loop in run-all mode: every item is processed and the failed ones are
collected in order. -/
theorem mainLoop_runAll (tools : Tools) (keep : Bool) (outputDir compDir : String) :
    ∀ (pdfList : List String) (st : RunState),
      (∀ p, p ∈ pdfList → (processItem tools outputDir compDir keep p).isRet = true) →
      mainLoop tools true keep outputDir compDir pdfList st =
        .completed
          { failFiles := st.failFiles ++ pdfList.filter (itemFailed tools outputDir compDir keep)
            processed := st.processed ++ pdfList } := by
  intro pdfList
  induction pdfList with
  | nil => intro st _; simp [mainLoop]
  | cons p rest ih =>
    intro st hret
    have hp := hret p (List.mem_cons_self _ _)
    have hrest : ∀ q, q ∈ rest → (processItem tools outputDir compDir keep q).isRet = true :=
      fun q hq => hret q (List.mem_cons_of_mem _ hq)
    unfold mainLoop
    cases hproc : processItem tools outputDir compDir keep p with
    | panicked e =>
      rw [hproc] at hp
      exact absurd hp (by simp [Outcome.isRet])
    | ret b =>
      have hb := processItem_ret tools outputDir compDir keep p b hproc
      cases b with
      | false =>
        simp only [ih _ hrest]
        rw [List.filter_cons, ← hb]
        simp
      | true =>
        simp only [if_true, ih _ hrest]
        rw [List.filter_cons, ← hb]
        simp

/-- The loop in fail-fast mode: it halts at the first failed item. -/
theorem mainLoop_failFast (tools : Tools) (keep : Bool) (outputDir compDir : String) :
    ∀ (pre : List String) (p : String) (post : List String) (st : RunState),
      (∀ q, q ∈ pre → processItem tools outputDir compDir keep q = .ret false) →
      processItem tools outputDir compDir keep p = .ret true →
      mainLoop tools false keep outputDir compDir (pre ++ p :: post) st =
        .exited 1
          { failFiles := st.failFiles ++ [p], processed := st.processed ++ pre ++ [p] } := by
  intro pre
  induction pre with
  | nil =>
    intro p post st _ hp
    simp [mainLoop, hp]
  | cons q rest ih =>
    intro p post st hpre hp
    have hq := hpre q (List.mem_cons_self _ _)
    have hrest : ∀ r, r ∈ rest → processItem tools outputDir compDir keep r = .ret false :=
      fun r hr => hpre r (List.mem_cons_of_mem _ hr)
    rw [List.cons_append]
    unfold mainLoop
    simp only [hq]
    rw [ih p post _ hrest hp]
    simp

/-! ## Theorems: corpus run -/

/-- C18: corpus-level policy of the loop of `main`.  With `runAllTests = true` every
corpus item is processed and the failure list is exactly the items for which the
transform failed, the structural check failed, or the colour check errored or reported
colour, in corpus order.  With `runAllTests = false` the run halts (`os.Exit(1)`) at the
first such item and no later item is processed. -/
theorem mainLoop_policy (tools : Tools) (keep : Bool) (outputDir compDir : String)
    (pdfList : List String)
    (hret : ∀ p, p ∈ pdfList → (processItem tools outputDir compDir keep p).isRet = true) :
    mainLoop tools true keep outputDir compDir pdfList { failFiles := [], processed := [] } =
      .completed
        { failFiles := pdfList.filter (itemFailed tools outputDir compDir keep)
          processed := pdfList } ∧
    (∀ pre p post, pdfList = pre ++ p :: post →
      (∀ q, q ∈ pre → itemFailed tools outputDir compDir keep q = false) →
      itemFailed tools outputDir compDir keep p = true →
      mainLoop tools false keep outputDir compDir pdfList { failFiles := [], processed := [] } =
        .exited 1 { failFiles := [p], processed := pre ++ [p] }) ∧
    ((∀ q, q ∈ pdfList → itemFailed tools outputDir compDir keep q = false) →
      mainLoop tools false keep outputDir compDir pdfList { failFiles := [], processed := [] } =
        .completed { failFiles := [], processed := pdfList }) := by
  have hverdict : ∀ p, p ∈ pdfList →
      processItem tools outputDir compDir keep p =
        .ret (itemFailed tools outputDir compDir keep p) := by
    intro p hp
    cases hproc : processItem tools outputDir compDir keep p with
    | panicked e =>
      have := hret p hp
      rw [hproc] at this
      exact absurd this (by simp [Outcome.isRet])
    | ret b => rw [processItem_ret tools outputDir compDir keep p b hproc]
  refine ⟨?_, ?_, ?_⟩
  · have := mainLoop_runAll tools keep outputDir compDir pdfList
      { failFiles := [], processed := [] } hret
    simpa using this
  · intro pre p post hsplit hpre hp
    subst hsplit
    have := mainLoop_failFast tools keep outputDir compDir pre p post
      { failFiles := [], processed := [] }
      (fun q hq => by
        rw [hverdict q (List.mem_append_left _ hq), hpre q hq])
      (by rw [hverdict p (List.mem_append_right _ (List.mem_cons_self _ _)), hp])
    simpa using this
  · intro hall
    have hnone : ∀ (l : List String) (st : RunState),
        (∀ q, q ∈ l → processItem tools outputDir compDir keep q = .ret false) →
        mainLoop tools false keep outputDir compDir l st =
          .completed { failFiles := st.failFiles, processed := st.processed ++ l } := by
      intro l
      induction l with
      | nil => intro st _; simp [mainLoop]
      | cons q rest ih =>
        intro st hl
        unfold mainLoop
        simp only [hl q (List.mem_cons_self _ _)]
        rw [ih _ (fun r hr => hl r (List.mem_cons_of_mem _ hr))]
        simp
    have := hnone pdfList { failFiles := [], processed := [] }
      (fun q hq => by rw [hverdict q hq, hall q hq])
    simpa using this

/-- Witness of C18: the sample corpus in both modes. -/
theorem mainLoop_policy_witness :
    (∀ p, p ∈ sampleCorpus → (processItem sampleTools "out" "cmp" false p).isRet = true) ∧
    mainLoop sampleTools true false "out" "cmp" sampleCorpus { failFiles := [], processed := [] } =
      .completed
        { failFiles := ["bad.pdf", "color.pdf", "damaged.pdf"], processed := sampleCorpus } ∧
    mainLoop sampleTools false false "out" "cmp" sampleCorpus
        { failFiles := [], processed := [] } =
      .exited 1 { failFiles := ["bad.pdf"], processed := ["ok1.pdf", "bad.pdf"] } ∧
    mainLoop sampleTools true false "out" "cmp" sampleCorpus { failFiles := [], processed := [] } =
      .completed
        { failFiles := sampleCorpus.filter (itemFailed sampleTools "out" "cmp" false)
          processed := sampleCorpus } :=
  ⟨by decide, by decide, by decide,
    (mainLoop_policy sampleTools false "out" "cmp" sampleCorpus (by decide)).1⟩

/-! ## Lemmas on the colour summary -/

theorem F64.le_of_lt (a b : F64) (h : F64.lt a b = true) : F64.le a b = true := by
  cases a <;> cases b <;> simp_all [F64.lt, F64.le]
  exact Int.le_of_lt h

theorem F64.le_of_not_lt (a b : F64) (ha : a.isFinite = true) (hb : b.isFinite = true)
    (h : F64.lt a b = false) : F64.le b a = true := by
  cases a <;> cases b <;> simp_all [F64.lt, F64.le, F64.isFinite]

theorem F64.le_refl_of_isFinite (a : F64) (ha : a.isFinite = true) : F64.le a a = true := by
  cases a <;> simp_all [F64.le, F64.isFinite]

/-- The loop of `summarizeSeries`: what it leaves in the accumulator. -/
theorem summarize_fold_spec : ∀ (data : List F64) (acc : SeriesAcc),
    (∀ x, x ∈ data → x.isFinite = true) → acc.min.isFinite = true → acc.max.isFinite = true →
    (data.foldl
      (fun (acc : SeriesAcc) x =>
        { total := F64.add acc.total x
          min := if F64.lt x acc.min = true then x else acc.min
          max := if F64.gt x acc.max = true then x else acc.max }) acc).total =
      data.foldl F64.add acc.total ∧
    ∃ lo hi,
      (data.foldl
        (fun (acc : SeriesAcc) x =>
          { total := F64.add acc.total x
            min := if F64.lt x acc.min = true then x else acc.min
            max := if F64.gt x acc.max = true then x else acc.max }) acc).min = lo ∧
      (data.foldl
        (fun (acc : SeriesAcc) x =>
          { total := F64.add acc.total x
            min := if F64.lt x acc.min = true then x else acc.min
            max := if F64.gt x acc.max = true then x else acc.max }) acc).max = hi ∧
      lo.isFinite = true ∧ hi.isFinite = true ∧
      (lo = acc.min ∨ lo ∈ data) ∧ (hi = acc.max ∨ hi ∈ data) ∧
      F64.le lo acc.min = true ∧ F64.le acc.max hi = true ∧
      ∀ x, x ∈ data → F64.le lo x = true ∧ F64.le x hi = true := by
  intro data
  induction data with
  | nil =>
    intro acc _ hmin hmax
    refine ⟨rfl, acc.min, acc.max, rfl, rfl, hmin, hmax, Or.inl rfl, Or.inl rfl,
      F64.le_refl_of_isFinite _ hmin, F64.le_refl_of_isFinite _ hmax, ?_⟩
    intro x hx
    exact absurd hx (List.not_mem_nil _)
  | cons x rest ih =>
    intro acc hdata hmin hmax
    have hx : x.isFinite = true := hdata x (List.mem_cons_self _ _)
    have hrest : ∀ y, y ∈ rest → y.isFinite = true :=
      fun y hy => hdata y (List.mem_cons_of_mem _ hy)
    have hmin1 : (if F64.lt x acc.min = true then x else acc.min).isFinite = true := by
      split_ifs <;> assumption
    have hmax1 : (if F64.gt x acc.max = true then x else acc.max).isFinite = true := by
      split_ifs <;> assumption
    obtain ⟨htot, lo, hi, hlo, hhi, hlof, hhif, hlom, hhim, hlole, hhile, hall⟩ :=
      ih { total := F64.add acc.total x
           min := if F64.lt x acc.min = true then x else acc.min
           max := if F64.gt x acc.max = true then x else acc.max } hrest hmin1 hmax1
    rw [List.foldl_cons]
    refine ⟨by rw [htot, List.foldl_cons], lo, hi, hlo, hhi, hlof, hhif, ?_, ?_, ?_, ?_, ?_⟩
    · rcases hlom with h | h
      · simp only at h
        by_cases hc : F64.lt x acc.min = true
        · rw [if_pos hc] at h
          exact Or.inr (h ▸ List.mem_cons_self _ _)
        · rw [if_neg hc] at h
          exact Or.inl h
      · exact Or.inr (List.mem_cons_of_mem _ h)
    · rcases hhim with h | h
      · simp only at h
        by_cases hc : F64.gt x acc.max = true
        · rw [if_pos hc] at h
          exact Or.inr (h ▸ List.mem_cons_self _ _)
        · rw [if_neg hc] at h
          exact Or.inl h
      · exact Or.inr (List.mem_cons_of_mem _ h)
    · simp only at hlole
      by_cases hc : F64.lt x acc.min = true
      · rw [if_pos hc] at hlole
        exact F64.le_trans _ _ _ hlole (F64.le_of_lt _ _ hc)
      · rw [if_neg hc] at hlole
        exact hlole
    · simp only at hhile
      by_cases hc : F64.gt x acc.max = true
      · rw [if_pos hc] at hhile
        exact F64.le_trans _ _ _ (F64.le_of_lt _ _ hc) hhile
      · rw [if_neg hc] at hhile
        exact hhile
    · intro y hy
      rcases List.mem_cons.mp hy with hyx | hyr
      · subst hyx
        constructor
        · simp only at hlole
          by_cases hc : F64.lt y acc.min = true
          · rw [if_pos hc] at hlole
            exact hlole
          · rw [if_neg hc] at hlole
            exact F64.le_trans _ _ _ hlole
              (F64.le_of_not_lt _ _ hx hmin (by simpa using hc))
        · simp only at hhile
          by_cases hc : F64.gt y acc.max = true
          · rw [if_pos hc] at hhile
            exact hhile
          · rw [if_neg hc] at hhile
            exact F64.le_trans _ _ _
              (F64.le_of_not_lt _ _ hmax hx (by simpa [F64.gt] using hc)) hhile
      · exact hall y hyr
theorem rescale_nonNeg (n : Nat) : F64.NonNeg (rescale n) := by
  unfold rescale
  rw [ofNat_65535, ofNat_255]
  have hone : oneUnits ≠ 0 := Nat.pos_iff_ne_zero.mp oneUnits_pos
  obtain ⟨_, hn, _⟩ := F64.div_mono (F64.ofNat n) (F64.ofNat n) (65535 * oneUnits)
    (Nat.mul_ne_zero (by decide) hone) (F64.ofRat_nonNeg _ _) (F64.ofRat_nonNeg _ _)
    (F64.ofRat_mono 1 _ _ (by decide) (Nat.le_refl _))
  rcases hn with h | ⟨k, h⟩
  · rw [h]
    left
    simp [F64.mul, Nat.mul_ne_zero (by decide : 255 ≠ 0) hone]
  · rw [h]
    simp only [F64.mul, Bool.xor_false]
    exact F64.ofRat_nonNeg _ _

theorem rescale_131070 : rescale 131070 = F64.fin false (510 * oneUnits) := by decide!

theorem seriesMin_init :
    F64.ofDecimal 100000000000000000000 1 =
      F64.fin false (100000000000000000000 * oneUnits) := by decide!

/-- The colour score of a pixel with samples in range is a finite value between 0 and 510. -/
theorem colorScore_bounded (p : Pixel) (hr : p.r ≤ 0xFFFF) (hg : p.g ≤ 0xFFFF)
    (hb : p.b ≤ 0xFFFF) : ∃ k, colorScore p = F64.fin false k ∧ k ≤ 510 * oneUnits := by
  have hn : Int.natAbs ((p.r : Int) - p.g) + Int.natAbs ((p.g : Int) - p.b) ≤ 131070 := by
    omega
  have hle := rescale_mono _ _ hn
  rw [rescale_131070] at hle
  have hnn := rescale_nonNeg (Int.natAbs ((p.r : Int) - p.g) + Int.natAbs ((p.g : Int) - p.b))
  have hcs : colorScore p =
      rescale (Int.natAbs ((p.r : Int) - p.g) + Int.natAbs ((p.g : Int) - p.b)) := rfl
  rw [hcs]
  rcases hnn with h | ⟨k, h⟩
  · rw [h] at hle
    simp [F64.le] at hle
  · rw [h] at hle
    exact ⟨k, h, (F64.le_fin_fin _ _).mp hle⟩

theorem imgMarkColor_summary_eq (imgIn : Image) :
    (imgMarkColor imgIn).2 = summarizeSeries (coloredScores imgIn) := by
  show summarizeSeries _ = _
  simp only [Image.newNRGBA]
  rw [imgMarkColorScan_eq, imgMarkColor_fold_data]
  simp [coloredScores]

theorem mem_coloredScores (img : Image) (v : F64) (hv : v ∈ coloredScores img) :
    ∃ x y, x < img.maxX ∧ y < img.maxY ∧ isColored (img.pixelAt x y) = true ∧
      v = colorScore (img.pixelAt x y) := by
  unfold coloredScores at hv
  obtain ⟨⟨x, y⟩, hmem, hval⟩ := List.mem_map.mp hv
  obtain ⟨hin, hc⟩ := List.mem_filter.mp hmem
  obtain ⟨hx, hy⟩ := (mem_scanCoords _ _ x y).mp hin
  exact ⟨x, y, hx, hy, hc, hval.symm⟩

/-- The summary of a non-empty series of finite values between 0 and 510. -/
theorem summarizeSeries_spec (data : List F64) (hne : data ≠ [])
    (hdata : ∀ v, v ∈ data → ∃ k, v = F64.fin false k ∧ k ≤ 510 * oneUnits) :
    (summarizeSeries data).n = data.length ∧
    (summarizeSeries data).mean = F64.div (sumSeries data) (F64.ofNat data.length) ∧
    (summarizeSeries data).min ∈ data ∧ (summarizeSeries data).max ∈ data ∧
    ∀ v, v ∈ data →
      F64.le (summarizeSeries data).min v = true ∧ F64.le v (summarizeSeries data).max = true := by
  have hfin : ∀ x, x ∈ data → x.isFinite = true := by
    intro x hx
    obtain ⟨k, hk, _⟩ := hdata x hx
    rw [hk]
    rfl
  obtain ⟨htot, lo, hi, hlo, hhi, _, _, hlom, hhim, _, _, hall⟩ :=
    summarize_fold_spec data
      { total := F64.fin false 0
        min := F64.ofDecimal 100000000000000000000 1
        max := F64.neg (F64.ofDecimal 100000000000000000000 1) }
      hfin (by rw [seriesMin_init]; rfl) (by rw [seriesMin_init]; rfl)
  obtain ⟨x0, hx0⟩ := List.exists_mem_of_ne_nil data hne
  obtain ⟨k0, hk0, hk0le⟩ := hdata x0 hx0
  have hone := oneUnits_pos
  have hlomem : lo ∈ data := by
    rcases hlom with h | h
    · exfalso
      have h1 := (hall x0 hx0).1
      rw [h, hk0] at h1
      simp only [seriesMin_init] at h1
      have h2 := (F64.le_fin_fin _ _).mp h1
      omega
    · exact h
  have hhimem : hi ∈ data := by
    rcases hhim with h | h
    · exfalso
      have h1 := (hall x0 hx0).2
      rw [h, hk0] at h1
      simp only [seriesMin_init, F64.neg, F64.le, F64.units, decide_eq_true_eq] at h1
      simp at h1
      omega
    · exact h
  refine ⟨rfl, ?_, ?_, ?_, ?_⟩
  · show F64.div _ _ = _
    rw [htot]
    rfl
  · show SeriesAcc.min _ ∈ data
    rw [hlo]
    exact hlomem
  · show SeriesAcc.max _ ∈ data
    rw [hhi]
    exact hhimem
  · intro v hv
    have := hall v hv
    constructor
    · show F64.le (SeriesAcc.min _) v = true
      rw [hlo]
      exact this.1
    · show F64.le v (SeriesAcc.max _) = true
      rw [hhi]
      exact this.2

theorem redDotImage5_inRange : Image.InRange redDotImage5 := by
  intro x y
  unfold redDotImage5
  simp only
  split_ifs <;> decide

/-! ## Theorems: colour summary -/

/-- Counterexample to C11 as stated: for a raster of three pixels with
`|R-G| + |G-B| = 1376` each, all three are coloured and the mean computed by
`summarizeSeries` (the float64 sum accumulated in order, divided by 3) is strictly less
than the minimum. -/
theorem summarizeSeries_mean_below_min :
    (imgMarkColor tintImage3).2.n = 3 ∧
    F64.lt (imgMarkColor tintImage3).2.mean (imgMarkColor tintImage3).2.min = true ∧
    F64.le (imgMarkColor tintImage3).2.min (imgMarkColor tintImage3).2.mean = false := by
  decide!

/-- C11 (amended): for every raster with samples on the scale `0..0xffff` and at least
one coloured pixel, the summary computed by `imgMarkColor` has a count equal to the
number of coloured pixels, a minimum and a maximum that are colour scores of coloured
pixels and are the smallest and the largest of them, and a mean that is the float64
quotient of the float64 sum of the scores, accumulated in scan order, by the count; and
`colorThreshold < min <= max`. -/
theorem imgMarkColor_summary (imgIn : Image) (hrange : imgIn.InRange)
    (hcol : imgIsColor imgIn = true) :
    (imgMarkColor imgIn).2.n =
      ((scanCoords imgIn.maxX imgIn.maxY).filter
        (fun c => isColored (imgIn.pixelAt c.1 c.2))).length ∧
    0 < (imgMarkColor imgIn).2.n ∧
    (imgMarkColor imgIn).2.min ∈ coloredScores imgIn ∧
    (∀ v, v ∈ coloredScores imgIn → F64.le (imgMarkColor imgIn).2.min v = true) ∧
    (imgMarkColor imgIn).2.max ∈ coloredScores imgIn ∧
    (∀ v, v ∈ coloredScores imgIn → F64.le v (imgMarkColor imgIn).2.max = true) ∧
    (imgMarkColor imgIn).2.mean =
      F64.div (sumSeries (coloredScores imgIn)) (F64.ofNat (imgMarkColor imgIn).2.n) ∧
    F64.lt colorThreshold (imgMarkColor imgIn).2.min = true ∧
    F64.le (imgMarkColor imgIn).2.min (imgMarkColor imgIn).2.max = true := by
  obtain ⟨x, y, hx, hy, hc⟩ := (imgIsColor_iff_exists imgIn).mp hcol
  have hmem0 : colorScore (imgIn.pixelAt x y) ∈ coloredScores imgIn :=
    List.mem_map.mpr ⟨(x, y),
      List.mem_filter.mpr ⟨(mem_scanCoords _ _ x y).mpr ⟨hx, hy⟩, hc⟩, rfl⟩
  have hne : coloredScores imgIn ≠ [] := List.ne_nil_of_mem hmem0
  have hdata : ∀ v, v ∈ coloredScores imgIn →
      ∃ k, v = F64.fin false k ∧ k ≤ 510 * oneUnits := by
    intro v hv
    obtain ⟨x1, y1, _, _, _, hval⟩ := mem_coloredScores imgIn v hv
    rw [hval]
    exact colorScore_bounded _ (hrange x1 y1).1 (hrange x1 y1).2.1 (hrange x1 y1).2.2
  obtain ⟨hn, hmean, hminmem, hmaxmem, hall⟩ :=
    summarizeSeries_spec (coloredScores imgIn) hne hdata
  rw [imgMarkColor_summary_eq]
  have hlen : (coloredScores imgIn).length =
      ((scanCoords imgIn.maxX imgIn.maxY).filter
        (fun c => isColored (imgIn.pixelAt c.1 c.2))).length := by
    unfold coloredScores
    rw [List.length_map]
  refine ⟨by rw [hn, hlen], ?_, hminmem, fun v hv => (hall v hv).1, hmaxmem,
    fun v hv => (hall v hv).2, by rw [hmean, hn], ?_, (hall _ hminmem).2⟩
  · rw [hn]
    exact List.length_pos.mpr hne
  · obtain ⟨x1, y1, _, _, hc1, hval⟩ := mem_coloredScores imgIn _ hminmem
    rw [hval]
    exact hc1

/-- Witness of C11 (amended): the gray 5x5 raster with one red pixel. -/
theorem imgMarkColor_summary_witness :
    Image.InRange redDotImage5 ∧ imgIsColor redDotImage5 = true ∧
    (imgMarkColor redDotImage5).2.n = 1 ∧
    F64.lt colorThreshold (imgMarkColor redDotImage5).2.min = true ∧
    F64.le (imgMarkColor redDotImage5).2.min (imgMarkColor redDotImage5).2.max = true :=
  ⟨redDotImage5_inRange, by decide!, by decide!,
    (imgMarkColor_summary redDotImage5 redDotImage5_inRange (by decide!)).2.2.2.2.2.2.2⟩

/-! ## Lemmas on the ledger round trip -/

theorem digitChar_toNat (d : Nat) (hd : d < 10) : (digitChar d).toNat = 48 + d := by
  interval_cases d <;> rfl

theorem digitChar_not_space (d : Nat) (hd : d < 10) : isSpace (digitChar d) = false := by
  interval_cases d <;> rfl

theorem digitChar_not_sign (d : Nat) (hd : d < 10) : digitChar d ≠ '-' ∧ digitChar d ≠ '+' := by
  interval_cases d <;> exact ⟨by decide, by decide⟩

theorem natDigits_append : ∀ (fuel n : Nat) (acc : List Char),
    natDigits fuel n acc = natDigits fuel n [] ++ acc := by
  intro fuel
  induction fuel with
  | zero => intro n acc; simp [natDigits]
  | succ fuel ih =>
    intro n acc
    unfold natDigits
    by_cases h : n / 10 = 0
    · simp [h]
    · rw [if_neg h, if_neg h, ih (n / 10) (digitChar (n % 10) :: acc),
        ih (n / 10) [digitChar (n % 10)]]
      simp

theorem parseDigits_append_digit : ∀ (ds : List Char) (a v d : Nat), d < 10 →
    parseDigits ds a = some v → parseDigits (ds ++ [digitChar d]) a = some (v * 10 + d) := by
  intro ds
  induction ds with
  | nil =>
    intro a v d hd h
    simp only [parseDigits, Option.some.injEq] at h
    subst h
    simp [parseDigits, digitChar_toNat d hd]
    omega
  | cons c rest ih =>
    intro a v d hd h
    rw [List.cons_append]
    unfold parseDigits at h ⊢
    by_cases hc : 48 ≤ c.toNat ∧ c.toNat ≤ 57
    · rw [if_pos hc] at h ⊢
      exact ih _ v d hd h
    · rw [if_neg hc] at h
      exact absurd h (by simp)

/-- The digits written for `n` are not empty, start with a digit, contain no space, and
are read back as `n`. -/
theorem natDigits_spec : ∀ (fuel n : Nat), n < fuel →
    parseDigits (natDigits fuel n []) 0 = some n ∧
    (∃ d rest, d < 10 ∧ natDigits fuel n [] = digitChar d :: rest) ∧
    (∃ d front, d < 10 ∧ natDigits fuel n [] = front ++ [digitChar d]) ∧
    ∀ c, c ∈ natDigits fuel n [] → isSpace c = false := by
  intro fuel
  induction fuel with
  | zero => intro n h; omega
  | succ fuel ih =>
    intro n hn
    unfold natDigits
    have hd : n % 10 < 10 := Nat.mod_lt _ (by decide)
    by_cases h : n / 10 = 0
    · rw [if_pos h]
      have hn10 : n % 10 = n := by omega
      refine ⟨?_, ⟨n % 10, [], hd, rfl⟩, ⟨n % 10, [], hd, rfl⟩, ?_⟩
      · simp [parseDigits, digitChar_toNat _ hd]
        omega
      · intro c hc
        rw [List.mem_singleton] at hc
        rw [hc]
        exact digitChar_not_space _ hd
    · rw [if_neg h, natDigits_append]
      have hlt : n / 10 < fuel := by omega
      obtain ⟨hp, ⟨d, rest, hd1, hrest⟩, _, hsp⟩ := ih (n / 10) hlt
      refine ⟨?_, ⟨d, rest ++ [digitChar (n % 10)], hd1, by rw [hrest]; rfl⟩,
        ⟨n % 10, natDigits fuel (n / 10) [], hd, rfl⟩, ?_⟩
      · rw [parseDigits_append_digit _ 0 (n / 10) (n % 10) hd hp]
        congr 1
        omega
      · intro c hc
        rcases List.mem_append.mp hc with h1 | h1
        · exact hsp c h1
        · rw [List.mem_singleton] at h1
          rw [h1]
          exact digitChar_not_space _ hd

theorem formatNat_toList (n : Nat) : (formatNat n).toList = natDigits (n + 1) n [] := rfl

theorem parseNat_formatNat (n : Nat) : parseNat (formatNat n).toList = some n := by
  obtain ⟨hp, ⟨d, rest, _, hrest⟩, _, _⟩ := natDigits_spec (n + 1) n (Nat.lt_succ_self n)
  rw [formatNat_toList]
  unfold parseNat
  rw [hrest] at hp ⊢
  exact hp

theorem dropWhile_of_head {α : Type} (p : α → Bool) (a : α) (l : List α) (h : p a = false) :
    (a :: l).dropWhile p = a :: l := by
  simp [List.dropWhile, h]

/-- Trimming leaves alone a string whose first and last characters are not spaces. -/
theorem trimSpace_eq (l : List Char) (hne : l ≠ [])
    (hfirst : ∀ c rest, l = c :: rest → isSpace c = false)
    (hlast : ∀ c front, l = front ++ [c] → isSpace c = false) :
    trimSpace (String.mk l) = String.mk l := by
  unfold trimSpace
  show String.mk ((l.dropWhile isSpace).reverse.dropWhile isSpace).reverse = String.mk l
  congr 1
  have h1 : l.dropWhile isSpace = l := by
    cases l with
    | nil => rfl
    | cons c rest => exact dropWhile_of_head _ _ _ (hfirst c rest rfl)
  rw [h1]
  have h2 : l.reverse.dropWhile isSpace = l.reverse := by
    rcases List.eq_nil_or_concat l with h | ⟨front, c, h⟩
    · exact absurd h hne
    · rw [h]
      simp only [List.concat_eq_append, List.reverse_append, List.reverse_singleton,
        List.singleton_append]
      exact dropWhile_of_head _ _ _ (hlast c front (by rw [h]; simp))
  rw [h2, List.reverse_reverse]
theorem formatNat_trim (n : Nat) : trimSpace (formatNat n) = formatNat n := by
  obtain ⟨_, ⟨d, rest, hd, hrest⟩, ⟨d2, front, hd2, hfront⟩, _⟩ :=
    natDigits_spec (n + 1) n (Nat.lt_succ_self n)
  show trimSpace (String.mk (natDigits (n + 1) n [])) = String.mk (natDigits (n + 1) n [])
  apply trimSpace_eq
  · rw [hrest]; simp
  · intro c rest1 h
    rw [hrest] at h
    rw [← (List.cons.inj h).1]
    exact digitChar_not_space d hd
  · intro c front1 h
    rw [hfront] at h
    have := List.append_inj_right' h rfl
    rw [← (List.cons.inj this).1]
    exact digitChar_not_space d2 hd2

theorem formatInt_toList (n : Int) :
    (formatInt n).toList =
      if n < 0 then '-' :: natDigits (n.natAbs + 1) n.natAbs []
      else natDigits (n.natAbs + 1) n.natAbs [] := by
  unfold formatInt
  split_ifs
  · rfl
  · rfl

theorem atoi_formatInt (n : Int) (hn : inIntRange n) : atoi (formatInt n) = some n := by
  obtain ⟨hlo, hhi⟩ := hn
  have hp := parseNat_formatNat n.natAbs
  rw [formatNat_toList] at hp
  unfold atoi
  rw [formatInt_toList]
  by_cases hneg : n < 0
  · rw [if_pos hneg]
    simp only [hp]
    have : n.natAbs ≤ 2 ^ 63 := by omega
    rw [if_pos this]
    congr 1
    omega
  · rw [if_neg hneg]
    obtain ⟨_, ⟨d, rest, hd, hrest⟩, _, _⟩ :=
      natDigits_spec (n.natAbs + 1) n.natAbs (Nat.lt_succ_self _)
    rw [hrest] at hp ⊢
    have hsign := digitChar_not_sign d hd
    have : n.natAbs < 2 ^ 63 := by omega
    split
    · rename_i heq
      exact absurd (List.cons.inj heq).1 hsign.1
    · rename_i heq
      exact absurd (List.cons.inj heq).1 hsign.2
    · simp only [hp]
      rw [if_pos this]
      congr 1
      omega

theorem formatInt_trim (n : Int) : trimSpace (formatInt n) = formatInt n := by
  obtain ⟨_, ⟨d, rest, hd, hrest⟩, ⟨d2, front, hd2, hfront⟩, _⟩ :=
    natDigits_spec (n.natAbs + 1) n.natAbs (Nat.lt_succ_self _)
  have hl : formatInt n = String.mk (formatInt n).toList := rfl
  rw [hl, formatInt_toList]
  apply trimSpace_eq
  · split_ifs <;> simp [hrest]
  · intro c rest1 h
    split_ifs at h
    · rw [← (List.cons.inj h).1]
      rfl
    · rw [hrest] at h
      rw [← (List.cons.inj h).1]
      exact digitChar_not_space d hd
  · intro c front1 h
    have hlast : natDigits (n.natAbs + 1) n.natAbs [] = front ++ [digitChar d2] := hfront
    split_ifs at h
    · rw [hlast, ← List.cons_append] at h
      have := List.append_inj_right' h rfl
      rw [← (List.cons.inj this).1]
      exact digitChar_not_space d2 hd2
    · rw [hlast] at h
      have := List.append_inj_right' h rfl
      rw [← (List.cons.inj this).1]
      exact digitChar_not_space d2 hd2

theorem toInt_formatInt (n : Int) (hn : inIntRange n) : toInt (formatInt n) = .ret n := by
  unfold toInt
  rw [formatInt_trim, atoi_formatInt n hn]

theorem toBool_formatBool (b : Bool) : toBool (formatBool b) = b := by
  cases b <;> decide

theorem formatFloat3_trim (x : F64) : trimSpace (formatFloat3 x) = formatFloat3 x := by
  cases x with
  | nan => decide
  | inf s => cases s <;> decide
  | fin s k =>
    obtain ⟨_, ⟨d, rest, hd, hrest⟩, _, _⟩ :=
      natDigits_spec (roundAt 0 (k * 1000) oneUnits / 1000 + 1)
        (roundAt 0 (k * 1000) oneUnits / 1000) (Nat.lt_succ_self _)
    have hl : formatFloat3 (F64.fin s k) = String.mk (formatFloat3 (F64.fin s k)).toList := rfl
    have hlist : (formatFloat3 (F64.fin s k)).toList =
        ((if s then ['-'] else []) ++
          natDigits (roundAt 0 (k * 1000) oneUnits / 1000 + 1)
            (roundAt 0 (k * 1000) oneUnits / 1000) [] ++
          ['.', digitChar (roundAt 0 (k * 1000) oneUnits % 1000 / 100),
            digitChar (roundAt 0 (k * 1000) oneUnits % 100 / 10)]) ++
          [digitChar (roundAt 0 (k * 1000) oneUnits % 10)] := by
      unfold formatFloat3
      simp only
      generalize roundAt 0 (k * 1000) oneUnits = t
      cases s <;> simp [formatNat, String.toList, String.data_append]
    rw [hl, hlist]
    apply trimSpace_eq
    · simp
    · intro c rest1 h
      rw [hrest] at h
      cases s
      · simp only [Bool.false_eq_true, if_false, List.nil_append, List.cons_append] at h
        rw [← (List.cons.inj h).1]
        exact digitChar_not_space d hd
      · simp only [if_true, List.cons_append, List.nil_append] at h
        rw [← (List.cons.inj h).1]
        rfl
    · intro c front1 h
      have := List.append_inj_right' h (by simp only [List.length_singleton])
      rw [← (List.cons.inj this).1]
      exact digitChar_not_space _ (Nat.mod_lt _ (by decide))
/-- A record whose fields survive formatting and parsing is read back from its row. -/
theorem rowToResult_resultToRow (lib : Stdlib) (e : testResult)
    (hpages : inIntRange e.numPages) (himg : inIntRange e.xobjImg)
    (hform : inIntRange e.xobjForm)
    (hdur : lib.parseFloat (formatFloat3 e.duration) = .ok e.duration) :
    rowToResult lib (resultToRow e) = .ret e := by
  have hfloat : toFloat lib (formatFloat3 e.duration) = .ret e.duration := by
    unfold toFloat
    rw [formatFloat3_trim, hdur]
  unfold rowToResult resultToRow
  simp only [List.get?, toInt_formatInt _ hpages, toInt_formatInt _ himg,
    toInt_formatInt _ hform, hfloat, toBool_formatBool]

theorem rowsToResults_map (lib : Stdlib) : ∀ (X : List testResult),
    (∀ e, e ∈ X → inIntRange e.numPages ∧ inIntRange e.xobjImg ∧ inIntRange e.xobjForm ∧
      lib.parseFloat (formatFloat3 e.duration) = .ok e.duration) →
    rowsToResults lib (X.map resultToRow) = .ret X := by
  intro X
  induction X with
  | nil => intro _; rfl
  | cons e rest ih =>
    intro h
    obtain ⟨h1, h2, h3, h4⟩ := h e (List.mem_cons_self _ _)
    rw [List.map_cons]
    unfold rowsToResults
    rw [rowToResult_resultToRow lib e h1 h2 h3 h4]
    simp only
    rw [ih (fun e1 he1 => h e1 (List.mem_cons_of_mem _ he1))]

/-! ## Theorems: ledger round trip -/

/-- Counterexample to C17 as stated: a ledger of one record whose duration is `0.0004`
seconds is written with the duration `0.000` and read back with the duration zero. -/
theorem ledger_roundtrip_loses_duration :
    testResultRead sampleLib
        (testResultWrite sampleLib emptyDisk "xform.test.results.csv" [recordTiny]).1
        "xform.test.results.csv" = .ret ([recordTinyRead], none) ∧
    [recordTinyRead] ≠ [recordTiny] := by
  decide!

/-- C17 (amended): ledger round trip.  For every list `X` of test records (the empty
list included) whose integer fields are values of the type `int` and whose duration
values are finite and unchanged by formatting with `%.3f` and parsing back, when the
file can be opened and the CSV reader returns the rows given to the CSV writer,
`testResultWrite` returns no error and `testResultRead` on the file written returns
exactly `X`, in the same order and with the same value in every field. -/
theorem ledger_roundtrip (lib : Stdlib) (disk : Disk) (path : String) (X : List testResult)
    (hopen : disk.denied path = false)
    (hcsv : lib.csvRead (lib.csvWrite (ledgerHeader :: X.map resultToRow)) =
      (ledgerHeader :: X.map resultToRow, none))
    (hint : ∀ e, e ∈ X →
      inIntRange e.numPages ∧ inIntRange e.xobjImg ∧ inIntRange e.xobjForm)
    (hdur : ∀ e, e ∈ X → e.duration.isFinite = true ∧
      lib.parseFloat (formatFloat3 e.duration) = .ok e.duration) :
    (testResultWrite lib disk path X).2 = none ∧
    testResultRead lib (testResultWrite lib disk path X).1 path = .ret (X, none) := by
  have hwrite : testResultWrite lib disk path X =
      (disk.write path (lib.csvWrite (ledgerHeader :: X.map resultToRow)), none) := by
    unfold testResultWrite
    simp [hopen]
  rw [hwrite]
  refine ⟨rfl, ?_⟩
  unfold testResultRead
  have hcontent : (disk.write path (lib.csvWrite (ledgerHeader :: X.map resultToRow))).content
      path = some (lib.csvWrite (ledgerHeader :: X.map resultToRow)) := by
    simp [Disk.write]
  have hdenied : (disk.write path (lib.csvWrite (ledgerHeader :: X.map resultToRow))).denied
      path = false := hopen
  simp only [hcontent, hdenied, hcsv, List.tail_cons]
  rw [rowsToResults_map lib X (fun e he =>
    ⟨(hint e he).1, (hint e he).2.1, (hint e he).2.2, (hdur e he).2⟩)]
  simp

/-- Witness of C17 (amended): a ledger of two records with durations `0` and `1.5`. -/
theorem ledger_roundtrip_witness :
    testResultRead sampleLib
        (testResultWrite sampleLib emptyDisk "xform.test.results.csv" [recordA, recordB]).1
        "xform.test.results.csv" = .ret ([recordA, recordB], none) :=
  (ledger_roundtrip sampleLib emptyDisk "xform.test.results.csv" [recordA, recordB] rfl
    (by decide!) (by decide) (by decide!)).2

/-! ## Lemmas on the colour pages of a directory -/

/-- The pattern matches a name `doc-<digits>.png` from its start. -/
theorem gsImageMatchHere_name (D : List Char) (hne : D ≠ []) (hall : D.all isDigit = true) :
    gsImageMatchHere (['d', 'o', 'c', '-'] ++ D ++ ['.', 'p', 'n', 'g']) = some D := by
  have hlen : 0 < D.length := List.length_pos.mpr hne
  unfold gsImageMatchHere
  have htake : (['d', 'o', 'c', '-'] ++ D ++ ['.', 'p', 'n', 'g']).take 4 =
      ['d', 'o', 'c', '-'] := by simp
  have hdrop : (['d', 'o', 'c', '-'] ++ D ++ ['.', 'p', 'n', 'g']).drop 4 =
      D ++ ['.', 'p', 'n', 'g'] := by simp
  rw [if_pos htake, hdrop]
  have hl : (D ++ ['.', 'p', 'n', 'g']).length = D.length + 4 := by simp
  have h4 : (D ++ ['.', 'p', 'n', 'g']).length - 4 = D.length := by omega
  have h3 : (D ++ ['.', 'p', 'n', 'g']).length - 3 = D.length + 1 := by omega
  simp only [h4, h3]
  have hdig : (D ++ ['.', 'p', 'n', 'g']).take D.length = D := by simp
  have hd4 : (D ++ ['.', 'p', 'n', 'g']).drop D.length = ['.', 'p', 'n', 'g'] := by simp
  have hd3 : (D ++ ['.', 'p', 'n', 'g']).drop (D.length + 1) = ['p', 'n', 'g'] := by
    rw [← List.drop_drop, hd4]
    rfl
  rw [hdig, hd4, hd3, if_pos]
  refine ⟨by omega, hall, by decide, rfl⟩

/-- The pattern does not match from a start before the name: the digits would have to
include the dash of the name. -/
theorem gsImageMatchHere_before (pre D : List Char) (hpre : pre ≠ []) (hne : D ≠ []) :
    gsImageMatchHere (pre ++ (['d', 'o', 'c', '-'] ++ D ++ ['.', 'p', 'n', 'g'])) = none := by
  have hplen : 0 < pre.length := List.length_pos.mpr hpre
  have hlen : 0 < D.length := List.length_pos.mpr hne
  unfold gsImageMatchHere
  by_cases h1 : (pre ++ (['d', 'o', 'c', '-'] ++ D ++ ['.', 'p', 'n', 'g'])).take 4 =
      ['d', 'o', 'c', '-']
  · rw [if_pos h1]
    simp only
    rw [if_neg]
    rintro ⟨_, hall, _, _⟩
    have hs : pre ++ (['d', 'o', 'c', '-'] ++ D ++ ['.', 'p', 'n', 'g']) =
        (pre ++ ['d', 'o', 'c']) ++ ('-' :: (D ++ ['.', 'p', 'n', 'g'])) := by simp
    rw [hs] at hall
    have hX : 4 ≤ (pre ++ ['d', 'o', 'c']).length := by
      rw [List.length_append]
      simp only [List.length_cons, List.length_nil]
      omega
    rw [List.drop_append_of_le_length hX] at hall
    have hmem : '-' ∈ List.take
        (((pre ++ ['d', 'o', 'c']).drop 4 ++ '-' :: (D ++ ['.', 'p', 'n', 'g'])).length - 4)
        ((pre ++ ['d', 'o', 'c']).drop 4 ++ '-' :: (D ++ ['.', 'p', 'n', 'g'])) := by
      have hl : ((pre ++ ['d', 'o', 'c']).drop 4 ++ '-' :: (D ++ ['.', 'p', 'n', 'g'])).length - 4
          = ((pre ++ ['d', 'o', 'c']).drop 4).length + (1 + D.length) := by
        simp only [List.length_append, List.length_cons, List.length_nil, List.length_drop]
        omega
      rw [hl, List.take_append]
      apply List.mem_append_right
      have : 1 + D.length = D.length + 1 := by omega
      rw [this, List.take_succ_cons]
      exact List.mem_cons_self _ _
    have := List.all_eq_true.mp hall '-' hmem
    exact absurd this (by decide)
  · rw [if_neg h1]

/-- The leftmost match of the pattern in a path that ends with a name
`doc-<digits>.png`. -/
theorem gsImageFind_name (D : List Char) (hne : D ≠ []) (hall : D.all isDigit = true) :
    ∀ pre : List Char,
      gsImageFind (pre ++ (['d', 'o', 'c', '-'] ++ D ++ ['.', 'p', 'n', 'g'])) = some D := by
  intro pre
  induction pre with
  | nil =>
    have h := gsImageMatchHere_name D hne hall
    simp only [List.nil_append]
    have hs : ['d', 'o', 'c', '-'] ++ D ++ ['.', 'p', 'n', 'g'] =
        'd' :: (['o', 'c', '-'] ++ D ++ ['.', 'p', 'n', 'g']) := rfl
    rw [hs] at h ⊢
    unfold gsImageFind
    rw [h]
  | cons c rest ih =>
    have h := gsImageMatchHere_before (c :: rest) D (List.cons_ne_nil _ _) hne
    rw [List.cons_append] at h ⊢
    unfold gsImageFind
    rw [h]
    exact ih

theorem natDigits_isDigit : ∀ (fuel n : Nat) (c : Char),
    c ∈ natDigits fuel n [] → isDigit c = true := by
  intro fuel
  induction fuel with
  | zero => intro n c h; simp [natDigits] at h
  | succ fuel ih =>
    intro n c h
    unfold natDigits at h
    have hd : n % 10 < 10 := Nat.mod_lt _ (by decide)
    have hdc : isDigit (digitChar (n % 10)) = true := by
      unfold isDigit
      rw [digitChar_toNat _ hd]
      simp
      omega
    by_cases h0 : n / 10 = 0
    · rw [if_pos h0, List.mem_singleton] at h
      rw [h]
      exact hdc
    · rw [if_neg h0, natDigits_append] at h
      rcases List.mem_append.mp h with h1 | h1
      · exact ih _ c h1
      · rw [List.mem_singleton] at h1
        rw [h1]
        exact hdc

theorem parseDigits_zeros (z : Nat) (ds : List Char) :
    parseDigits (List.replicate z '0' ++ ds) 0 = parseDigits ds 0 := by
  induction z with
  | zero => rfl
  | succ z ih =>
    rw [List.replicate_succ, List.cons_append, parseDigits, if_pos (by decide)]
    exact ih

/-- The padded digits of a page number: not empty, all digits, and read back by
`strconv.Atoi` as the page number. -/
theorem formatPad3_spec (p : Nat) (hp : p < 2 ^ 63) :
    formatPad3 p ≠ [] ∧ (formatPad3 p).all isDigit = true ∧
    atoi (String.mk (formatPad3 p)) = some (p : Int) := by
  obtain ⟨hparse, ⟨d, rest, hd, hrest⟩, _, _⟩ := natDigits_spec (p + 1) p (Nat.lt_succ_self p)
  have hne : formatPad3 p ≠ [] := by
    unfold formatPad3
    rw [hrest]
    simp
  have hall : (formatPad3 p).all isDigit = true := by
    unfold formatPad3
    rw [List.all_eq_true]
    intro c hc
    rcases List.mem_append.mp hc with h | h
    · rw [(List.mem_replicate.mp h).2]
      decide
    · exact natDigits_isDigit _ _ c h
  refine ⟨hne, hall, ?_⟩
  have hpd : parseDigits (formatPad3 p) 0 = some p := by
    unfold formatPad3
    rw [parseDigits_zeros, hparse]
  unfold atoi
  show (match formatPad3 p with
    | '-' :: rest =>
      match parseNat rest with
      | some n => if n ≤ 2 ^ 63 then some (-(n : Int)) else none
      | none => none
    | '+' :: rest =>
      match parseNat rest with
      | some n => if n < 2 ^ 63 then some (n : Int) else none
      | none => none
    | cs =>
      match parseNat cs with
      | some n => if n < 2 ^ 63 then some (n : Int) else none
      | none => none) = some (p : Int)
  have hpn : parseNat (formatPad3 p) = some p := by
    unfold parseNat
    cases hfp : formatPad3 p with
    | nil => exact absurd hfp hne
    | cons c cs =>
      rw [hfp] at hpd
      exact hpd
  split
  · rename_i rest1 heq
    have := List.all_eq_true.mp hall '-' (by rw [heq]; exact List.mem_cons_self _ _)
    exact absurd this (by decide)
  · rename_i rest1 heq
    have := List.all_eq_true.mp hall '+' (by rw [heq]; exact List.mem_cons_self _ _)
    exact absurd this (by decide)
  · rw [hpn]
    simp only
    rw [if_pos hp]
theorem gsImageName_toList (pre : String) (p : Nat) :
    (pre ++ gsImageName p).toList =
      pre.toList ++ (['d', 'o', 'c', '-'] ++ formatPad3 p ++ ['.', 'p', 'n', 'g']) := by
  simp [gsImageName, String.toList, String.data_append]

/-- What `isColorImage` returns for a file that can be read, when the marked image can
be written. -/
theorem isColorImage_of_read (env : Env) (writeImage : String → Image → Option Error)
    (path : String) (keep : Bool) (img : Image)
    (hread : readImage env path = .ok img)
    (hwrite : keep = true → ∀ path1 img1, writeImage path1 img1 = none) :
    isColorImage env writeImage path keep = (isColorPath env path, none) := by
  unfold isColorImage isColorPath
  rw [hread]
  simp only
  by_cases h : imgIsColor img = true ∧ keep = true
  · rw [if_pos h, hwrite h.2]
  · rw [if_neg h]

/-- The loop of `colorDirectoryPages` over the page images of `pages`: the pages whose
image is coloured are appended, in the order of the listing. -/
theorem colorDirectoryPagesLoop_pages (env : Env) (writeImage : String → Image → Option Error)
    (keep : Bool) (pre : String)
    (hwrite : keep = true → ∀ path img, writeImage path img = none) :
    ∀ (pages : List Nat) (acc : List Int),
      (∀ p, p ∈ pages → p < 2 ^ 63 ∧ ∃ img, readImage env (pre ++ gsImageName p) = .ok img) →
      colorDirectoryPagesLoop env writeImage keep
          (pages.map (fun p => pre ++ gsImageName p)) acc =
        .ret (acc ++ (pages.filter (fun p => isColorPath env (pre ++ gsImageName p))).map
          (fun p : Nat => (p : Int)), none) := by
  intro pages
  induction pages with
  | nil => intro acc _; simp [colorDirectoryPagesLoop]
  | cons p rest ih =>
    intro acc h
    obtain ⟨hp, img, hread⟩ := h p (List.mem_cons_self _ _)
    have hrest := fun q hq => h q (List.mem_cons_of_mem _ hq)
    obtain ⟨hne, hall, hatoi⟩ := formatPad3_spec p hp
    rw [List.map_cons]
    unfold colorDirectoryPagesLoop
    rw [gsImageName_toList, gsImageFind_name _ hne hall]
    simp only [hatoi]
    rw [isColorImage_of_read env writeImage _ keep img hread hwrite]
    simp only
    rw [List.filter_cons]
    by_cases hc : isColorPath env (pre ++ gsImageName p) = true
    · rw [if_pos hc, if_pos hc, ih _ hrest]
      simp
    · rw [if_neg hc, if_neg hc, ih _ hrest]

theorem lexLess_append_left (l a b : List Char) : lexLess (l ++ a) (l ++ b) = lexLess a b := by
  induction l with
  | nil => rfl
  | cons c rest ih =>
    rw [List.cons_append, List.cons_append, lexLess]
    simp [ih]

theorem formatPad3_small : ∀ p, p < 1000 →
    formatPad3 p = [digitChar (p / 100), digitChar (p / 10 % 10), digitChar (p % 10)] := by
  decide!

/-- For page numbers below 1000 the order of the file names is the order of the
numbers. -/
theorem gsImageName_lt (pre : String) (p q : Nat) (hp : p < 1000) (hq : q < 1000)
    (h : strLess (pre ++ gsImageName p) (pre ++ gsImageName q) = true) : p < q := by
  unfold strLess at h
  rw [gsImageName_toList, gsImageName_toList, lexLess_append_left, formatPad3_small p hp,
    formatPad3_small q hq] at h
  have a2 : p / 100 < 10 := by omega
  have a1 : p / 10 % 10 < 10 := by omega
  have a0 : p % 10 < 10 := by omega
  have b2 : q / 100 < 10 := by omega
  have b1 : q / 10 % 10 < 10 := by omega
  have b0 : q % 10 < 10 := by omega
  simp only [List.cons_append, List.nil_append, lexLess, digitChar_toNat _ a2,
    digitChar_toNat _ a1, digitChar_toNat _ a0, digitChar_toNat _ b2, digitChar_toNat _ b1,
    digitChar_toNat _ b0, lt_self_iff_false, if_false] at h
  by_contra hn
  split_ifs at h <;> omega

theorem namesAscending_sorted : ∀ (l : List String), namesAscending l = true →
    l.Sorted (fun a b => strLess a b = true) := by
  intro l
  induction l with
  | nil => intro _; exact List.sorted_nil
  | cons a rest ih =>
    intro h
    cases rest with
    | nil => exact List.sorted_singleton a
    | cons b rest1 =>
      simp only [namesAscending, Bool.and_eq_true] at h
      have hs := ih h.2
      refine List.sorted_cons.mpr ⟨?_, hs⟩
      intro c hc
      rcases List.mem_cons.mp hc with hcb | hcr
      · rw [hcb]; exact h.1
      · exact strLess_trans _ _ _ h.1 ((List.sorted_cons.mp hs).1 c hcr)

/-- What the sample directories hold: the listed paths can be read, and a path is
coloured exactly when it is the path of a page of `colored`. -/
theorem pagesEnv_spec (pages colored : List Nat) (path : String) :
    isColorPath (pagesEnv pages colored) path = decide (path ∈ colored.map pagePath) ∧
    (path ∈ pages.map pagePath → ∃ img, readImage (pagesEnv pages colored) path = .ok img) := by
  have hred : imgIsColor redDotImage5 = true := by decide!
  have hgray : imgIsColor grayImage5 = false := by decide!
  unfold isColorPath readImage pagesEnv
  simp only
  by_cases h1 : path ∈ colored.map pagePath
  · simp [h1, hred]
  · by_cases h2 : path ∈ pages.map pagePath
    · simp [h1, h2, hgray]
    · simp [h1, h2]
/-! ## Theorems: colour pages of a directory -/

/-- Counterexample to C12 as stated: in a directory holding the page images
`doc-001.png` to `doc-1000.png` of a document of 1000 pages, listed in the order of their
names, of which pages 101 and 1000 are coloured, `colorDirectoryPages` returns
`[1000, 101]`, which is not in ascending order. -/
theorem colorDirectoryPages_thousand_pages :
    thousandPages.Perm (List.range' 1 1000) ∧
    (thousandPages.map pagePath).Sorted (fun a b => strLess a b = true) ∧
    colorDirectoryPages thousandEnv writeImageOk "*.png" "dir" false =
      .ret ([1000, 101], none) := by
  refine ⟨?_, namesAscending_sorted _ (by decide!), ?_⟩
  · have h : List.range' 1 1000 = List.range' 1 100 ++ (List.range' 101 899 ++ [1000]) := by
      decide!
    rw [h]
    unfold thousandPages
    rw [List.append_assoc]
    exact List.Perm.append_left _ List.perm_append_comm
  · have hglob : thousandEnv.glob (thousandEnv.join "dir" "*.png") =
        .ok (thousandPages.map (fun p => "dir/" ++ gsImageName p)) := rfl
    unfold colorDirectoryPages
    rw [hglob]
    simp only
    rw [colorDirectoryPagesLoop_pages thousandEnv writeImageOk false "dir/"
      (fun h => absurd h (by decide)) thousandPages []
      (fun p hp => ⟨(by decide! : ∀ q, q ∈ thousandPages → q < 2 ^ 63) p hp,
        (pagesEnv_spec thousandPages [101, 1000] (pagePath p)).2
          (List.mem_map_of_mem _ hp)⟩)]
    have hf : (fun p => isColorPath thousandEnv ("dir/" ++ gsImageName p)) =
        (fun p => decide (pagePath p ∈ [101, 1000].map pagePath)) :=
      funext (fun p => (pagesEnv_spec thousandPages [101, 1000] (pagePath p)).1)
    rw [hf]
    have hfilter : thousandPages.filter
        (fun p => decide (pagePath p ∈ [101, 1000].map pagePath)) = [1000, 101] := by
      decide!
    rw [hfilter]
    rfl

/-- C12 (amended): for every directory whose page images are named by the rasterizer
convention `doc-%03d.png`, one readable file per page `1..n`, listed by `Glob` in the
order of their names, `colorDirectoryPages` returns exactly the page numbers whose image
is coloured, without repeats, in the order of the listing; with at most 999 pages that
order is the ascending numeric order. -/
theorem colorDirectoryPages_pages (env : Env) (writeImage : String → Image → Option Error)
    (mask dir : String) (keep : Bool) (pre : String) (n : Nat) (pages : List Nat)
    (hglob : env.glob (env.join dir mask) = .ok (pages.map (fun p => pre ++ gsImageName p)))
    (hperm : pages.Perm (List.range' 1 n))
    (hsorted : (pages.map (fun p => pre ++ gsImageName p)).Sorted
      (fun a b => strLess a b = true))
    (hn : n < 2 ^ 63)
    (hread : ∀ p, p ∈ pages → ∃ img, readImage env (pre ++ gsImageName p) = .ok img)
    (hwrite : keep = true → ∀ path img, writeImage path img = none) :
    ∃ colorPages : List Int,
      colorDirectoryPages env writeImage mask dir keep = .ret (colorPages, none) ∧
      colorPages =
        (pages.filter (fun p => isColorPath env (pre ++ gsImageName p))).map
          (fun p : Nat => (p : Int)) ∧
      colorPages.Nodup ∧
      (∀ p : Nat, (p : Int) ∈ colorPages ↔
        1 ≤ p ∧ p ≤ n ∧ isColorPath env (pre ++ gsImageName p) = true) ∧
      (∀ v, v ∈ colorPages → 1 ≤ v ∧ v ≤ (n : Int)) ∧
      (n ≤ 999 → colorPages.Sorted (fun a b => a < b)) := by
  have hmem : ∀ p, p ∈ pages ↔ 1 ≤ p ∧ p ≤ n := by
    intro p
    rw [hperm.mem_iff, List.mem_range'_1]
    omega
  have hnodup : pages.Nodup := hperm.nodup_iff.mpr (List.nodup_range' 1 n)
  have hcast : Function.Injective (fun p : Nat => (p : Int)) := fun a b h => Int.ofNat.inj h
  refine ⟨_, ?_, rfl, ?_, ?_, ?_, ?_⟩
  · unfold colorDirectoryPages
    rw [hglob]
    simp only
    rw [colorDirectoryPagesLoop_pages env writeImage keep pre hwrite pages []
      (fun p hp => ⟨by have := (hmem p).mp hp; omega, hread p hp⟩)]
    rfl
  · exact (hnodup.filter _).map hcast
  · intro p
    rw [List.mem_map]
    constructor
    · rintro ⟨q, hq, hqp⟩
      have hqp1 : q = p := Int.ofNat.inj hqp
      subst hqp1
      obtain ⟨hin, hc⟩ := List.mem_filter.mp hq
      exact ⟨((hmem q).mp hin).1, ((hmem q).mp hin).2, hc⟩
    · rintro ⟨h1, h2, hc⟩
      exact ⟨p, List.mem_filter.mpr ⟨(hmem p).mpr ⟨h1, h2⟩, hc⟩, rfl⟩
  · intro v hv
    obtain ⟨q, hq, hqv⟩ := List.mem_map.mp hv
    have := (hmem q).mp (List.mem_filter.mp hq).1
    rw [← hqv]
    constructor
    · exact_mod_cast this.1
    · exact_mod_cast this.2
  · intro h999
    have hpw : pages.Pairwise (fun a b => a < b) := by
      have h1 := List.pairwise_map.mp hsorted
      refine h1.imp_of_mem ?_
      intro a b ha hb hab
      have ha1 := (hmem a).mp ha
      have hb1 := (hmem b).mp hb
      exact gsImageName_lt pre a b (by omega) (by omega) hab
    have hfl := hpw.filter (fun p => isColorPath env (pre ++ gsImageName p))
    exact List.pairwise_map.mpr (hfl.imp (fun hab => Int.ofNat_lt.mpr hab))

/-- Witness of C12 (amended): a document of three pages of which page 2 is coloured. -/
theorem colorDirectoryPages_pages_witness :
    ∃ colorPages : List Int,
      colorDirectoryPages threePagesEnv writeImageOk "*.png" "dir" true =
        .ret (colorPages, none) ∧
      colorPages = ([1, 2, 3].filter
        (fun p => isColorPath threePagesEnv ("dir/" ++ gsImageName p))).map
          (fun p : Nat => (p : Int)) ∧
      colorPages.Nodup ∧
      (∀ p : Nat, (p : Int) ∈ colorPages ↔
        1 ≤ p ∧ p ≤ 3 ∧ isColorPath threePagesEnv ("dir/" ++ gsImageName p) = true) ∧
      (∀ v, v ∈ colorPages → 1 ≤ v ∧ v ≤ ((3 : Nat) : Int)) ∧
      (3 ≤ 999 → colorPages.Sorted (fun a b => a < b)) :=
  colorDirectoryPages_pages threePagesEnv writeImageOk "*.png" "dir" true "dir/" 3 [1, 2, 3]
    rfl (List.Perm.refl _) (namesAscending_sorted _ (by decide!)) (by decide)
    (fun p hp => (pagesEnv_spec [1, 2, 3] [2] (pagePath p)).2 (List.mem_map_of_mem _ hp))
    (fun _ _ _ => rfl)

/-- Counterexample to C13 as stated: for a directory containing only the file
`page-001.png`, a 5x5 all-gray raster with one pixel set to pure red (a coloured image),
`colorDirectoryPages` with mask `*.png` returns the empty page list: the name does not
match the pattern `doc-(\d+).png$`, so the file is skipped. -/
theorem colorDirectoryPages_page_001 :
    (singleFileEnv "page-001.png").glob ((singleFileEnv "page-001.png").join "dir" "*.png") =
      .ok ["dir/page-001.png"] ∧
    readImage (singleFileEnv "page-001.png") "dir/page-001.png" = .ok redDotImage5 ∧
    gsImageFind "dir/page-001.png".toList = none ∧
    colorDirectoryPages (singleFileEnv "page-001.png") writeImageOk "*.png" "dir" false =
      .ret ([], none) ∧
    colorDirectoryPages (singleFileEnv "page-001.png") writeImageOk "*.png" "dir" true =
      .ret ([], none) :=
  ⟨rfl, rfl, by decide, by decide, by decide⟩

/-- C13 (amended): for a directory containing only the file `doc-001.png`, whose image
is a 5x5 all-gray raster with one pixel set to pure red, `colorDirectoryPages` with mask
`*.png` returns the page list `[1]`, whether or not the marked image is kept. -/
theorem colorDirectoryPages_doc_001 (keep : Bool) :
    colorDirectoryPages (singleFileEnv "doc-001.png") writeImageOk "*.png" "dir" keep =
      .ret ([1], none) := by
  cases keep <;> decide!

/-! ## Theorems: bounds of the colour score -/

/-- Every pixel of the image returned by `imgMarkColor` is the marker colour or the zero
colour. -/
theorem imgMarkColor_pixel_cases (imgIn : Image) (x y : Nat) :
    (imgMarkColor imgIn).1.pixelAt x y = black ∨
    (imgMarkColor imgIn).1.pixelAt x y = { r := 0, g := 0, b := 0, a := 0 } := by
  have hfold := imgMarkColor_fold_image imgIn (scanCoords imgIn.maxX imgIn.maxY)
    (Image.newNRGBA imgIn.maxX imgIn.maxY, [])
  rw [← imgMarkColorScan_eq] at hfold
  have hout : (imgMarkColor imgIn).1 =
      (imgMarkColorScan imgIn imgIn.maxX imgIn.maxY
        (Image.newNRGBA imgIn.maxX imgIn.maxY, [])).1 := rfl
  rw [hout, hfold.2.2 x y]
  split_ifs
  · exact Or.inl rfl
  · exact Or.inr rfl

theorem isColored_iff (p : Pixel) :
    isColored p = true ↔
      5 * 65535 < 255 * (Int.natAbs ((p.r : Int) - p.g) + Int.natAbs ((p.g : Int) - p.b)) :=
  rescale_gt_threshold_iff _

theorem ofNat_510 : F64.ofNat 510 = F64.fin false (510 * oneUnits) := by decide!

theorem rescale_zero : rescale 0 = F64.fin false 0 := by decide!

/-- A rescaled difference of at most 1285 is at most the threshold. -/
theorem rescale_le_threshold (n : Nat) (hn : n ≤ 1285) :
    F64.le (rescale n) colorThreshold = true := by
  have h := rescale_mono n 1285 hn
  rw [rescale_1285] at h
  exact h

/-- C27: for every raster, the annotated image returned by `imgMarkColor` is never
classified as coloured: each of its pixels is opaque black (marked) or the zero value
(unmarked), so its R, G and B samples are equal, and `imgIsColor` of the annotated image
is false. -/
theorem imgMarkColor_not_colored (img : Image) :
    (∀ x y, (imgMarkColor img).1.pixelAt x y = black ∨
      (imgMarkColor img).1.pixelAt x y = { r := 0, g := 0, b := 0, a := 0 }) ∧
    (∀ x y, ((imgMarkColor img).1.pixelAt x y).r = ((imgMarkColor img).1.pixelAt x y).g ∧
      ((imgMarkColor img).1.pixelAt x y).g = ((imgMarkColor img).1.pixelAt x y).b) ∧
    imgIsColor (imgMarkColor img).1 = false := by
  have hrgb : ∀ x y,
      ((imgMarkColor img).1.pixelAt x y).r = ((imgMarkColor img).1.pixelAt x y).g ∧
      ((imgMarkColor img).1.pixelAt x y).g = ((imgMarkColor img).1.pixelAt x y).b := by
    intro x y
    rcases imgMarkColor_pixel_cases img x y with h | h <;> rw [h] <;> exact ⟨rfl, rfl⟩
  refine ⟨imgMarkColor_pixel_cases img, hrgb, ?_⟩
  cases hc : imgIsColor (imgMarkColor img).1 with
  | false => rfl
  | true =>
    exfalso
    obtain ⟨x, y, _, _, hcol⟩ := (imgIsColor_iff_exists _).mp hc
    have h := (isColored_iff _).mp hcol
    obtain ⟨h1, h2⟩ := hrgb x y
    rw [h1, h2] at h
    simp at h

/-- C28: for every pixel that is not classified as coloured, the colour score is at
most the threshold `5.0`, and so is each of the three pairwise channel differences
`|R-G|`, `|G-B|` and `|R-B|` rescaled to the scale `0..255`, although `|R-B|` is never
computed. -/
theorem not_colored_pairwise (p : Pixel) (h : isColored p = false) :
    F64.le (colorScore p) colorThreshold = true ∧
    F64.le (rescale (Int.natAbs ((p.r : Int) - p.g))) colorThreshold = true ∧
    F64.le (rescale (Int.natAbs ((p.g : Int) - p.b))) colorThreshold = true ∧
    F64.le (rescale (Int.natAbs ((p.r : Int) - p.b))) colorThreshold = true := by
  have hn : ¬ 5 * 65535 <
      255 * (Int.natAbs ((p.r : Int) - p.g) + Int.natAbs ((p.g : Int) - p.b)) := by
    intro hlt
    have := (isColored_iff p).mpr hlt
    rw [h] at this
    exact absurd this (by decide)
  refine ⟨rescale_le_threshold _ (by omega), rescale_le_threshold _ (by omega),
    rescale_le_threshold _ (by omega), rescale_le_threshold _ (by omega)⟩

/-- Witness of C28: a gray pixel. -/
theorem not_colored_pairwise_witness :
    isColored grayPixel = false ∧
    F64.le (rescale (Int.natAbs ((grayPixel.r : Int) - grayPixel.b))) colorThreshold = true :=
  ⟨by decide!, (not_colored_pairwise grayPixel (by decide!)).2.2.2⟩

/-- Counterexample to C25 as stated: the pixel with red and blue at full scale and no
green has samples in `0..0xFFFF` and a colour score of 510, which is greater than 255. -/
theorem colorScore_magenta :
    magentaPixel.InRange ∧ colorScore magentaPixel = F64.ofNat 510 ∧
    F64.le (colorScore magentaPixel) (F64.ofNat 255) = false ∧
    F64.lt (F64.ofNat 255) (colorScore magentaPixel) = true := by
  decide!

/-- C25 (amended): for every pixel with 16-bit channel samples in `0..0xFFFF`, the
colour score `(|R-G| + |G-B|) / 0xFFFF * 0xFF` lies in the range `0..510`, twice the
range `0..255` of one rescaled difference. -/
theorem colorScore_range (p : Pixel) (h : p.InRange) :
    F64.le (F64.fin false 0) (colorScore p) = true ∧
    F64.le (colorScore p) (F64.ofNat 510) = true := by
  obtain ⟨k, hk, hle⟩ := colorScore_bounded p h.1 h.2.1 h.2.2
  rw [hk, ofNat_510]
  exact ⟨(F64.le_fin_fin _ _).mpr (Nat.zero_le _), (F64.le_fin_fin _ _).mpr hle⟩

/-- Witness of C25 (amended): the pure red pixel. -/
theorem colorScore_range_witness :
    redPixel.InRange ∧
    F64.le (F64.fin false 0) (colorScore redPixel) = true ∧
    F64.le (colorScore redPixel) (F64.ofNat 510) = true :=
  ⟨by decide, colorScore_range redPixel (by decide)⟩

/-! ## Theorems: slice bounds of the corpus ordering -/

/-- C29: `sortFiles` slices the sorted list without going out of range.  For every file
list whose files exist and all limits with `minSize < 0`, or `maxSize < 0`, or
`minSize <= maxSize`, the indexes computed on the sorted list satisfy
`0 <= i0 <= i1 <= n`, and `sortFiles` returns without a panic. -/
theorem sortFiles_slice_in_range (stat : String → Except Error Int) (pathList : List String)
    (minSize maxSize : Int) (fds : List FileData)
    (hs : statFiles stat pathList = .ret fds)
    (hlim : minSize < 0 ∨ maxSize < 0 ∨ minSize ≤ maxSize) :
    sortFilesLow (fds.insertionSort byFileLE) minSize ≤
      sortFilesHigh (fds.insertionSort byFileLE) fds.length maxSize ∧
    sortFilesHigh (fds.insertionSort byFileLE) fds.length maxSize ≤ fds.length ∧
    ∃ l, sortFiles stat pathList minSize maxSize = .ret l := by
  have hsorted : (fds.insertionSort byFileLE).Sorted byFileLE := List.sorted_insertionSort _ _
  have hlen : (fds.insertionSort byFileLE).length = fds.length := List.length_insertionSort _ _
  have hle := sortFilesLow_le_high _ hsorted minSize maxSize hlim
  have hhi := (sortFilesHigh_spec _ hsorted maxSize).1
  rw [hlen] at hle hhi
  refine ⟨hle, hhi, ?_⟩
  rw [sortFiles_of_stat stat pathList minSize maxSize fds hs, if_pos hle]
  exact ⟨_, rfl⟩

/-- Witness of C29: four files of sizes 100, 50, 100 and 7 with the limits 50 and 100. -/
theorem sortFiles_slice_in_range_witness :
    statFiles sampleStat ["a.pdf", "b.pdf", "c.pdf", "d.pdf"] =
      .ret [⟨"a.pdf", 100⟩, ⟨"b.pdf", 50⟩, ⟨"c.pdf", 100⟩, ⟨"d.pdf", 7⟩] ∧
    sortFiles sampleStat ["a.pdf", "b.pdf", "c.pdf", "d.pdf"] 50 100 = .ret ["b.pdf"] ∧
    ∃ l, sortFiles sampleStat ["a.pdf", "b.pdf", "c.pdf", "d.pdf"] 50 100 = .ret l :=
  ⟨by decide, by decide,
    (sortFiles_slice_in_range sampleStat ["a.pdf", "b.pdf", "c.pdf", "d.pdf"] 50 100
      [⟨"a.pdf", 100⟩, ⟨"b.pdf", 50⟩, ⟨"c.pdf", 100⟩, ⟨"d.pdf", 7⟩] (by decide)
      (by decide)).2.2⟩

/-! ## Theorems: comparison of two PDF files -/

/-- What `pdfsEqual` returns once both PDF files are rasterized: the error of
`directoriesEqual` is dropped. -/
theorem pdfsEqual_of_rasterized (env : Env) (mkdirAll : String → Option Error)
    (runGhostscript : String → String → Bool → Option Error)
    (path1 path2 : String) (threshold : imageThreshold) (temp : String)
    (grayscale keep : Bool) (equal : Bool) (err : Option Error)
    (hdir1 : mkdirAll (env.join temp "1") = none) (hdir2 : mkdirAll (env.join temp "2") = none)
    (hgs1 : runGhostscript path1 (env.join temp "1") grayscale = none)
    (hgs2 : runGhostscript path2 (env.join temp "2") grayscale = none)
    (hcmp : directoriesEqual env "*.png" (env.join temp "1") (env.join temp "2") threshold =
      .ret (equal, err)) :
    pdfsEqual env mkdirAll runGhostscript path1 path2 threshold temp grayscale keep =
      .ret (equal, false, none) := by
  unfold pdfsEqual
  simp only [hdir1, hdir2, hgs1, hgs2, hcmp]

/-- C26: when the page image of the second PDF cannot be decoded, `directoriesEqual`
returns the error of the decoder, but `pdfsEqual` returns `(false, false, nil)`: its last
statement is `return equal, false, nil`, which drops the error of the comparison,
although its comment says that `err` is the error. -/
theorem pdfsEqual_drops_error :
    directoriesEqual brokenPageEnv "*.png" (brokenPageEnv.join "tmp" "1")
        (brokenPageEnv.join "tmp" "2") identityThreshold =
      .ret (false, some "image: unknown format") ∧
    pdfsEqual brokenPageEnv (fun _ => none) (fun _ _ _ => none) "a.pdf" "b.pdf"
        identityThreshold "tmp" false false =
      .ret (false, false, none) := by
  have h : directoriesEqual brokenPageEnv "*.png" (brokenPageEnv.join "tmp" "1")
      (brokenPageEnv.join "tmp" "2") identityThreshold =
        .ret (false, some "image: unknown format") := by decide
  exact ⟨h, pdfsEqual_of_rasterized brokenPageEnv _ _ "a.pdf" "b.pdf" identityThreshold "tmp"
    false false false _ rfl rfl rfl rfl h⟩

/-! ## Theorems: misclassified characters -/

/-- When `missclassificationError` returns nil, there are no characters, or no misses,
or the percentage is below the threshold. -/
theorem missclassificationError_none (threshold : F64) (numChars numMisses : Int)
    (h : missclassificationError threshold numChars numMisses = none) :
    numChars = 0 ∨ numMisses = 0 ∨ F64.lt (percentage numChars numMisses) threshold = true := by
  unfold missclassificationError at h
  by_cases h0 : numChars = 0 ∨ numMisses = 0
  · rcases h0 with h1 | h1
    · exact Or.inl h1
    · exact Or.inr (Or.inl h1)
  · rw [if_neg h0] at h
    split_ifs at h with h1
    exact Or.inr (Or.inr h1.2)

/-- C21: with the threshold 100 (the default of the flag `-t`), one character and one
miss, the percentage of misclassified characters is exactly 100, equal to the threshold
and not exceeding it, and `missclassificationError` returns `ErrBadText`: the test
`percentage(numChars, numMisses) < threshold` treats a percentage equal to the
threshold as an error. -/
theorem missclassificationError_at_threshold :
    percentage 1 1 = F64.ofNat 100 ∧
    F64.lt (F64.ofNat 100) (percentage 1 1) = false ∧
    missclassificationError (F64.ofNat 100) 1 1 = some ErrBadText ∧
    percentage 10 10 = F64.ofNat 100 ∧
    missclassificationError (F64.ofNat 100) 10 10 = some ErrBadText := by
  decide!

/-! ## Theorems: unlocking a PDF file -/

theorem lockedReader_contract (accepted : List String) :
    (lockedReader accepted).DecryptTriesEmpty := by
  intro password
  simp only [lockedReader]
  by_cases h : password ∈ accepted
  · simp [h]
  · simp [h]

/-- C23: for an encrypted input PDF, `unlockPdf` calls `Decrypt` with the given password;
`Decrypt` authenticates that password and, if it does not authenticate, the empty
password.  So whenever the empty password authenticates, `Decrypt` returns true and
`unlockPdf` does not return `Wrong password`: it goes on to write the output and returns
what the writer returns (or the error of the authentication of the given password). -/
theorem unlockPdf_empty_password (lib : UnlockLib) (r : PdfReader)
    (inputPath outputPath password : String)
    (hopen : lib.openFile inputPath = none)
    (hreader : lib.newPdfReader inputPath = .ok r)
    (henc : r.isEncrypted = .ok true)
    (hlib : r.DecryptTriesEmpty)
    (hempty : r.authenticate "" = .ok true) :
    (∀ auth, r.authenticate password = .ok auth →
      r.decrypt password = .ok true ∧
      unlockPdf lib inputPath outputPath password =
        match r.toWriter with
        | some err => some err
        | none => r.writeToFile outputPath) ∧
    (∀ err, r.authenticate password = .error err →
      unlockPdf lib inputPath outputPath password = some err) := by
  have hd := hlib password
  constructor
  · intro auth hauth
    have hdec : r.decrypt password = .ok true := by
      rw [hd, hauth]
      cases auth
      · exact hempty
      · rfl
    refine ⟨hdec, ?_⟩
    unfold unlockPdf
    simp only [hopen, hreader, henc, hdec]
    rfl
  · intro err herr
    have hdec : r.decrypt password = .error err := by
      rw [hd, herr]
    unfold unlockPdf
    simp only [hopen, hreader, henc, hdec]
    rfl

/-- Witness of C23: a document that only the empty password opens, unlocked with the
password `guess`; a document that only the password `secret` opens is refused. -/
theorem unlockPdf_empty_password_witness :
    (lockedReader [""]).DecryptTriesEmpty ∧
    (lockedReader [""]).authenticate "guess" = .ok false ∧
    (lockedReader [""]).authenticate "" = .ok true ∧
    unlockPdf (lockedLib [""]) "input.pdf" "output.pdf" "guess" = none ∧
    unlockPdf (lockedLib ["secret"]) "input.pdf" "output.pdf" "guess" =
      some "Wrong password" ∧
    ((lockedReader [""]).decrypt "guess" = .ok true ∧
      unlockPdf (lockedLib [""]) "input.pdf" "output.pdf" "guess" =
        match (lockedReader [""]).toWriter with
        | some err => some err
        | none => (lockedReader [""]).writeToFile "output.pdf") :=
  ⟨lockedReader_contract [""], by decide, by decide, by decide, by decide,
    (unlockPdf_empty_password (lockedLib [""]) (lockedReader [""]) "input.pdf" "output.pdf"
      "guess" rfl rfl rfl (lockedReader_contract [""]) (by decide)).1 false (by decide)⟩

/-! ## Theorems: passthrough benchmark -/

/-- C22: with Ghostscript validation enabled and the load and the write succeeding,
when Ghostscript reports no `****` marker for the input and one for the output,
`testPassthroughSinglePdf` returns nil: `validatePdf` returns an error and a count only
for more than one marker, so an output with one more error than the input passes. -/
theorem testPassthroughSinglePdf_one_warning :
    countMarkers (oneWarningLib.gs "input.pdf" "").stderr.toList = 0 ∧
    countMarkers (oneWarningLib.gs "/tmp/test.pdf" "").stderr.toList = 1 ∧
    validatePdf oneWarningLib "/tmp/test.pdf" "" = (none, 0) ∧
    testPassthroughSinglePdf oneWarningLib "input.pdf" gsvParams = none := by
  decide

/-! ## Lemmas on the diff sample -/

theorem bitLen_le_of_lt (n L : Nat) (h : n < 2 ^ L) : bitLen n ≤ L := by
  by_cases hn : n = 0
  · rw [hn, bitLen_zero]
    exact Nat.zero_le _
  · have h1 := two_pow_bitLen_le n hn
    have h2 : 2 ^ (bitLen n - 1) < 2 ^ L := Nat.lt_of_le_of_lt h1 h
    have h3 := (Nat.pow_lt_pow_iff_right (by decide : 1 < 2)).mp h2
    omega

/-- Rounding leaves alone a value that is a multiple of the rounding step. -/
theorem roundAt_exact (s a den : Nat) (hden : 0 < den) (hdiv : 2 ^ s ∣ a) :
    roundAt s (a * den) den = a := by
  obtain ⟨c, hc⟩ := hdiv
  have hstep : 0 < den * 2 ^ s := Nat.mul_pos hden (Nat.two_pow_pos s)
  have hnum : a * den = c * (den * 2 ^ s) := by rw [hc]; ring
  unfold roundAt
  simp only
  rw [hnum, Nat.mul_mod_left, Nat.mul_div_cancel _ hstep]
  have h1 : ¬ (den * 2 ^ s < 2 * 0) := by omega
  have h2 : ¬ (2 * 0 = den * 2 ^ s) := by omega
  simp only [h1, h2, decide_False, Bool.false_and, Bool.or_false, Bool.false_eq_true, if_false]
  rw [hc]
  ring

/-- A value with at most 53 significant bits is on the binary64 grid. -/
theorem roundGrid_exact (m j den : Nat) (hm : m < 2 ^ 53) (hden : 0 < den) :
    roundGrid (m * 2 ^ j * den) den = m * 2 ^ j := by
  unfold roundGrid
  rw [Nat.mul_div_cancel _ hden]
  apply roundAt_exact _ _ _ hden
  have hlt : m * 2 ^ j < 2 ^ (53 + j) := by
    rw [Nat.pow_add]
    exact Nat.mul_lt_mul_of_pos_right hm (Nat.two_pow_pos j)
  have hb := bitLen_le_of_lt _ _ hlt
  have hs : bitLen (m * 2 ^ j) - 53 ≤ j := by omega
  exact Dvd.dvd.mul_left (Nat.pow_dvd_pow 2 hs) m

theorem F64.ofRat_exact (neg : Bool) (m den : Nat) (hm : m < 2 ^ 53) (hden : 0 < den) :
    F64.ofRat neg (m * oneUnits * den) den = F64.fin neg (m * oneUnits) := by
  rw [F64.ofRat_eq]
  have h := roundGrid_exact m 1074 den hm hden
  unfold oneUnits
  rw [h]
  have hlt : ¬ (overflowUnits ≤ m * 2 ^ 1074) := by
    have h1 : m * 2 ^ 1074 < 2 ^ 53 * 2 ^ 1074 :=
      Nat.mul_lt_mul_of_pos_right hm (Nat.two_pow_pos _)
    have h2 : 2 ^ 53 * 2 ^ 1074 ≤ overflowUnits := by
      unfold overflowUnits
      rw [← Nat.pow_add]
      exact Nat.pow_le_pow_right (by decide) (by decide)
    omega
  rw [if_neg hlt]

theorem F64.ofNat_exact (n : Nat) (hn : n < 2 ^ 53) :
    F64.ofNat n = F64.fin false (n * oneUnits) := by
  have h := F64.ofRat_exact false n 1 hn (by decide)
  rw [Nat.mul_one] at h
  exact h

theorem F64.sub_ofNat (a b : Nat) (ha : a < 2 ^ 53) (hb : b < 2 ^ 53) :
    F64.sub (F64.ofNat a) (F64.ofNat b) =
      F64.fin (decide (a < b)) (Int.natAbs ((a : Int) - b) * oneUnits) := by
  rw [F64.ofNat_exact a ha, F64.ofNat_exact b hb]
  have hone := oneUnits_pos
  show F64.addFin false (a * oneUnits) true (b * oneUnits) = _
  unfold F64.addFin
  rw [if_neg (by decide)]
  rcases Nat.lt_trichotomy a b with h | h | h
  · have h1 : ¬ (b * oneUnits < a * oneUnits) := by
      have := Nat.mul_le_mul_right oneUnits (Nat.le_of_lt h)
      omega
    have h2 : a * oneUnits < b * oneUnits := Nat.mul_lt_mul_of_pos_right h hone
    rw [if_neg h1, if_pos h2, ← Nat.sub_mul]
    have h3 := F64.ofRat_exact true (b - a) 1 (by omega) (by decide)
    rw [Nat.mul_one] at h3
    rw [h3]
    have h4 : Int.natAbs ((a : Int) - b) = b - a := by omega
    rw [h4]
    simp [h]
  · subst h
    simp
  · have h1 : b * oneUnits < a * oneUnits := Nat.mul_lt_mul_of_pos_right h hone
    rw [if_pos h1, ← Nat.sub_mul]
    have h3 := F64.ofRat_exact false (a - b) 1 (by omega) (by decide)
    rw [Nat.mul_one] at h3
    rw [h3]
    have h4 : Int.natAbs ((a : Int) - b) = a - b := by omega
    rw [h4]
    have h5 : ¬ a < b := by omega
    simp [h5]

theorem F64.mul_self_fin (s : Bool) (d : Nat) (hd : d * d < 2 ^ 53) :
    F64.mul (F64.fin s (d * oneUnits)) (F64.fin s (d * oneUnits)) =
      F64.fin false (d * d * oneUnits) := by
  show F64.ofRat (xor s s) (d * oneUnits * (d * oneUnits)) oneUnits = _
  have h := F64.ofRat_exact false (d * d) oneUnits hd oneUnits_pos
  have hx : xor s s = false := by cases s <;> rfl
  have hn : d * oneUnits * (d * oneUnits) = d * d * oneUnits * oneUnits := by ring
  rw [hx, hn, h]

theorem F64.add_fin_exact (a b : Nat) (h : a + b < 2 ^ 53) :
    F64.add (F64.fin false (a * oneUnits)) (F64.fin false (b * oneUnits)) =
      F64.fin false ((a + b) * oneUnits) := by
  show F64.addFin false (a * oneUnits) false (b * oneUnits) = _
  unfold F64.addFin
  rw [if_pos rfl, ← Nat.add_mul]
  have h3 := F64.ofRat_exact false (a + b) 1 h (by decide)
  rw [Nat.mul_one] at h3
  exact h3

/-- The sum of squares under the root is computed exactly for samples in range. -/
theorem diffSample_eq_distScale (p1 p2 : Pixel) (h1 : p1.InRange) (h2 : p2.InRange) :
    diffSample p1 p2 = distScale (squaredDistance p1 p2) := by
  obtain ⟨hr1, hg1, hb1⟩ := h1
  obtain ⟨hr2, hg2, hb2⟩ := h2
  have hsq : ∀ a b : Nat, a ≤ 0xFFFF → b ≤ 0xFFFF →
      Int.natAbs ((a : Int) - b) * Int.natAbs ((a : Int) - b) ≤ 65535 * 65535 := by
    intro a b ha hb
    have : Int.natAbs ((a : Int) - b) ≤ 65535 := by omega
    exact Nat.mul_le_mul this this
  have hr := hsq p1.r p2.r hr1 hr2
  have hg := hsq p1.g p2.g hg1 hg2
  have hb := hsq p1.b p2.b hb1 hb2
  unfold diffSample distScale squaredDistance
  rw [F64.sub_ofNat p1.r p2.r (by omega) (by omega),
    F64.sub_ofNat p1.g p2.g (by omega) (by omega),
    F64.sub_ofNat p1.b p2.b (by omega) (by omega)]
  simp only []
  rw [F64.mul_self_fin _ _ (by omega), F64.mul_self_fin _ _ (by omega),
    F64.mul_self_fin _ _ (by omega), F64.add_fin_exact _ _ (by omega),
    F64.add_fin_exact _ _ (by omega)]
  rw [F64.ofNat_exact (_ ^ 2 + _ ^ 2 + _ ^ 2) (by rw [pow_two, pow_two, pow_two]; omega)]
  rw [pow_two, pow_two, pow_two]
theorem ofNat_3 : F64.ofNat 3 = F64.fin false (3 * oneUnits) := by decide!

theorem F64.mul_nonNeg (a : F64) (c : Nat) (hc : c ≠ 0) (ha : F64.NonNeg a) :
    F64.NonNeg (F64.mul a (F64.fin false c)) := by
  rcases ha with h | ⟨k, h⟩
  · rw [h]
    left
    simp [F64.mul, hc]
  · rw [h]
    simp only [F64.mul, Bool.xor_false]
    exact F64.ofRat_nonNeg _ _

/-- The numerator handed to the rounding by `F64.sqrt` grows with the argument. -/
theorem sqrt_num_mono (n1 n2 : Nat) (h : n1 ≤ n2) :
    2 * F64.isqrt n1 + (if F64.isqrt n1 * F64.isqrt n1 = n1 then 0 else 1) ≤
      2 * F64.isqrt n2 + (if F64.isqrt n2 * F64.isqrt n2 = n2 then 0 else 1) := by
  obtain ⟨ha1, ha2⟩ := isqrt_spec n1
  obtain ⟨hb1, hb2⟩ := isqrt_spec n2
  have hr : F64.isqrt n1 ≤ F64.isqrt n2 := by
    by_contra hc
    have hlt : F64.isqrt n2 + 1 ≤ F64.isqrt n1 := by omega
    have := Nat.mul_le_mul hlt hlt
    omega
  rcases Nat.eq_or_lt_of_le hr with heq | hlt
  · rw [heq] at ha1 ⊢
    by_cases h1 : F64.isqrt n2 * F64.isqrt n2 = n1
    · rw [if_pos h1]
      omega
    · rw [if_neg h1]
      have h2 : ¬ F64.isqrt n2 * F64.isqrt n2 = n2 := by omega
      rw [if_neg h2]
  · split_ifs <;> omega

/-- The square root is monotone on positive integers below `2^53`. -/
theorem F64.sqrt_ofNat_mono (S1 S2 : Nat) (h1 : 1 ≤ S1) (h : S1 ≤ S2) (h2 : S2 < 2 ^ 53) :
    F64.le (F64.sqrt (F64.ofNat S1)) (F64.sqrt (F64.ofNat S2)) = true ∧
    F64.NonNeg (F64.sqrt (F64.ofNat S1)) ∧ F64.NonNeg (F64.sqrt (F64.ofNat S2)) := by
  have hone := oneUnits_pos
  have hsqrt : ∀ S : Nat, 1 ≤ S → S < 2 ^ 53 →
      F64.sqrt (F64.ofNat S) =
        F64.ofRat false (2 * F64.isqrt (S * oneUnits * oneUnits) +
          (if F64.isqrt (S * oneUnits * oneUnits) * F64.isqrt (S * oneUnits * oneUnits) =
            S * oneUnits * oneUnits then 0 else 1)) 2 := by
    intro S hS1 hS2
    rw [F64.ofNat_exact S hS2]
    have hk : ¬ S * oneUnits = 0 := Nat.mul_ne_zero (by omega) (by omega)
    simp only [F64.sqrt, if_neg hk]
    rfl
  rw [hsqrt S1 h1 (by omega), hsqrt S2 (by omega) h2]
  refine ⟨F64.ofRat_mono 2 _ _ (by decide) (sqrt_num_mono _ _ ?_), F64.ofRat_nonNeg _ _,
    F64.ofRat_nonNeg _ _⟩
  exact Nat.mul_le_mul_right _ (Nat.mul_le_mul_right _ h)

/-- The diff sample grows with the sum of the squared deltas. -/
theorem distScale_mono (S1 S2 : Nat) (h1 : 1 ≤ S1) (h : S1 ≤ S2) (h2 : S2 < 2 ^ 53) :
    F64.le (distScale S1) (distScale S2) = true ∧
    F64.NonNeg (distScale S1) ∧ F64.NonNeg (distScale S2) := by
  have hone : oneUnits ≠ 0 := Nat.pos_iff_ne_zero.mp oneUnits_pos
  obtain ⟨hs, hn1, hn2⟩ := F64.sqrt_ofNat_mono S1 S2 h1 h h2
  unfold distScale
  rw [ofNat_65535, ofNat_255, ofNat_3]
  have hc1 : 65535 * oneUnits ≠ 0 := Nat.mul_ne_zero (by decide) hone
  have hc2 : 255 * oneUnits ≠ 0 := Nat.mul_ne_zero (by decide) hone
  have hc3 : 3 * oneUnits ≠ 0 := Nat.mul_ne_zero (by decide) hone
  obtain ⟨hd, hdn1, hdn2⟩ := F64.div_mono _ _ _ hc1 hn1 hn2 hs
  have hm := F64.mul_mono _ _ _ hc2 hdn1 hdn2 hd
  exact F64.div_mono _ _ _ hc3 (F64.mul_nonNeg _ _ hc2 hdn1) (F64.mul_nonNeg _ _ hc2 hdn2) hm

theorem distScale_min : F64.le (F64.fin false (2 ^ 1000)) (distScale 1) = true := by decide!

theorem distScale_max :
    (distScale (3 * (65535 * 65535))).isFinite = true ∧
    (distScale (3 * (65535 * 65535))).withinMaxDiff = true := by decide!

/-- The diff sample of a sum of squares between 1 and `3 * 65535^2` is a finite value,
at least `2^1000` units and at most `255 / sqrt 3`. -/
theorem distScale_bounds (S : Nat) (h1 : 1 ≤ S) (h2 : S ≤ 3 * (65535 * 65535)) :
    ∃ k, distScale S = F64.fin false k ∧ 2 ^ 1000 ≤ k ∧
      (distScale S).withinMaxDiff = true := by
  obtain ⟨hlo, _, hnS⟩ := distScale_mono 1 S (by decide) h1 (by omega)
  obtain ⟨hhi, _, hnM⟩ := distScale_mono S (3 * (65535 * 65535)) h1 h2 (by decide)
  obtain ⟨hfinM, hwM⟩ := distScale_max
  have hlo2 := F64.le_trans _ _ _ distScale_min hlo
  rcases hnM with hM | ⟨kM, hM⟩
  · rw [hM] at hfinM
    exact absurd hfinM (by decide)
  · rw [hM] at hhi hwM
    rcases hnS with hS | ⟨k, hS⟩
    · rw [hS] at hhi
      simp [F64.le] at hhi
    · rw [hS] at hhi hlo2 ⊢
      have hk1 := (F64.le_fin_fin _ _).mp hlo2
      have hk2 := (F64.le_fin_fin _ _).mp hhi
      refine ⟨k, rfl, hk1, ?_⟩
      simp only [F64.withinMaxDiff, decide_eq_true_eq] at hwM ⊢
      have := Nat.mul_le_mul hk2 hk2
      omega

/-- A rounded value is at least a power of two that the exact value reaches. -/
theorem roundGrid_ge_pow (e num den : Nat) (hden : 0 < den) (h : 2 ^ e * den ≤ num) :
    2 ^ e ≤ roundGrid num den := by
  have hq : 2 ^ e ≤ num / den := (Nat.le_div_iff_mul_le hden).mpr h
  have hq0 : num / den ≠ 0 := by
    have := Nat.two_pow_pos e
    omega
  unfold roundGrid
  refine Nat.le_trans ?_ (roundAt_lower _ num den)
  rw [← Nat.div_div_eq_div_mul]
  by_cases hs : bitLen (num / den) - 53 ≤ e
  · have h1 : 2 ^ e = 2 ^ (e - (bitLen (num / den) - 53)) * 2 ^ (bitLen (num / den) - 53) := by
      rw [← Nat.pow_add]
      congr 1
      omega
    have h2 : 2 ^ (e - (bitLen (num / den) - 53)) ≤
        num / den / 2 ^ (bitLen (num / den) - 53) := by
      rw [Nat.le_div_iff_mul_le (Nat.two_pow_pos _), ← h1]
      exact hq
    calc 2 ^ e = 2 ^ (e - (bitLen (num / den) - 53)) * 2 ^ (bitLen (num / den) - 53) := h1
      _ ≤ num / den / 2 ^ (bitLen (num / den) - 53) * 2 ^ (bitLen (num / den) - 53) :=
        Nat.mul_le_mul_right _ h2
  · have hb := two_pow_bitLen_le (num / den) hq0
    have h3 : 2 ^ (bitLen (num / den) - 53) ≤ num / den :=
      Nat.le_trans (Nat.pow_le_pow_right (by decide) (by omega)) hb
    have h4 : 1 ≤ num / den / 2 ^ (bitLen (num / den) - 53) := by
      rw [Nat.le_div_iff_mul_le (Nat.two_pow_pos _), Nat.one_mul]
      exact h3
    have h5 : 2 ^ e ≤ 2 ^ (bitLen (num / den) - 53) :=
      Nat.pow_le_pow_right (by decide) (by omega)
    calc 2 ^ e ≤ 2 ^ (bitLen (num / den) - 53) := h5
      _ = 1 * 2 ^ (bitLen (num / den) - 53) := (Nat.one_mul _).symm
      _ ≤ num / den / 2 ^ (bitLen (num / den) - 53) * 2 ^ (bitLen (num / den) - 53) :=
        Nat.mul_le_mul_right _ h4
theorem ofNat_two_pow_63 : F64.ofNat (2 ^ 63) = F64.fin false (2 ^ 63 * oneUnits) := by decide!

/-- The float64 sum of samples of at least `2^1000` units is `+Inf` or a finite value of
at least `2^1000` units. -/
theorem sumFold_lower : ∀ (vals : List F64) (acc : F64),
    (∀ v, v ∈ vals → ∃ b, v = F64.fin false b ∧ 2 ^ 1000 ≤ b) →
    (acc = F64.inf false ∨ ∃ a, acc = F64.fin false a ∧ (vals = [] → 2 ^ 1000 ≤ a)) →
    vals.foldl (fun total v => F64.add total v) acc = F64.inf false ∨
      ∃ a, vals.foldl (fun total v => F64.add total v) acc = F64.fin false a ∧ 2 ^ 1000 ≤ a := by
  intro vals
  induction vals with
  | nil =>
    intro acc _ hacc
    rcases hacc with h | ⟨a, h, ha⟩
    · exact Or.inl h
    · exact Or.inr ⟨a, h, ha rfl⟩
  | cons x rest ih =>
    intro acc hvals hacc
    obtain ⟨b, hx, hb⟩ := hvals x (List.mem_cons_self _ _)
    rw [List.foldl_cons]
    apply ih _ (fun v hv => hvals v (List.mem_cons_of_mem _ hv))
    rcases hacc with h | ⟨a, h, _⟩
    · left
      rw [h, hx]
      rfl
    · rw [h, hx]
      have key : F64.add (F64.fin false a) (F64.fin false b) = F64.ofRat false (a + b) 1 := by
        show F64.addFin false a false b = _
        unfold F64.addFin
        rw [if_pos rfl]
      rw [key, F64.ofRat_eq]
      have hr := roundGrid_ge_pow 1000 (a + b) 1 (by decide) (by omega)
      by_cases ho : overflowUnits ≤ roundGrid (a + b) 1
      · rw [if_pos ho]
        exact Or.inl rfl
      · rw [if_neg ho]
        exact Or.inr ⟨_, rfl, fun _ => hr⟩

/-- The mean of fewer than `2^63` samples of at least `2^1000` units is positive. -/
theorem meanFloatSlice_pos (vals : List F64) (hne : vals ≠ [])
    (hlen : vals.length < 2 ^ 63)
    (hvals : ∀ v, v ∈ vals → ∃ b, v = F64.fin false b ∧ 2 ^ 1000 ≤ b) :
    F64.lt (F64.fin false 0) (meanFloatSlice vals) = true := by
  have hone := oneUnits_pos
  have hpos : 0 < vals.length := List.length_pos.mpr hne
  unfold meanFloatSlice
  rw [if_neg (by omega)]
  have hn1 : F64.le (F64.ofNat 1) (F64.ofNat vals.length) = true :=
    F64.ofRat_mono 1 _ _ (by decide) (Nat.mul_le_mul_right _ hpos)
  have hn2 : F64.le (F64.ofNat vals.length) (F64.ofNat (2 ^ 63)) = true :=
    F64.ofRat_mono 1 _ _ (by decide) (Nat.mul_le_mul_right _ (Nat.le_of_lt hlen))
  rw [F64.ofNat_exact 1 (by decide)] at hn1
  rw [ofNat_two_pow_63] at hn2
  have hnn : F64.NonNeg (F64.ofNat vals.length) := F64.ofRat_nonNeg _ _
  rcases hnn with hinf | ⟨kn, hkn⟩
  · rw [hinf] at hn2
    simp [F64.le] at hn2
  · rw [hkn] at hn1 hn2 ⊢
    have hk1 := (F64.le_fin_fin _ _).mp hn1
    have hk2 := (F64.le_fin_fin _ _).mp hn2
    have hkn0 : kn ≠ 0 := by omega
    rcases sumFold_lower vals (F64.fin false 0) hvals
        (Or.inr ⟨0, rfl, fun h => absurd h hne⟩) with ht | ⟨a, ht, ha⟩
    · rw [ht]
      rfl
    · rw [ht]
      simp only [F64.div, if_neg hkn0, Bool.xor_false]
      rw [F64.ofRat_eq]
      have hle : 2 ^ 0 * kn ≤ a * oneUnits := by
        have h1 : 2 ^ 63 * oneUnits ≤ 2 ^ 1000 * oneUnits :=
          Nat.mul_le_mul_right _ (Nat.pow_le_pow_right (by decide) (by decide))
        have h2 : 2 ^ 1000 * oneUnits ≤ a * oneUnits := Nat.mul_le_mul_right _ ha
        omega
      have hr := roundGrid_ge_pow 0 (a * oneUnits) kn (by omega) hle
      by_cases ho : overflowUnits ≤ roundGrid (a * oneUnits) kn
      · rw [if_pos ho]
        rfl
      · rw [if_neg ho]
        simp only [F64.lt, F64.units, decide_eq_true_eq, Bool.false_eq_true, if_false]
        have : 1 ≤ roundGrid (a * oneUnits) kn := hr
        omega

theorem scanCoords_length (w h : Nat) : (scanCoords w h).length = w * h := by
  unfold scanCoords
  induction w with
  | zero => simp
  | succ w ih =>
    rw [List.range_succ, List.flatMap_append, List.length_append, ih]
    simp
    ring

theorem squaredDistance_bounds (p1 p2 : Pixel) (h1 : p1.InRange) (h2 : p2.InRange)
    (hd : pixelsDiffer p1 p2 = true) :
    1 ≤ squaredDistance p1 p2 ∧ squaredDistance p1 p2 ≤ 3 * (65535 * 65535) := by
  obtain ⟨hr1, hg1, hb1⟩ := h1
  obtain ⟨hr2, hg2, hb2⟩ := h2
  have hsq : ∀ a b : Nat, a ≤ 0xFFFF → b ≤ 0xFFFF →
      Int.natAbs ((a : Int) - b) ^ 2 ≤ 65535 * 65535 ∧
      (a ≠ b → 1 ≤ Int.natAbs ((a : Int) - b) ^ 2) := by
    intro a b ha hb
    have hle : Int.natAbs ((a : Int) - b) ≤ 65535 := by omega
    rw [pow_two]
    refine ⟨Nat.mul_le_mul hle hle, fun hne => ?_⟩
    have hge : 1 ≤ Int.natAbs ((a : Int) - b) := by omega
    exact Nat.mul_le_mul hge hge
  obtain ⟨hr, hr0⟩ := hsq p1.r p2.r hr1 hr2
  obtain ⟨hg, hg0⟩ := hsq p1.g p2.g hg1 hg2
  obtain ⟨hb, hb0⟩ := hsq p1.b p2.b hb1 hb2
  unfold pixelsDiffer at hd
  simp only [decide_eq_true_eq] at hd
  unfold squaredDistance
  constructor
  · rcases hd with h | h | h
    · have := hr0 h
      omega
    · have := hg0 h
      omega
    · have := hb0 h
      omega
  · omega
/-- Each entry of the list `different` built by `imagesEqual` is the diff sample of a
pair of differing pixels. -/
theorem mem_imagesEqualScan (img1 img2 : Image) (v : F64)
    (hv : v ∈ imagesEqualScan img1 img2 img1.maxX img1.maxY) :
    ∃ x y, x < img1.maxX ∧ y < img1.maxY ∧
      pixelsDiffer (img1.pixelAt x y) (img2.pixelAt x y) = true ∧
      v = diffSample (img1.pixelAt x y) (img2.pixelAt x y) := by
  rw [imagesEqualScan_eq] at hv
  unfold diffSamples at hv
  obtain ⟨⟨x, y⟩, hmem, hval⟩ := List.mem_map.mp hv
  obtain ⟨hx, hy, hd⟩ := (mem_differingPixels img1 img2 x y).mp hmem
  exact ⟨x, y, hx, hy, hd, hval.symm⟩

theorem blackRow15_inRange : Image.InRange blackRow15 := by
  intro x y
  show blackPixel.r ≤ 0xFFFF ∧ blackPixel.g ≤ 0xFFFF ∧ blackPixel.b ≤ 0xFFFF
  decide

theorem whiteRow15_inRange : Image.InRange whiteRow15 := by
  intro x y
  show whitePixel.r ≤ 0xFFFF ∧ whitePixel.g ≤ 0xFFFF ∧ whitePixel.b ≤ 0xFFFF
  decide

theorem blackImage10_inRange : Image.InRange blackImage10 := by
  intro x y
  show blackPixel.r ≤ 0xFFFF ∧ blackPixel.g ≤ 0xFFFF ∧ blackPixel.b ≤ 0xFFFF
  decide

theorem dotImage10_inRange : Image.InRange dotImage10 := by
  intro x y
  unfold dotImage10
  simp only
  split_ifs <;> decide

/-- The list `different` of a row of 15 black pixels against a row of 15 white pixels:
15 times the largest diff sample. -/
theorem rows15_scan :
    imagesEqualScan blackRow15 whiteRow15 blackRow15.maxX blackRow15.maxY =
      List.replicate 15 (distScale (3 * (65535 * 65535))) := by
  rw [imagesEqualScan_eq]
  unfold diffSamples
  have hd : differingPixels blackRow15 whiteRow15 = scanCoords 15 1 := by decide
  have hs : diffSample blackPixel whitePixel = distScale (3 * (65535 * 65535)) := by
    rw [diffSample_eq_distScale blackPixel whitePixel (by decide) (by decide)]
    rfl
  rw [hd]
  show List.map (fun _ => diffSample blackPixel whitePixel) (scanCoords 15 1) = _
  rw [hs]
  rfl

theorem rows15_mean :
    (meanFloatSlice (List.replicate 15 (distScale (3 * (65535 * 65535))))).isFinite = true ∧
    (meanFloatSlice (List.replicate 15 (distScale (3 * (65535 * 65535))))).withinMaxDiff =
      false := by
  decide!

/-- Rounding to the grid raises a value by at most one part in `2^53`. -/
theorem roundGrid_one_upper (x : Nat) :
    2 ^ 53 * roundGrid x 1 ≤ (2 ^ 53 + 1) * x := by
  unfold roundGrid
  rw [Nat.div_one]
  by_cases hb : bitLen x ≤ 53
  · have hs : bitLen x - 53 = 0 := by omega
    rw [hs]
    have h := roundAt_exact 0 x 1 (by decide) (by simp)
    rw [Nat.mul_one] at h
    rw [h]
    omega
  · have hx0 : x ≠ 0 := by
      intro h0
      rw [h0, bitLen_zero] at hb
      omega
    have h1 := (roundAt_nearest (bitLen x - 53) x 1 (by decide)).1
    have h2 := two_pow_bitLen_le x hx0
    have h3 : bitLen x - 1 = (bitLen x - 53) + 52 := by omega
    rw [h3, Nat.pow_add] at h2
    generalize 2 ^ (bitLen x - 53) = S at h1 h2
    generalize roundAt (bitLen x - 53) x 1 = R at h1
    omega

/-- One step of the accumulation keeps the bound `2^53 * total <= M * i * (2^53 + 2 i)`. -/
theorem sum_step_bound (a b R M j : Nat)
    (hR : 2 ^ 53 * R ≤ (2 ^ 53 + 1) * (a + b)) (hb : b ≤ M)
    (hinv : 2 ^ 53 * a ≤ M * (j * (2 ^ 53 + 2 * j))) (hj : 2 * j ≤ 2 ^ 53) :
    2 ^ 53 * R ≤ M * ((j + 1) * (2 ^ 53 + 2 * (j + 1))) := by
  have h1 : M * (j * (2 ^ 53 + 2 * j)) ≤ M * (j * (2 * 2 ^ 53)) :=
    Nat.mul_le_mul_left _ (Nat.mul_le_mul_left _ (by omega))
  have ha : a ≤ 2 * (M * j) := by
    have h2 : 2 ^ 53 * a ≤ 2 ^ 53 * (2 * (M * j)) := by
      calc 2 ^ 53 * a ≤ M * (j * (2 * 2 ^ 53)) := Nat.le_trans hinv h1
        _ = 2 ^ 53 * (2 * (M * j)) := by ring
    exact Nat.le_of_mul_le_mul_left h2 (by norm_num)
  have h3 : (2 ^ 53 + 1) * (a + b) ≤ (2 ^ 53 + 1) * (a + M) :=
    Nat.mul_le_mul_left _ (by omega)
  have h4 : (2 ^ 53 + 1) * (a + M) = 2 ^ 53 * a + a + (2 ^ 53 + 1) * M := by ring
  have h5 : M * ((j + 1) * (2 ^ 53 + 2 * (j + 1))) =
      M * (j * (2 ^ 53 + 2 * j)) + 2 * (M * j) + (2 ^ 53 + 1) * M + (2 * (M * j) + M) := by
    ring
  rw [h5]
  calc 2 ^ 53 * R ≤ (2 ^ 53 + 1) * (a + b) := hR
    _ ≤ (2 ^ 53 + 1) * (a + M) := h3
    _ = 2 ^ 53 * a + a + (2 ^ 53 + 1) * M := h4
    _ ≤ M * (j * (2 ^ 53 + 2 * j)) + 2 * (M * j) + (2 ^ 53 + 1) * M := by omega
    _ ≤ M * (j * (2 ^ 53 + 2 * j)) + 2 * (M * j) + (2 ^ 53 + 1) * M + (2 * (M * j) + M) :=
      Nat.le_add_right _ _

/-- The float64 sum of at most `2^52` samples of at most `M` units stays finite and
within `M * n * (1 + n / 2^52)`. -/
theorem sumFold_upper (M : Nat) (hM : M ≤ 2 ^ 1100) : ∀ (vals : List F64) (j a : Nat),
    (∀ v, v ∈ vals → ∃ b, v = F64.fin false b ∧ b ≤ M) →
    2 * (j + vals.length) ≤ 2 ^ 53 →
    2 ^ 53 * a ≤ M * (j * (2 ^ 53 + 2 * j)) →
    ∃ t, vals.foldl (fun total v => F64.add total v) (F64.fin false a) = F64.fin false t ∧
      2 ^ 53 * t ≤
        M * ((j + vals.length) * (2 ^ 53 + 2 * (j + vals.length))) := by
  intro vals
  induction vals with
  | nil =>
    intro j a _ _ hinv
    exact ⟨a, rfl, by simpa using hinv⟩
  | cons x rest ih =>
    intro j a hvals hlen hinv
    obtain ⟨b, hx, hb⟩ := hvals x (List.mem_cons_self _ _)
    rw [List.length_cons] at hlen
    have hstep := sum_step_bound a b (roundGrid (a + b) 1) M j (roundGrid_one_upper _) hb hinv
      (by omega)
    have hno : ¬ overflowUnits ≤ roundGrid (a + b) 1 := by
      intro hov
      have h1 : (j + 1) * (2 ^ 53 + 2 * (j + 1)) ≤ 2 ^ 53 * 2 ^ 54 :=
        Nat.mul_le_mul (by omega) (by omega)
      have h2 : 2 ^ 53 * roundGrid (a + b) 1 ≤ 2 ^ 53 * (2 ^ 1100 * 2 ^ 54) := by
        calc 2 ^ 53 * roundGrid (a + b) 1 ≤ M * ((j + 1) * (2 ^ 53 + 2 * (j + 1))) := hstep
          _ ≤ 2 ^ 1100 * (2 ^ 53 * 2 ^ 54) := Nat.mul_le_mul hM h1
          _ = 2 ^ 53 * (2 ^ 1100 * 2 ^ 54) := by ring
      have h3 := Nat.le_of_mul_le_mul_left h2 (by norm_num)
      have h4 : 2 ^ 1100 * 2 ^ 54 < overflowUnits := by
        unfold overflowUnits
        rw [← Nat.pow_add]
        exact Nat.pow_lt_pow_right (by decide) (by decide)
      exact absurd (Nat.le_trans hov h3) (Nat.not_le.mpr h4)
    have hadd : F64.add (F64.fin false a) x = F64.fin false (roundGrid (a + b) 1) := by
      rw [hx]
      show F64.addFin false a false b = _
      unfold F64.addFin
      rw [if_pos rfl, F64.ofRat_eq, if_neg hno]
    rw [List.foldl_cons, hadd]
    obtain ⟨t, ht, hbound⟩ := ih (j + 1) (roundGrid (a + b) 1)
      (fun v hv => hvals v (List.mem_cons_of_mem _ hv)) (by omega) hstep
    refine ⟨t, ht, ?_⟩
    rw [List.length_cons]
    have he : j + (rest.length + 1) = j + 1 + rest.length := by omega
    rw [he]
    exact hbound

theorem ofDecimal_147_25 :
    F64.ofDecimal 14725 100 = F64.fin false (589 * 2 ^ 1072) := by decide!

theorem distScale_max_cap :
    F64.le (distScale (3 * (65535 * 65535))) (F64.fin false (37691 * 2 ^ 1066)) = true := by
  decide!

theorem cap_margin :
    37691 * 2 ^ 1066 * (2 ^ 53 + 2 ^ 33) ≤ 2 ^ 53 * (589 * 2 ^ 1072) ∧
    37691 * 2 ^ 1066 ≤ 2 ^ 1100 := by decide!

/-- The mean of at most `2^32` samples, each at most 147.23046875, is at most 147.25. -/
theorem meanFloatSlice_upper (vals : List F64) (hne : vals ≠ [])
    (hlen : vals.length ≤ 2 ^ 32)
    (hvals : ∀ v, v ∈ vals → ∃ b, v = F64.fin false b ∧ b ≤ 37691 * 2 ^ 1066) :
    F64.le (meanFloatSlice vals) (F64.ofDecimal 14725 100) = true := by
  have hone := oneUnits_pos
  have hpos : 0 < vals.length := List.length_pos.mpr hne
  obtain ⟨hmargin, hcap⟩ := cap_margin
  obtain ⟨t, ht, hbound⟩ := sumFold_upper (37691 * 2 ^ 1066) hcap vals 0 0 hvals
    (by omega) (by simp)
  rw [Nat.zero_add] at hbound
  unfold meanFloatSlice
  rw [if_neg (by omega), ht, F64.ofNat_exact vals.length (by omega), ofDecimal_147_25]
  have hn0 : vals.length * oneUnits ≠ 0 := Nat.mul_ne_zero (by omega) (by omega)
  simp only [F64.div, if_neg hn0, Bool.xor_false]
  generalize hM : 37691 * 2 ^ 1066 = M at hbound hmargin
  generalize hB : 589 * 2 ^ 1072 = B at hmargin
  generalize hn : vals.length = n at *
  have h1 : M * (n * (2 ^ 53 + 2 * n)) ≤ M * (n * (2 ^ 53 + 2 ^ 33)) :=
    Nat.mul_le_mul_left _ (Nat.mul_le_mul_left _ (by omega))
  have h2 : M * (n * (2 ^ 53 + 2 ^ 33)) = n * (M * (2 ^ 53 + 2 ^ 33)) := by ring
  have h3 : n * (M * (2 ^ 53 + 2 ^ 33)) ≤ n * (2 ^ 53 * B) := Nat.mul_le_mul_left _ hmargin
  have h4 : 2 ^ 53 * t ≤ 2 ^ 53 * (B * n) := by
    calc 2 ^ 53 * t ≤ M * (n * (2 ^ 53 + 2 * n)) := hbound
      _ ≤ M * (n * (2 ^ 53 + 2 ^ 33)) := h1
      _ = n * (M * (2 ^ 53 + 2 ^ 33)) := h2
      _ ≤ n * (2 ^ 53 * B) := h3
      _ = 2 ^ 53 * (B * n) := by ring
  have ht : t ≤ B * n := Nat.le_of_mul_le_mul_left h4 (by norm_num)
  have hnum : t * oneUnits ≤ B * (n * oneUnits) := by
    calc t * oneUnits ≤ B * n * oneUnits := Nat.mul_le_mul_right _ ht
      _ = B * (n * oneUnits) := by ring
  have hmono := F64.ofRat_mono (n * oneUnits) _ _ (Nat.pos_of_ne_zero hn0) hnum
  have hexact : F64.ofRat false (B * (n * oneUnits)) (n * oneUnits) = F64.fin false B := by
    rw [← hB]
    have h := roundGrid_exact 589 1072 (n * oneUnits) (by norm_num) (Nat.pos_of_ne_zero hn0)
    rw [F64.ofRat_eq, h]
    have hlt : ¬ overflowUnits ≤ 589 * 2 ^ 1072 := by
      unfold overflowUnits
      have h5 : 589 * 2 ^ 1072 < 2 ^ 10 * 2 ^ 1072 :=
        Nat.mul_lt_mul_of_pos_right (by norm_num) (Nat.two_pow_pos _)
      have h6 : 2 ^ 10 * 2 ^ 1072 ≤ 2 ^ 2098 := by
        rw [← Nat.pow_add]
        exact Nat.pow_le_pow_right (by decide) (by decide)
      omega
    rw [if_neg hlt]
  rw [hexact] at hmono
  exact hmono

theorem le_147_25_255 : F64.le (F64.ofDecimal 14725 100) (F64.ofNat 255) = true := by decide!

/-- The diff sample of a sum of squares between 1 and `3 * 65535^2` is a finite value of
at most 147.23046875. -/
theorem distScale_le_cap (S : Nat) (h1 : 1 ≤ S) (h2 : S ≤ 3 * (65535 * 65535)) :
    ∃ k, distScale S = F64.fin false k ∧ k ≤ 37691 * 2 ^ 1066 := by
  obtain ⟨hhi, hnS, _⟩ := distScale_mono S (3 * (65535 * 65535)) h1 h2 (by decide)
  have hcap := F64.le_trans _ _ _ hhi distScale_max_cap
  rcases hnS with hS | ⟨k, hS⟩
  · rw [hS] at hcap
    simp [F64.le] at hcap
  · rw [hS] at hcap
    exact ⟨k, hS, (F64.le_fin_fin _ _).mp hcap⟩

/-! ## Theorems: bounds of the diff sample -/

/-- Counterexample to C24 as stated: for a row of 15 black pixels and a row of 15 white
pixels, every diff sample is at most `255 / sqrt 3`, but their mean computed by
`meanFloatSlice` (the float64 sum accumulated in order, divided by 15) is greater than
`255 / sqrt 3`. -/
theorem diffSample_mean_exceeds :
    (imagesEqualScan blackRow15 whiteRow15 blackRow15.maxX blackRow15.maxY).length = 15 ∧
    (∀ v, v ∈ imagesEqualScan blackRow15 whiteRow15 blackRow15.maxX blackRow15.maxY →
      v.isFinite = true ∧ v.withinMaxDiff = true) ∧
    (meanFloatSlice
      (imagesEqualScan blackRow15 whiteRow15 blackRow15.maxX blackRow15.maxY)).isFinite = true ∧
    (meanFloatSlice
      (imagesEqualScan blackRow15 whiteRow15 blackRow15.maxX blackRow15.maxY)).withinMaxDiff =
        false := by
  rw [rows15_scan]
  refine ⟨by simp, ?_, rows15_mean.1, rows15_mean.2⟩
  intro v hv
  rw [(List.mem_replicate.mp hv).2]
  exact distScale_max

/-- C24 (amended): for two rasters with samples on the scale `0..0xFFFF`, every diff
sample computed by `imagesEqual` belongs to a pair of pixels that differ in R, G or B and
equals `sqrt(dR^2 + dG^2 + dB^2) / 0xFFFF * 0xFF / 3`, with the sum of the squared channel
deltas computed exactly; it is strictly positive and never exceeds `255 / sqrt 3`.  The
mean over the differing pixels (the float64 sum accumulated in order, divided by the
count) is strictly positive for rasters of fewer than `2^63` pixels and, for rasters of at
most `2^32` pixels, never exceeds 147.25, so it lies in the range `0..255`. -/
theorem diffSample_bounds (img1 img2 : Image) (h1 : img1.InRange) (h2 : img2.InRange)
    (hsize : img1.maxX * img1.maxY < 2 ^ 63) :
    (∀ v, v ∈ imagesEqualScan img1 img2 img1.maxX img1.maxY →
      ∃ x y, x < img1.maxX ∧ y < img1.maxY ∧
        pixelsDiffer (img1.pixelAt x y) (img2.pixelAt x y) = true ∧
        v = distScale (squaredDistance (img1.pixelAt x y) (img2.pixelAt x y)) ∧
        F64.lt (F64.fin false 0) v = true ∧ v.withinMaxDiff = true) ∧
    (imagesEqualScan img1 img2 img1.maxX img1.maxY ≠ [] →
      F64.lt (F64.fin false 0)
        (meanFloatSlice (imagesEqualScan img1 img2 img1.maxX img1.maxY)) = true) ∧
    (imagesEqualScan img1 img2 img1.maxX img1.maxY ≠ [] →
      img1.maxX * img1.maxY ≤ 2 ^ 32 →
      F64.le (meanFloatSlice (imagesEqualScan img1 img2 img1.maxX img1.maxY))
        (F64.ofDecimal 14725 100) = true ∧
      F64.le (meanFloatSlice (imagesEqualScan img1 img2 img1.maxX img1.maxY))
        (F64.ofNat 255) = true) := by
  have hsample : ∀ v, v ∈ imagesEqualScan img1 img2 img1.maxX img1.maxY →
      ∃ x y, x < img1.maxX ∧ y < img1.maxY ∧
        pixelsDiffer (img1.pixelAt x y) (img2.pixelAt x y) = true ∧
        v = distScale (squaredDistance (img1.pixelAt x y) (img2.pixelAt x y)) ∧
        ∃ k, v = F64.fin false k ∧ 2 ^ 1000 ≤ k ∧ k ≤ 37691 * 2 ^ 1066 ∧
          v.withinMaxDiff = true := by
    intro v hv
    obtain ⟨x, y, hx, hy, hd, hval⟩ := mem_imagesEqualScan img1 img2 v hv
    have hp1 : (img1.pixelAt x y).InRange := h1 x y
    have hp2 : (img2.pixelAt x y).InRange := h2 x y
    obtain ⟨hS1, hS2⟩ := squaredDistance_bounds _ _ hp1 hp2 hd
    have heq := diffSample_eq_distScale _ _ hp1 hp2
    rw [heq] at hval
    obtain ⟨k, hk, hk1, hw⟩ := distScale_bounds _ hS1 hS2
    obtain ⟨k2, hk2, hcap⟩ := distScale_le_cap _ hS1 hS2
    have hkk : k2 = k := by
      rw [hk] at hk2
      exact (F64.fin.inj hk2).2.symm
    rw [hkk] at hcap
    exact ⟨x, y, hx, hy, hd, hval, k, by rw [hval, hk], hk1, hcap, by rw [hval]; exact hw⟩
  have hlen : (imagesEqualScan img1 img2 img1.maxX img1.maxY).length ≤
      img1.maxX * img1.maxY := by
    rw [imagesEqualScan_eq]
    unfold diffSamples differingPixels
    rw [List.length_map]
    have := List.length_filter_le
      (fun c => pixelsDiffer (img1.pixelAt c.1 c.2) (img2.pixelAt c.1 c.2))
      (scanCoords img1.maxX img1.maxY)
    rw [scanCoords_length] at this
    exact this
  refine ⟨?_, ?_, ?_⟩
  · intro v hv
    obtain ⟨x, y, hx, hy, hd, hval, k, hk, hk1, _, hw⟩ := hsample v hv
    refine ⟨x, y, hx, hy, hd, hval, ?_, hw⟩
    rw [hk]
    simp only [F64.lt, F64.units, decide_eq_true_eq, Bool.false_eq_true, if_false]
    have : 0 < 2 ^ 1000 := Nat.two_pow_pos 1000
    omega
  · intro hne
    apply meanFloatSlice_pos _ hne (by omega)
    intro v hv
    obtain ⟨_, _, _, _, _, _, k, hk, hk1, _, _⟩ := hsample v hv
    exact ⟨k, hk, hk1⟩
  · intro hne hsmall
    have hup := meanFloatSlice_upper _ hne (by omega) (fun v hv => by
      obtain ⟨_, _, _, _, _, _, k, hk, _, hcap, _⟩ := hsample v hv
      exact ⟨k, hk, hcap⟩)
    exact ⟨hup, F64.le_trans _ _ _ hup le_147_25_255⟩

/-- Witness of C24 (amended): a black 10x10 raster and the same raster with one white
pixel. -/
theorem diffSample_bounds_witness :
    Image.InRange blackImage10 ∧ Image.InRange dotImage10 ∧
    blackImage10.maxX * blackImage10.maxY < 2 ^ 63 ∧
    (imagesEqualScan blackImage10 dotImage10 blackImage10.maxX blackImage10.maxY ≠ [] →
      F64.lt (F64.fin false 0)
        (meanFloatSlice
          (imagesEqualScan blackImage10 dotImage10 blackImage10.maxX blackImage10.maxY)) =
        true) ∧
    (imagesEqualScan blackImage10 dotImage10 blackImage10.maxX blackImage10.maxY ≠ [] →
      blackImage10.maxX * blackImage10.maxY ≤ 2 ^ 32 →
      F64.le
        (meanFloatSlice
          (imagesEqualScan blackImage10 dotImage10 blackImage10.maxX blackImage10.maxY))
        (F64.ofDecimal 14725 100) = true ∧
      F64.le
        (meanFloatSlice
          (imagesEqualScan blackImage10 dotImage10 blackImage10.maxX blackImage10.maxY))
        (F64.ofNat 255) = true) :=
  ⟨blackImage10_inRange, dotImage10_inRange, by decide,
    (diffSample_bounds blackImage10 dotImage10 blackImage10_inRange dotImage10_inRange
      (by decide)).2⟩

/-! ## Lemmas on the guard of missclassificationError -/

/-- The linear core of the guard analysis, over the products as atoms. -/
theorem guard_arith_atoms (VV X TN CN W Z : Nat)
    (h1 : 100 * (2 ^ 108 * VV) ≤ X)
    (h2 : 2 * X + Z ≤ 2 * TN)
    (h3 : 2 * TN ≤ 200 * CN + 100 * W)
    (h4 : 100 * 2 ^ 52 * W ≤ TN)
    (h5 : X < 2 ^ 53 * Z)
    (hZW : Z ≤ 32 * W ∨ Z = 64 * W ∨ 128 * W ≤ Z) :
    2 ^ 108 * VV ≤ CN + 2 ^ 54 * VV := by
  norm_num at *
  omega

/-- With `U` one, `V = U / 2^54`, `N` the character count, `X / N` the exact percentage,
`T` a threshold at least half a grid step `2^s` above it and `C` the quotient `T / 100`
rounded at the step `2^sc`, the product `C * N` is at least `U - V`. -/
theorem guard_arith (U V N X T C s sc : Nat) (hU : U = 2 ^ 54 * V)
    (h1 : 100 * (U * U) ≤ X)
    (h2 : 2 * X + N * 2 ^ s ≤ 2 * (T * N))
    (h3 : 2 * T ≤ 200 * C + 100 * 2 ^ sc)
    (h4 : 100 * 2 ^ 52 * 2 ^ sc ≤ T)
    (h5 : X < 2 ^ 53 * (N * 2 ^ s)) :
    U * U ≤ C * N + V * U := by
  have hUU : U * U = 2 ^ 108 * (V * V) := by subst hU; ring
  have hVU : V * U = 2 ^ 54 * (V * V) := by subst hU; ring
  have h3n : 2 * (T * N) ≤ 200 * (C * N) + 100 * (N * 2 ^ sc) := by
    have := Nat.mul_le_mul_right N h3
    calc 2 * (T * N) = 2 * T * N := by ring
      _ ≤ (200 * C + 100 * 2 ^ sc) * N := this
      _ = 200 * (C * N) + 100 * (N * 2 ^ sc) := by ring
  have h4n : 100 * 2 ^ 52 * (N * 2 ^ sc) ≤ T * N := by
    have := Nat.mul_le_mul_right N h4
    calc 100 * 2 ^ 52 * (N * 2 ^ sc) = 100 * 2 ^ 52 * 2 ^ sc * N := by ring
      _ ≤ T * N := this
  have hZW : N * 2 ^ s ≤ 32 * (N * 2 ^ sc) ∨ N * 2 ^ s = 64 * (N * 2 ^ sc) ∨
      128 * (N * 2 ^ sc) ≤ N * 2 ^ s := by
    rcases Nat.lt_trichotomy s (sc + 6) with h | h | h
    · left
      have : 2 ^ s ≤ 2 ^ (sc + 5) := Nat.pow_le_pow_right (by norm_num) (by omega)
      calc N * 2 ^ s ≤ N * 2 ^ (sc + 5) := Nat.mul_le_mul_left N this
        _ = 32 * (N * 2 ^ sc) := by ring
    · right; left
      subst h; ring
    · right; right
      have : 2 ^ (sc + 7) ≤ 2 ^ s := Nat.pow_le_pow_right (by norm_num) (by omega)
      calc 128 * (N * 2 ^ sc) = N * 2 ^ (sc + 7) := by ring
        _ ≤ N * 2 ^ s := Nat.mul_le_mul_left N this
  rw [hUU] at h1 ⊢
  rw [hVU]
  exact guard_arith_atoms (V * V) X (T * N) (C * N) (N * 2 ^ sc) (N * 2 ^ s) h1 h2 h3n h4n h5 hZW

/-- The point half a grid step below one rounds to one (a tie, resolved to the even
significand). -/
theorem roundGrid_half_below_one :
    roundGrid ((oneUnits - 2 ^ 1020) * oneUnits) oneUnits = oneUnits := by decide!

theorem oneUnits_split : oneUnits = 2 ^ 54 * 2 ^ 1020 := by
  unfold oneUnits
  rw [← Nat.pow_add]

theorem roundAt_dvd (s num den : Nat) : 2 ^ s ∣ roundAt s num den := by
  unfold roundAt
  exact Dvd.intro_left _ rfl

/-- Two multiples of the step `S` are at least `S` apart. -/
theorem grid_gap (S P T : Nat) (hP : S ∣ P) (hT : S ∣ T) (hlt : P < T) : P + S ≤ T := by
  obtain ⟨a, rfl⟩ := hP
  obtain ⟨b, rfl⟩ := hT
  have hab : a < b := Nat.lt_of_mul_lt_mul_left hlt
  calc S * a + S = S * (a + 1) := by ring
    _ ≤ S * b := Nat.mul_le_mul_left S hab

/-- A grid point `T` above the rounding of `X / N` is at least half a grid step above
`X / N` itself. -/
theorem guard_star (X N T : Nat) (hN : 0 < N) (hXN : X / N ≠ 0)
    (hgrid : T % 2 ^ (bitLen T - 53) = 0) (hlt : roundGrid X N < T) :
    2 * X + N * 2 ^ (bitLen (X / N) - 53) ≤ 2 * (T * N) := by
  have hq := two_pow_bitLen_le (X / N) hXN
  have hge : 2 ^ (bitLen (X / N) - 1) ≤ roundGrid X N :=
    roundGrid_ge_pow _ X N hN ((Nat.le_div_iff_mul_le hN).mp hq)
  have hbT : bitLen (X / N) ≤ bitLen T := by
    by_contra hcon
    have h1 : bitLen T ≤ bitLen (X / N) - 1 := by omega
    have h2 : 2 ^ bitLen T ≤ 2 ^ (bitLen (X / N) - 1) := Nat.pow_le_pow_right (by norm_num) h1
    have h3 := lt_two_pow_bitLen T
    omega
  have hTdvd : 2 ^ (bitLen (X / N) - 53) ∣ T :=
    Dvd.dvd.trans (pow_dvd_pow 2 (by omega)) (Nat.dvd_of_mod_eq_zero hgrid)
  have hPdvd : 2 ^ (bitLen (X / N) - 53) ∣ roundGrid X N := roundAt_dvd _ X N
  have hgap := grid_gap _ _ _ hPdvd hTdvd hlt
  have hnear : 2 * X ≤ 2 * (roundGrid X N * N) + N * 2 ^ (bitLen (X / N) - 53) :=
    (roundAt_nearest (bitLen (X / N) - 53) X N hN).2
  have hmul := Nat.mul_le_mul_right N hgap
  have e : (roundGrid X N + 2 ^ (bitLen (X / N) - 53)) * N =
      roundGrid X N * N + N * 2 ^ (bitLen (X / N) - 53) := by ring
  rw [e] at hmul
  omega

/-- The rounded quotient `C` of a threshold `T >= 100 * 2^52` by 100 is within half
a grid step of `T / 100`, and the grid step is at most `2^-52` of `T / 100`. -/
theorem guard_quotient (T : Nat) (hT : 100 * 2 ^ 52 ≤ T) :
    2 * T ≤ 200 * roundGrid (T * oneUnits) (100 * oneUnits) +
      100 * 2 ^ (bitLen (T * oneUnits / (100 * oneUnits)) - 53) ∧
    100 * 2 ^ 52 * 2 ^ (bitLen (T * oneUnits / (100 * oneUnits)) - 53) ≤ T := by
  have hU := oneUnits_pos
  have hden : 0 < 100 * oneUnits := by omega
  have hq : T * oneUnits / (100 * oneUnits) = T / 100 := Nat.mul_div_mul_right T 100 hU
  constructor
  · have hnear := (roundAt_nearest (bitLen (T * oneUnits / (100 * oneUnits)) - 53)
      (T * oneUnits) (100 * oneUnits) hden).2
    have hC : roundAt (bitLen (T * oneUnits / (100 * oneUnits)) - 53)
        (T * oneUnits) (100 * oneUnits) = roundGrid (T * oneUnits) (100 * oneUnits) := rfl
    rw [hC] at hnear
    apply Nat.le_of_mul_le_mul_right _ hU
    calc 2 * T * oneUnits = 2 * (T * oneUnits) := by ring
      _ ≤ _ := hnear
      _ = _ := by ring
  · rw [hq]
    have h52 : 2 ^ 52 ≤ T / 100 := (Nat.le_div_iff_mul_le (by norm_num)).mpr (by omega)
    have hne : T / 100 ≠ 0 := by
      have : 0 < 2 ^ 52 := Nat.two_pow_pos 52
      omega
    have hb : 53 ≤ bitLen (T / 100) := by
      by_contra hcon
      have h1 : 2 ^ bitLen (T / 100) ≤ 2 ^ 52 := Nat.pow_le_pow_right (by norm_num) (by omega)
      have h2 := lt_two_pow_bitLen (T / 100)
      omega
    have h3 := two_pow_bitLen_le (T / 100) hne
    have e : bitLen (T / 100) - 1 = 52 + (bitLen (T / 100) - 53) := by omega
    rw [e, Nat.pow_add] at h3
    have h4 := Nat.div_mul_le_self T 100
    calc 100 * 2 ^ 52 * 2 ^ (bitLen (T / 100) - 53)
        = 2 ^ 52 * 2 ^ (bitLen (T / 100) - 53) * 100 := by ring
      _ ≤ T / 100 * 100 := Nat.mul_le_mul_right 100 h3
      _ ≤ T := h4

/-- The guard in units: for a count `N` between 1 and `2^63`, an exact percentage
`X / N` of at least `100 / N`, and a grid point `T` above the rounded percentage, the
product of the rounded `T / 100` and `N` rounds to at least one. -/
theorem guard_units (N X T : Nat) (hN1 : oneUnits ≤ N) (hN2 : N ≤ 2 ^ 63 * oneUnits)
    (hX : 100 * (oneUnits * oneUnits) ≤ X)
    (hgrid : T % 2 ^ (bitLen T - 53) = 0) (hlt : roundGrid X N < T) :
    oneUnits ≤ roundGrid (roundGrid (T * oneUnits) (100 * oneUnits) * N) oneUnits := by
  have hU := oneUnits_pos
  have hN : 0 < N := by omega
  have hUe : oneUnits = 2 ^ 63 * 2 ^ 1011 := by
    unfold oneUnits
    rw [← Nat.pow_add]
  -- the exact percentage is at least `100 * 2^1011` units
  have hXN : 100 * 2 ^ 1011 * N ≤ X := by
    calc 100 * 2 ^ 1011 * N ≤ 100 * 2 ^ 1011 * (2 ^ 63 * oneUnits) :=
          Nat.mul_le_mul_left _ hN2
      _ = 100 * ((2 ^ 63 * 2 ^ 1011) * oneUnits) := by ring
      _ = 100 * (oneUnits * oneUnits) := by rw [← hUe]
      _ ≤ X := hX
  have hquot : 100 * 2 ^ 1011 ≤ X / N := (Nat.le_div_iff_mul_le hN).mpr hXN
  have hpos : 0 < 2 ^ 1011 := Nat.two_pow_pos 1011
  have hXN0 : X / N ≠ 0 := by omega
  have hP : 100 * 2 ^ 1011 ≤ roundGrid X N := by
    have h1 := roundGrid_mono N _ _ hN hXN
    have h2 := roundGrid_exact 25 1013 N (by norm_num) hN
    have e : 25 * 2 ^ 1013 = 100 * 2 ^ 1011 := by
      rw [show 1013 = 2 + 1011 from rfl, Nat.pow_add]
      ring
    rw [e] at h2
    rw [h2] at h1
    exact h1
  have hT : 100 * 2 ^ 52 ≤ T := by
    have : 2 ^ 52 ≤ 2 ^ 1011 := Nat.pow_le_pow_right (by norm_num) (by norm_num)
    omega
  have h2 := guard_star X N T hN hXN0 hgrid hlt
  obtain ⟨h3, h4⟩ := guard_quotient T hT
  have h5 : X < 2 ^ 53 * (N * 2 ^ (bitLen (X / N) - 53)) := by
    have hb := lt_two_pow_bitLen (X / N)
    have hle : 2 ^ bitLen (X / N) ≤ 2 ^ (53 + (bitLen (X / N) - 53)) :=
      Nat.pow_le_pow_right (by norm_num) (by omega)
    rw [Nat.pow_add] at hle
    have hlt2 : X / N < 2 ^ 53 * 2 ^ (bitLen (X / N) - 53) := Nat.lt_of_lt_of_le hb hle
    have := (Nat.div_lt_iff_lt_mul hN).mp hlt2
    calc X < 2 ^ 53 * 2 ^ (bitLen (X / N) - 53) * N := this
      _ = 2 ^ 53 * (N * 2 ^ (bitLen (X / N) - 53)) := by ring
  have hmain := guard_arith oneUnits (2 ^ 1020) N X T
    (roundGrid (T * oneUnits) (100 * oneUnits)) _ _ oneUnits_split hX h2 h3 h4 h5
  have hle : (oneUnits - 2 ^ 1020) * oneUnits ≤
      roundGrid (T * oneUnits) (100 * oneUnits) * N := by
    rw [Nat.sub_mul]
    exact Nat.sub_le_iff_le_add.mpr hmain
  have hmono := roundGrid_mono oneUnits _ _ hU hle
  rw [roundGrid_half_below_one] at hmono
  exact hmono

theorem ofDecimal_100 : F64.ofDecimal 100 1 = F64.fin false (100 * oneUnits) :=
  F64.ofNat_exact 100 (by norm_num)

theorem ofDecimal_1 : F64.ofDecimal 1 1 = F64.fin false oneUnits := by
  have h : F64.ofDecimal 1 1 = F64.fin false (1 * oneUnits) := F64.ofNat_exact 1 (by norm_num)
  rw [Nat.one_mul] at h
  exact h

theorem roundGrid_oneUnits : roundGrid oneUnits 1 = oneUnits := by
  unfold oneUnits
  have h := roundGrid_exact 1 1074 1 (by norm_num) (by norm_num)
  rw [Nat.one_mul, Nat.mul_one] at h
  exact h

theorem roundGrid_units_exact (m den : Nat) (hm : m < 2 ^ 53) (hden : 0 < den) :
    roundGrid (m * oneUnits * den) den = m * oneUnits := by
  unfold oneUnits
  exact roundGrid_exact m 1074 den hm hden

theorem roundGrid_two_pow_63 : roundGrid (2 ^ 63 * oneUnits) 1 = 2 ^ 63 * oneUnits := by
  unfold oneUnits
  have h := roundGrid_exact 1 (63 + 1074) 1 (by norm_num) (by norm_num)
  rw [Nat.one_mul, Nat.mul_one, Nat.pow_add] at h
  rw [h]

/-- The conversion of a count between 1 and `2^63` is finite, at least one and at
most `2^63`. -/
theorem ofInt_count (n : Int) (h1 : 1 ≤ n) (h63 : n < 2 ^ 63) :
    ∃ N, F64.ofInt n = F64.fin false N ∧ oneUnits ≤ N ∧ N ≤ 2 ^ 63 * oneUnits := by
  have hneg : decide (n < 0) = false := decide_eq_false (by omega)
  have hlo : 1 ≤ n.natAbs := by omega
  have hhi : n.natAbs ≤ 2 ^ 63 := by omega
  have hge : oneUnits ≤ roundGrid (n.natAbs * oneUnits) 1 := by
    have h := roundGrid_mono 1 (1 * oneUnits) (n.natAbs * oneUnits) (by norm_num)
      (Nat.mul_le_mul_right _ hlo)
    rw [Nat.one_mul, roundGrid_oneUnits] at h
    exact h
  have hle : roundGrid (n.natAbs * oneUnits) 1 ≤ 2 ^ 63 * oneUnits := by
    have h := roundGrid_mono 1 (n.natAbs * oneUnits) (2 ^ 63 * oneUnits) (by norm_num)
      (Nat.mul_le_mul_right _ hhi)
    rw [roundGrid_two_pow_63] at h
    exact h
  have hov : 2 ^ 63 * oneUnits < overflowUnits := by
    unfold oneUnits overflowUnits
    rw [← Nat.pow_add]
    exact Nat.pow_lt_pow_right (by norm_num) (by norm_num)
  refine ⟨roundGrid (n.natAbs * oneUnits) 1, ?_, hge, hle⟩
  unfold F64.ofInt
  rw [hneg, F64.ofRat_eq, if_neg (by omega)]

/-- The conversion of a positive count is an infinity or a finite value of at least one. -/
theorem ofInt_pos (m : Int) (h1 : 1 ≤ m) :
    F64.ofInt m = F64.inf false ∨ ∃ M, F64.ofInt m = F64.fin false M ∧ oneUnits ≤ M := by
  have hneg : decide (m < 0) = false := decide_eq_false (by omega)
  have hlo : 1 ≤ m.natAbs := by omega
  have hge : oneUnits ≤ roundGrid (m.natAbs * oneUnits) 1 := by
    have h := roundGrid_mono 1 (1 * oneUnits) (m.natAbs * oneUnits) (by norm_num)
      (Nat.mul_le_mul_right _ hlo)
    rw [Nat.one_mul, roundGrid_oneUnits] at h
    exact h
  unfold F64.ofInt
  rw [hneg, F64.ofRat_eq]
  by_cases hov : overflowUnits ≤ roundGrid (m.natAbs * oneUnits) 1
  · rw [if_pos hov]
    exact Or.inl rfl
  · rw [if_neg hov]
    exact Or.inr ⟨_, rfl, hge⟩

/-- For positive counts the percentage is an infinity or the rounding of an exact
quotient `X / N` with `X` at least 100. -/
theorem percentage_cases (n m : Int) (hn1 : 1 ≤ n) (hm1 : 1 ≤ m) (N : Nat)
    (hN : F64.ofInt n = F64.fin false N) (hN0 : N ≠ 0) :
    percentage n m = F64.inf false ∨
    ∃ X, 100 * (oneUnits * oneUnits) ≤ X ∧ percentage n m = F64.fin false (roundGrid X N) := by
  have hU := oneUnits_pos
  have hn0 : n ≠ 0 := by omega
  unfold percentage
  rw [if_neg hn0, hN, ofDecimal_100]
  rcases ofInt_pos m hm1 with hM | ⟨M, hM, hM1⟩
  · rw [hM]
    left
    have h100 : 100 * oneUnits ≠ 0 := by omega
    simp only [F64.mul, F64.div, if_neg h100, Bool.xor_false]
  · rw [hM]
    have hmul : F64.mul (F64.fin false (100 * oneUnits)) (F64.fin false M) =
        F64.ofRat false (100 * oneUnits * M) oneUnits := rfl
    rw [hmul, F64.ofRat_eq]
    by_cases hov : overflowUnits ≤ roundGrid (100 * oneUnits * M) oneUnits
    · rw [if_pos hov]
      left
      rfl
    · rw [if_neg hov]
      have hA : 100 * oneUnits ≤ roundGrid (100 * oneUnits * M) oneUnits := by
        have h := roundGrid_mono oneUnits (100 * oneUnits * oneUnits) (100 * oneUnits * M) hU
          (Nat.mul_le_mul_left _ hM1)
        have e : roundGrid (100 * oneUnits * oneUnits) oneUnits = 100 * oneUnits :=
          roundGrid_units_exact 100 oneUnits (by norm_num) hU
        rw [e] at h
        exact h
      have hdiv : F64.div (F64.fin false (roundGrid (100 * oneUnits * M) oneUnits))
          (F64.fin false N) =
          F64.ofRat false (roundGrid (100 * oneUnits * M) oneUnits * oneUnits) N := by
        simp only [F64.div, if_neg hN0, Bool.xor_false]
      rw [hdiv, F64.ofRat_eq]
      by_cases hov2 : overflowUnits ≤
          roundGrid (roundGrid (100 * oneUnits * M) oneUnits * oneUnits) N
      · rw [if_pos hov2]
        exact Or.inl rfl
      · rw [if_neg hov2]
        right
        refine ⟨roundGrid (100 * oneUnits * M) oneUnits * oneUnits, ?_, rfl⟩
        calc 100 * (oneUnits * oneUnits) = 100 * oneUnits * oneUnits := by ring
          _ ≤ _ := Nat.mul_le_mul_right _ hA

/-- The guard of `missclassificationError` follows from the comparison of the
percentage with the threshold, in `float64` arithmetic. -/
theorem guard_of_lt (threshold : F64) (n m : Int) (hn1 : 1 ≤ n) (hn63 : n < 2 ^ 63)
    (hm1 : 1 ≤ m) (hthr : F64.onGrid threshold = true)
    (hlt : F64.lt (percentage n m) threshold = true) :
    F64.ge (F64.mul (F64.div threshold (F64.ofDecimal 100 1)) (F64.ofInt n))
      (F64.ofDecimal 1 1) = true := by
  have hU := oneUnits_pos
  obtain ⟨N, hN, hN1, hN2⟩ := ofInt_count n hn1 hn63
  have hN0 : N ≠ 0 := by omega
  have h100 : 100 * oneUnits ≠ 0 := by omega
  rw [hN, ofDecimal_100, ofDecimal_1]
  rcases percentage_cases n m hn1 hm1 N hN hN0 with hP | ⟨X, hX, hP⟩
  · rw [hP] at hlt
    cases threshold <;> simp [F64.lt] at hlt
  · rw [hP] at hlt
    cases threshold with
    | nan => simp [F64.lt] at hlt
    | inf s =>
      have hs : s = false := by
        cases s
        · rfl
        · simp [F64.lt] at hlt
      subst hs
      simp only [F64.div, F64.mul, if_neg hN0, Bool.xor_false, F64.ge, F64.le, Bool.not_false]
    | fin s T =>
      have hs : s = false := by
        cases s
        · rfl
        · simp only [F64.lt, F64.units, decide_eq_true_eq] at hlt
          simp at hlt
          omega
      subst hs
      have hPT : roundGrid X N < T := by
        simp only [F64.lt, F64.units, decide_eq_true_eq] at hlt
        simp at hlt
        exact hlt
      have hgrid : T % 2 ^ (bitLen T - 53) = 0 := by
        simp only [F64.onGrid, Bool.and_eq_true, decide_eq_true_eq] at hthr
        exact hthr.1
      have hG := guard_units N X T hN1 hN2 hX hgrid hPT
      have hdiv : F64.div (F64.fin false T) (F64.fin false (100 * oneUnits)) =
          F64.ofRat false (T * oneUnits) (100 * oneUnits) := by
        simp only [F64.div, if_neg h100, Bool.xor_false]
      rw [hdiv, F64.ofRat_eq]
      by_cases hov : overflowUnits ≤ roundGrid (T * oneUnits) (100 * oneUnits)
      · rw [if_pos hov]
        simp only [F64.mul, if_neg hN0, Bool.xor_false, F64.ge, F64.le, Bool.not_false]
      · rw [if_neg hov]
        have hmul : F64.mul (F64.fin false (roundGrid (T * oneUnits) (100 * oneUnits)))
            (F64.fin false N) =
            F64.ofRat false (roundGrid (T * oneUnits) (100 * oneUnits) * N) oneUnits := rfl
        rw [hmul, F64.ofRat_eq]
        by_cases hov2 : overflowUnits ≤
            roundGrid (roundGrid (T * oneUnits) (100 * oneUnits) * N) oneUnits
        · rw [if_pos hov2]
          simp only [F64.ge, F64.le, Bool.not_false]
        · rw [if_neg hov2]
          exact (F64.le_fin_fin _ _).mpr hG

/-- With the threshold `100/3` as a `float64`, three characters and one miss, the
`float64` percentage equals the threshold and `missclassificationError` returns
`ErrBadText`. -/
theorem missclassificationError_third :
    percentage 3 1 = F64.ofDecimal 100 3 ∧
    missclassificationError (F64.ofDecimal 100 3) 3 1 = some ErrBadText := by
  decide!

/-! ## Theorems: the guard of missclassificationError -/

/-- C30: the guard `(threshold/100)*numChars >= 1` of `missclassificationError` is
redundant.  Over exact arithmetic, for counts `numChars >= 1` and `numMisses >= 1` and
every threshold `t`, `100 * numMisses / numChars < t` implies `(t/100) * numChars >= 1`.
The same holds of the `float64` computation of the code, for a count `numChars` of the
type `int` (below `2^63`) and every `float64` threshold (NaN and the infinities
included): `percentage(numChars, numMisses) < threshold` implies the guard; so for all
counts from zero on the function returns nil if and only if `numChars = 0`, or
`numMisses = 0`, or the percentage is below the threshold. -/
theorem missclassificationError_guard_redundant (threshold : F64) (numChars numMisses : Int)
    (hn : 0 ≤ numChars) (hn63 : numChars < 2 ^ 63) (hm : 0 ≤ numMisses)
    (hthr : F64.onGrid threshold = true) :
    (∀ t : ℚ, 1 ≤ numChars → 1 ≤ numMisses →
      100 * (numMisses : ℚ) / (numChars : ℚ) < t → (t / 100) * (numChars : ℚ) ≥ 1) ∧
    (1 ≤ numChars → 1 ≤ numMisses →
      F64.lt (percentage numChars numMisses) threshold = true →
      F64.ge (F64.mul (F64.div threshold (F64.ofDecimal 100 1)) (F64.ofInt numChars))
        (F64.ofDecimal 1 1) = true) ∧
    (missclassificationError threshold numChars numMisses = none ↔
      numChars = 0 ∨ numMisses = 0 ∨
        F64.lt (percentage numChars numMisses) threshold = true) := by
  refine ⟨?_, ?_, ?_⟩
  · intro t h1 h2 hp
    have hnq : (1 : ℚ) ≤ (numChars : ℚ) := by exact_mod_cast h1
    have hmq : (1 : ℚ) ≤ (numMisses : ℚ) := by exact_mod_cast h2
    have hnpos : (0 : ℚ) < (numChars : ℚ) := by linarith
    rw [div_lt_iff₀ hnpos] at hp
    have e : t / 100 * (numChars : ℚ) = t * (numChars : ℚ) / 100 := by ring
    rw [e, ge_iff_le, le_div_iff₀ (by norm_num)]
    linarith
  · intro h1 h2 hlt
    exact guard_of_lt threshold numChars numMisses h1 hn63 h2 hthr hlt
  · constructor
    · exact missclassificationError_none threshold numChars numMisses
    · intro h
      unfold missclassificationError
      by_cases h0 : numChars = 0 ∨ numMisses = 0
      · rw [if_pos h0]
      · rw [if_neg h0]
        have hn1 : 1 ≤ numChars := by
          have : numChars ≠ 0 := fun h => h0 (Or.inl h)
          omega
        have hm1 : 1 ≤ numMisses := by
          have : numMisses ≠ 0 := fun h => h0 (Or.inr h)
          omega
        rcases h with h1 | h1 | h1
        · exact absurd (Or.inl h1) h0
        · exact absurd (Or.inr h1) h0
        · rw [if_pos ⟨guard_of_lt threshold numChars numMisses hn1 hn63 hm1 hthr h1, h1⟩]

/-- Witness of C30: ten characters and five misses under the threshold 60, where the
percentage 50 is below the threshold and the function returns nil. -/
theorem missclassificationError_guard_redundant_witness :
    (0 : Int) ≤ 10 ∧ (10 : Int) < 2 ^ 63 ∧ (0 : Int) ≤ 5 ∧
    F64.onGrid (F64.ofDecimal 60 1) = true ∧
    F64.lt (percentage 10 5) (F64.ofDecimal 60 1) = true ∧
    (missclassificationError (F64.ofDecimal 60 1) 10 5 = none ↔
      (10 : Int) = 0 ∨ (5 : Int) = 0 ∨
        F64.lt (percentage 10 5) (F64.ofDecimal 60 1) = true) :=
  ⟨by decide, by decide, by decide, by decide!, by decide!,
    (missclassificationError_guard_redundant (F64.ofDecimal 60 1) 10 5 (by decide) (by decide)
      (by decide) (by decide!)).2.2⟩

end PdfGrayscale
